import Mathlib

/-!
# coml.h: a shallow embedding of the parser, serializer and query/mutation API

Conventions of the embedding.

* A C string is a `List Char` (one `Char` per byte, no NUL inside); a pointer
  that may be `NULL` is an `Option`.
* The linked lists `Coml_KV.next` and `Coml_Table.next` are Lean lists, head
  of the chain first.
* A `double`, a `float` are natural-number codes; the libc / libm functions on
  them (`atof`, `floor`, the `printf` conversions, the C casts) are fields of
  `Env`, as is the indeterminate content of a freshly allocated `Coml_KV`.
* A C function that can reach undefined behaviour (a `NULL` dereference, a
  `size_t` wrap-around used as a copy length, a read of a payload at another
  type, a read past the end of a block) returns `Except Stop _`, with
  `Stop.undefined` at that point. The outer loop of `coml_parse` may not
  terminate; it is run with fuel and yields `Stop.fuel` when the fuel is used
  up.
* Where the code leaves a byte of a block unwritten, overruns a block it asked
  for, or asks for a block of size 0, what happens is up to the heap and the
  allocator: `Env` has a field for each such place (`heap_nul`,
  `line_capacity`, `float_block_holds_double`, `malloc_zero_null`,
  `realloc_zero_null`).
* Allocation of a block of non-zero size always succeeds; `free` is not
  modelled.
-/

set_option autoImplicit false

namespace ComlH

/-- C string: the bytes before the terminating NUL. -/
abbrev Str := List Char

/-- The double quote character (0x22). -/
abbrev DQ : Char := Char.ofNat 34

/-- The single quote character (0x27). -/
abbrev SQ : Char := Char.ofNat 39

/-- Code of a C `double`. -/
abbrev Double := Nat

/-- Code of a C `float`. -/
abbrev Float32 := Nat

/-- The enum `Coml_Type`, as the integer it is in C. -/
abbrev Coml_Type := Nat

abbrev ComlType_Double : Coml_Type := 0
abbrev ComlType_String : Coml_Type := 1
abbrev ComlType_Boolean : Coml_Type := 2
abbrev ComlType_ListDouble : Coml_Type := 3
abbrev ComlType_ListString : Coml_Type := 4

/-- Why a run did not return: undefined behaviour was reached, or the fuel of
the outer parse loop ran out. -/
inductive Stop where
  | undefined
  | fuel
  deriving DecidableEq, Repr

deriving instance DecidableEq for Except

/-- What the `void* value` of an entry points to. -/
inductive Payload where
  | double (d : Double)
  | string (s : Str)
  | bool (b : Bool)
  | listDouble (xs : List Double)
  | listString (xs : List Str)
  deriving DecidableEq, Repr

/-- The struct `Coml_KV` without its `next` pointer; `value = none` is `NULL`. -/
structure Coml_KV where
  key : Str
  value : Option Payload
  type : Coml_Type
  list_length : Nat
  deriving DecidableEq, Repr

/-- The struct `Coml_Table` without its `next` pointer. -/
structure Coml_Table where
  name : Str
  items : List Coml_KV
  deriving DecidableEq, Repr

/-- The struct `Coml`. -/
structure Coml where
  raw_content : Str
  tables : List Coml_Table
  items : List Coml_KV
  next_table : Nat
  deriving DecidableEq, Repr

/-- The platform: libc, libm and the C casts on the number codes, the
indeterminate bytes `malloc(sizeof(Coml_KV))` hands out (`fresh_kv`), and the
state of the heap where the code depends on it.

* `heap_nul copied`: `coml_parse_value` copies the inside of a quoted string,
  and of a list, into a block one byte longer than the copy and never writes
  that last byte; the field says whether the byte reads as NUL in the block
  that holds `copied`.
* `line_capacity`: `coml_format_kv` builds the line of a list entry in a block
  of `malloc(sizeof(char*)+1)` bytes, by `sprintf` calls that have the block as
  destination and as argument; the field is the number of bytes the platform
  lets these calls fill, the closing NUL included (0 where a `sprintf` onto
  its own argument does not work at all).
* `float_block_holds_double`: `coml_set_float` resizes the payload to
  `sizeof(float)` and stores a `double` in it; the field says whether the
  block the allocator returns has room for it.
* `malloc_zero_null`, `realloc_zero_null`: whether `realloc(NULL, 0)`, and
  `realloc(p, 0)` for a `p` that is not `NULL`, return `NULL`. -/
structure Env where
  atof : Str → Double
  is_whole : Double → Bool
  fmt_int : Double → Str
  fmt_fixed : Double → Str
  int_to_double : Int → Double
  float_to_double : Float32 → Double
  double_to_int : Double → Int
  double_to_float : Double → Float32
  float_zero : Float32
  fresh_kv : Coml_KV
  heap_nul : Str → Bool
  line_capacity : Nat
  float_block_holds_double : Bool
  malloc_zero_null : Bool
  realloc_zero_null : Bool

/-! ## Text utilities -/

/-- The `while (*iter != 0)` loop of `coml_trim`; the flag is `is_in_string`. -/
def coml_trim_loop : Bool → Str → Str
  | _, [] => []
  | is_in_string, c :: iter =>
    let flag := if c = DQ ∨ c = SQ then !is_in_string else is_in_string
    if flag then c :: coml_trim_loop flag iter
    else if c ≠ Char.ofNat 9 ∧ c ≠ Char.ofNat 32 then c :: coml_trim_loop flag iter
    else coml_trim_loop flag iter

/-- The function `coml_trim`. -/
def coml_trim (input : Str) : Str := coml_trim_loop false input

/-- The `strtok` loop of `coml_split` for a one-character delimiter string;
`token` is the token being scanned. Empty tokens are never produced. -/
def coml_split_loop (delim : Char) : Str → Str → List Str
  | [], token => if token = [] then [] else [token]
  | c :: rest, token =>
    if c = delim then
      if token = [] then coml_split_loop delim rest []
      else token :: coml_split_loop delim rest []
    else coml_split_loop delim rest (token ++ [c])

/-- The function `coml_split`: the array before its `NULL` terminator. The
array itself is never `NULL`. -/
def coml_split (input : Str) (delim : Char) : List Str := coml_split_loop delim input []

/-- The function `coml_split_length`. -/
def coml_split_length (split : List Str) : Nat := split.length

/-! ## Value parsing -/

/-- The copy `strncpy(dst, s + 1, strlen(s) - 2)` of a bracketed or quoted
token into a block of `strlen(s) - 1` bytes whose last byte the code sets to
NUL (by `memset` for a table name, by an assignment for an element of a string
list): the string read back is the copied bytes. With `strlen(s) < 2` the
length wraps around and the copy overruns `dst`. -/
def strip_ends (s : Str) : Except Stop Str :=
  if s.length < 2 then .error .undefined else .ok ((s.drop 1).take (s.length - 2))

/-- The same copy where the code does not write the last byte of the block
(the inside of a quoted string, the inside of a list): that byte is as
`malloc` left it. The string is then read, by `strdup` or by `coml_split`;
when the byte reads as NUL the string is the copied bytes, otherwise the read
runs past the end of the block. -/
def strip_ends_open (P : Env) (s : Str) : Except Stop Str :=
  match strip_ends s with
  | .error e => .error e
  | .ok copied => if P.heap_nul copied then .ok copied else .error .undefined

/-- The loop of `coml_parse_value` that fills a string list. -/
def strip_elements : List Str → Except Stop (List Str)
  | [] => .ok []
  | e :: rest => do
    let string_value ← strip_ends e
    let more ← strip_elements rest
    pure (string_value :: more)

/-- The function `coml_parse_value`: the flag it returns and the entry as
it leaves it. -/
def coml_parse_value (P : Env) (kv : Coml_KV) (input : Option Str) :
    Except Stop (Bool × Coml_KV) :=
  match input with
  | none => .error .undefined
  | some s =>
    if s.head? = some DQ ∨ s.head? = some SQ then
      if s.head? = some DQ ∧ s.getLast? ≠ some DQ then .ok (false, kv)
      else if s.head? = some SQ ∧ s.getLast? ≠ some SQ then .ok (false, kv)
      else do
        let actual_string ← strip_ends_open P s
        pure (true, { kv with value := some (.string actual_string),
                              type := ComlType_String, list_length := 0 })
    else if s.head? = some '[' then
      if s.getLast? ≠ some ']' then .ok (false, kv)
      else do
        let actual_list ← strip_ends_open P s
        let list_elements := coml_split actual_list ','
        let list_length := coml_split_length list_elements
        match list_elements with
        | [] => .error .undefined
        | e0 :: _ =>
          if e0.head? = some DQ ∨ e0.head? = some SQ then
            if e0.head? = some DQ ∧ e0.getLast? ≠ some DQ then .ok (false, kv)
            else if e0.head? = some SQ ∧ e0.getLast? ≠ some SQ then .ok (false, kv)
            else do
              let strings ← strip_elements list_elements
              pure (true, { kv with value := some (.listString strings),
                                    type := ComlType_ListString,
                                    list_length := list_length })
          else
            .ok (true, { kv with value := some (.listDouble (list_elements.map P.atof)),
                                 type := ComlType_ListDouble,
                                 list_length := list_length })
    else if s = "true".toList ∨ s = "false".toList then
      .ok (true, { kv with value := some (.bool (decide (s = "true".toList))),
                           type := ComlType_Boolean, list_length := 0 })
    else
      .ok (true, { kv with value := some (.double (P.atof s)),
                           type := ComlType_Double, list_length := 0 })

/-- The entry of `coml_new_kv` before its value is parsed: fresh memory with
the key stored. -/
def fresh_entry (P : Env) (key : Str) : Coml_KV :=
  { key := key, value := P.fresh_kv.value, type := P.fresh_kv.type,
    list_length := P.fresh_kv.list_length }

/-- The function `coml_new_kv`; `strdup(key)` needs a non-`NULL` key. -/
def coml_new_kv (P : Env) (key value : Option Str) : Except Stop Coml_KV :=
  match key with
  | none => .error .undefined
  | some k =>
    match coml_parse_value P (fresh_entry P k) value with
    | .error e => .error e
    | .ok (res, kv) => .ok (if !res then { kv with value := none } else kv)

/-- The function `coml_insert_kv`. -/
def coml_insert_kv (P : Env) (kv : List Coml_KV) (key value : Option Str) :
    Except Stop (List Coml_KV) :=
  match coml_new_kv P key value with
  | .error e => .error e
  | .ok new_kv => .ok (new_kv :: kv)

/-- The function `coml_new_table`. -/
def coml_new_table (name : Str) (items : List Coml_KV) : Coml_Table :=
  { name := name, items := items }

/-- The function `coml_insert_table`. -/
def coml_insert_table (table : List Coml_Table) (name : Str) (items : List Coml_KV) :
    List Coml_Table :=
  coml_new_table name items :: table

/-! ## Statement and table parsing -/

/-- The function `coml_parse_kv` (`table` not `NULL`). `coml_split` never
returns `NULL`, so the exit on `parts == NULL` is never taken; `parts[0]` and
`parts[1]` are `NULL` when the line has no first or no second token. -/
def coml_parse_kv (P : Env) (table : Coml_Table) (input : Str) :
    Except Stop (Bool × Coml_Table) :=
  let trim := coml_trim input
  let parts := coml_split trim '='
  match coml_insert_kv P table.items parts[0]? parts[1]? with
  | .error e => .error e
  | .ok items => .ok (true, { table with items := items })

/-- The `for` loop of `coml_parse_table` from line `i` on; the first argument
is `lines + i`. -/
def coml_parse_table_loop (P : Env) :
    List Str → Nat → Coml → Coml_Table → Except Stop (Bool × Coml × Coml_Table)
  | [], _, coml, new_table => .ok (true, coml, new_table)
  | l :: rest, i, coml, new_table =>
    if l.head? = some '#' then coml_parse_table_loop P rest (i + 1) coml new_table
    else if l.head? = some '[' then .ok (true, { coml with next_table := i }, new_table)
    else
      let coml := if rest = [] then { coml with next_table := i + 1 } else coml
      match coml_parse_kv P new_table l with
      | .error e => .error e
      | .ok (false, _) => .ok (false, coml, new_table)
      | .ok (true, t) => coml_parse_table_loop P rest (i + 1) coml t

/-- The function `coml_parse_table`. -/
def coml_parse_table (P : Env) (coml : Coml) : Except Stop (Bool × Coml) :=
  let lines := coml_split coml.raw_content '\n'
  match lines[coml.next_table]? with
  | none => .error .undefined
  | some l0 =>
    let coml := if l0.head? = some '#' then { coml with next_table := coml.next_table + 1 }
                else coml
    match lines[coml.next_table]? with
    | none => .error .undefined
    | some header =>
      match strip_ends header with
      | .error e => .error e
      | .ok table_name =>
        let new_table := coml_new_table table_name []
        match coml_parse_table_loop P (lines.drop (coml.next_table + 1))
                (coml.next_table + 1) coml new_table with
        | .error e => .error e
        | .ok (false, coml, _) => .ok (false, coml)
        | .ok (true, coml, new_table) =>
          .ok (true, { coml with
            tables := coml_insert_table coml.tables new_table.name new_table.items })

/-- The first `for` loop of `coml_parse` from line `i` on; the first argument
is `lines + i`, and `lines[i][0]` is read without a test for the end. The
`break` on `parts == NULL` is never taken. -/
def coml_parse_root_loop (P : Env) : List Str → Nat → Coml → Except Stop Coml
  | [], _, _ => .error .undefined
  | l :: rest, i, coml =>
    if l.head? = some '[' then .ok coml
    else if l.head? = some '#' then coml_parse_root_loop P rest (i + 1) coml
    else
      let trim := coml_trim l
      let parts := coml_split trim '='
      match coml_insert_kv P coml.items parts[0]? parts[1]? with
      | .error e => .error e
      | .ok items =>
        coml_parse_root_loop P rest (i + 1) { coml with items := items, next_table := i + 1 }

/-- The `while (coml->next_table != length)` loop of `coml_parse`. -/
def coml_parse_tables (P : Env) (length : Nat) : Nat → Coml → Except Stop (Option Coml)
  | 0, coml => if coml.next_table ≠ length then .error .fuel else .ok (some coml)
  | fuel + 1, coml =>
    if coml.next_table ≠ length then
      match coml_parse_table P coml with
      | .error e => .error e
      | .ok (false, _) => .ok none
      | .ok (true, coml) => coml_parse_tables P length fuel coml
    else .ok (some coml)

/-- The function `coml_parse` on a non-`NULL` buffer (`from_file` only says
who frees the buffer). -/
def coml_parse (P : Env) (fuel : Nat) (content : Str) : Except Stop (Option Coml) :=
  if content = [] then .ok none
  else
    let coml : Coml := { raw_content := content, tables := [], items := [], next_table := 0 }
    let lines := coml_split coml.raw_content '\n'
    match coml_parse_root_loop P lines 0 coml with
    | .error e => .error e
    | .ok coml => coml_parse_tables P (coml_split_length lines) fuel coml

/-! ## Serialization -/

/-- The elements of a list as `coml_format_kv` appends them to `line`: a
space, the element, and a comma except after the last one. -/
def format_elements (show_element : Double → Str) : List Double → Str
  | [] => []
  | [x] => ' ' :: show_element x
  | x :: y :: rest => ' ' :: show_element x ++ ',' :: format_elements show_element (y :: rest)

/-- The elements of a string list as `coml_format_kv` appends them. -/
def format_strings : List Str → Str
  | [] => []
  | [x] => ' ' :: DQ :: x ++ [DQ]
  | x :: y :: rest => ' ' :: DQ :: x ++ DQ :: ',' :: format_strings (y :: rest)

/-- The number conversion of `coml_format_kv`: `%i` of the value cast to
`int` when `floor(x) == x`, else `%.5f`. -/
def format_number (P : Env) (x : Double) : Str :=
  if P.is_whole x then P.fmt_int x else P.fmt_fixed x

/-- The line of a list entry as `coml_format_kv` prints it: `text` is what the
format strings spell. The code builds it in a block of
`malloc(sizeof(char*)+1)` bytes with `sprintf(line, "%s ...", line, ...)`,
which C leaves undefined; the text is printed when it fits, with its closing
NUL, into what the platform lets these calls fill. -/
def print_list_line (P : Env) (text : Str) : Except Stop Str :=
  if text.length < P.line_capacity then .ok (text ++ ['\n']) else .error .undefined

/-- The `switch (kv->type)` of `coml_format_kv`: the line printed for one
entry. The payload is read at the type the tag names; `list_length` elements
of a list are read. -/
def coml_format_entry (P : Env) (kv : Coml_KV) : Except Stop Str :=
  if kv.type = ComlType_Double then
    match kv.value with
    | some (.double x) => .ok (kv.key ++ " = ".toList ++ format_number P x ++ ['\n'])
    | _ => .error .undefined
  else if kv.type = ComlType_String then
    match kv.value with
    | some (.string s) => .ok (kv.key ++ " = ".toList ++ DQ :: s ++ [DQ, '\n'])
    | _ => .error .undefined
  else if kv.type = ComlType_Boolean then
    match kv.value with
    | some (.bool b) =>
      .ok (kv.key ++ " = ".toList ++ (if b then "true".toList else "false".toList) ++ ['\n'])
    | _ => .error .undefined
  else if kv.type = ComlType_ListDouble then
    if kv.list_length = 0 then print_list_line P (kv.key ++ " = [ ]".toList)
    else
      match kv.value with
      | some (.listDouble xs) =>
        if kv.list_length ≤ xs.length then
          print_list_line P (kv.key ++ " = [".toList
                ++ format_elements (format_number P) (xs.take kv.list_length) ++ " ]".toList)
        else .error .undefined
      | _ => .error .undefined
  else if kv.type = ComlType_ListString then
    if kv.list_length = 0 then print_list_line P (kv.key ++ " = [ ]".toList)
    else
      match kv.value with
      | some (.listString xs) =>
        if kv.list_length ≤ xs.length then
          print_list_line P (kv.key ++ " = [".toList
                ++ format_strings (xs.take kv.list_length) ++ " ]".toList)
        else .error .undefined
      | _ => .error .undefined
  else .ok (kv.key ++ " = ".toList ++ DQ :: "NULL (default)".toList ++ [DQ, '\n'])

/-- The function `coml_format_kv`: the text it prints for a chain of entries.
It recurses into `kv->next` before it prints `kv`. -/
def coml_format_kv (P : Env) : List Coml_KV → Except Stop Str
  | [] => .ok []
  | kv :: next => do
    let before ← coml_format_kv P next
    let line ← coml_format_entry P kv
    pure (before ++ line)

/-- The function `coml_format_table`: the text it prints for a chain of
tables. It recurses into `table->next` before it prints `table`. -/
def coml_format_table (P : Env) : List Coml_Table → Except Stop Str
  | [] => .ok []
  | table :: next => do
    let before ← coml_format_table P next
    let body ← coml_format_kv P table.items
    pure (before ++ '[' :: table.name ++ ']' :: '\n' :: body ++ ['\n'])

/-- The function `coml_write_file` on a path that opens: the text written. -/
def coml_write_file (P : Env) (coml : Coml) : Except Stop Str := do
  let root ← coml_format_kv P coml.items
  let tables ← coml_format_table P coml.tables
  pure (root ++ '\n' :: tables)

/-! ## Query API -/

/-- The `while (kv != NULL)` search of a chain for a key: the position of the
first entry with that key, and the entry. -/
def kv_search (key_name : Str) : List Coml_KV → Option (Nat × Coml_KV)
  | [] => none
  | kv :: next =>
    if kv.key = key_name then some (0, kv)
    else (kv_search key_name next).map (fun r => (r.1 + 1, r.2))

/-- The table loop of `coml_get_value_raw`. -/
def coml_get_value_raw_loop (table_name key_name : Str) : List Coml_Table → Option Payload
  | [] => none
  | current_table :: next =>
    if current_table.name = table_name then
      match kv_search key_name current_table.items with
      | some r => r.2.value
      | none => coml_get_value_raw_loop table_name key_name next
    else coml_get_value_raw_loop table_name key_name next

/-- The function `coml_get_value_raw` (`table_name` not `NULL`). -/
def coml_get_value_raw (coml : Coml) (table_name key_name : Str) : Option Payload :=
  coml_get_value_raw_loop table_name key_name coml.tables

/-- The table loop of `coml_find_value_raw`. -/
def coml_find_value_raw_loop (key_name : Str) : List Coml_Table → Option Payload
  | [] => none
  | current_table :: next =>
    match kv_search key_name current_table.items with
    | some r => r.2.value
    | none => coml_find_value_raw_loop key_name next

/-- The function `coml_find_value_raw`. -/
def coml_find_value_raw (coml : Coml) (key_name : Str) : Option Payload :=
  match kv_search key_name coml.items with
  | some r => r.2.value
  | none => coml_find_value_raw_loop key_name coml.tables

/-- The function `coml_get_value_int`: `(int)*(double*)value`. -/
def coml_get_value_int (P : Env) (coml : Coml) (table_name key_name : Str) :
    Except Stop Int :=
  match coml_get_value_raw coml table_name key_name with
  | none => .ok 0
  | some (.double d) => .ok (P.double_to_int d)
  | some _ => .error .undefined

/-- The function `coml_get_value_float`: `(float)*(double*)value`. -/
def coml_get_value_float (P : Env) (coml : Coml) (table_name key_name : Str) :
    Except Stop Float32 :=
  match coml_get_value_raw coml table_name key_name with
  | none => .ok P.float_zero
  | some (.double d) => .ok (P.double_to_float d)
  | some _ => .error .undefined

/-- The function `coml_get_value_string`: the pointer read as a string. -/
def coml_get_value_string (coml : Coml) (table_name key_name : Str) :
    Except Stop (Option Str) :=
  match coml_get_value_raw coml table_name key_name with
  | none => .ok none
  | some (.string s) => .ok (some s)
  | some _ => .error .undefined

/-- The function `coml_get_value_bool`: `*(bool*)value`. -/
def coml_get_value_bool (coml : Coml) (table_name key_name : Str) : Except Stop Bool :=
  match coml_get_value_raw coml table_name key_name with
  | none => .ok false
  | some (.bool b) => .ok b
  | some _ => .error .undefined

/-- The function `coml_get_value_list_double`: the pointer read as an array
of `double`. -/
def coml_get_value_list_double (coml : Coml) (table_name key_name : Str) :
    Except Stop (Option (List Double)) :=
  match coml_get_value_raw coml table_name key_name with
  | none => .ok none
  | some (.listDouble xs) => .ok (some xs)
  | some _ => .error .undefined

/-- The function `coml_get_value_list_string`: the pointer read as an array
of strings. -/
def coml_get_value_list_string (coml : Coml) (table_name key_name : Str) :
    Except Stop (Option (List Str)) :=
  match coml_get_value_raw coml table_name key_name with
  | none => .ok none
  | some (.listString xs) => .ok (some xs)
  | some _ => .error .undefined

/-- The function `coml_find_value_int`: `(int)*(double*)value`. -/
def coml_find_value_int (P : Env) (coml : Coml) (key_name : Str) : Except Stop Int :=
  match coml_find_value_raw coml key_name with
  | none => .ok 0
  | some (.double d) => .ok (P.double_to_int d)
  | some _ => .error .undefined

/-- The function `coml_find_value_float`: `(float)*(double*)value`. -/
def coml_find_value_float (P : Env) (coml : Coml) (key_name : Str) : Except Stop Float32 :=
  match coml_find_value_raw coml key_name with
  | none => .ok P.float_zero
  | some (.double d) => .ok (P.double_to_float d)
  | some _ => .error .undefined

/-- The function `coml_find_value_string`: the pointer read as a string. -/
def coml_find_value_string (coml : Coml) (key_name : Str) : Except Stop (Option Str) :=
  match coml_find_value_raw coml key_name with
  | none => .ok none
  | some (.string s) => .ok (some s)
  | some _ => .error .undefined

/-- The function `coml_find_value_bool`: `*(bool*)value`. -/
def coml_find_value_bool (coml : Coml) (key_name : Str) : Except Stop Bool :=
  match coml_find_value_raw coml key_name with
  | none => .ok false
  | some (.bool b) => .ok b
  | some _ => .error .undefined

/-- The function `coml_find_value_list_double`: the pointer read as an array
of `double`. -/
def coml_find_value_list_double (coml : Coml) (key_name : Str) :
    Except Stop (Option (List Double)) :=
  match coml_find_value_raw coml key_name with
  | none => .ok none
  | some (.listDouble xs) => .ok (some xs)
  | some _ => .error .undefined

/-- The function `coml_find_value_list_string`: the pointer read as an array
of strings. -/
def coml_find_value_list_string (coml : Coml) (key_name : Str) :
    Except Stop (Option (List Str)) :=
  match coml_find_value_raw coml key_name with
  | none => .ok none
  | some (.listString xs) => .ok (some xs)
  | some _ => .error .undefined

/-! ## Mutation API -/

/-- A pointer to an entry of a document: where the entry sits. -/
inductive KVRef where
  | root (i : Nat)
  | table (t : Nat) (i : Nat)
  deriving DecidableEq, Repr

/-- The table loop of `coml_get_kv`; `t` counts the tables passed. Both arms
of the `if` run the same search. -/
def coml_get_kv_loop (table_name : Option Str) (key_name : Str) :
    List Coml_Table → Nat → Option (KVRef × Coml_KV)
  | [], _ => none
  | current_table :: next, t =>
    if table_name ≠ none ∧ some current_table.name = table_name then
      match kv_search key_name current_table.items with
      | some r => some (.table t r.1, r.2)
      | none => coml_get_kv_loop table_name key_name next (t + 1)
    else
      match kv_search key_name current_table.items with
      | some r => some (.table t r.1, r.2)
      | none => coml_get_kv_loop table_name key_name next (t + 1)

/-- The function `coml_get_kv`: the entry pointed to and where it sits. -/
def coml_get_kv (coml : Coml) (table_name : Option Str) (key_name : Str) :
    Option (KVRef × Coml_KV) :=
  match (if table_name = none then kv_search key_name coml.items else none) with
  | some r => some (.root r.1, r.2)
  | none => coml_get_kv_loop table_name key_name coml.tables 0

/-- The entry a pointer points to. -/
def Coml.kv_at (coml : Coml) : KVRef → Option Coml_KV
  | .root i => coml.items[i]?
  | .table t i => (coml.tables[t]?).bind (fun table => table.items[i]?)

/-- A store through a pointer to an entry: the document afterwards. -/
def Coml.kv_store (coml : Coml) (r : KVRef) (kv : Coml_KV) : Coml :=
  match r with
  | .root i => { coml with items := coml.items.set i kv }
  | .table t i =>
    match coml.tables[t]? with
    | none => coml
    | some table =>
      { coml with tables := coml.tables.set t { table with items := table.items.set i kv } }

/-- The body shared by the setters: locate with `coml_get_kv`, refuse when
nothing is found or the tag differs, else store the new payload (and the new
`list_length`, for the list setters) through the pointer. -/
def coml_set (coml : Coml) (type : Coml_Type) (value : Payload) (list_length : Option Nat)
    (table_name : Option Str) (key_name : Str) : Bool × Coml :=
  match coml_get_kv coml table_name key_name with
  | none => (false, coml)
  | some (r, kv) =>
    if kv.type ≠ type then (false, coml)
    else
      (true, coml.kv_store r
        { kv with value := some value, list_length := list_length.getD kv.list_length })

/-- The function `coml_set_int`. -/
def coml_set_int (P : Env) (coml : Coml) (value : Int) (table_name : Option Str)
    (key_name : Str) : Bool × Coml :=
  coml_set coml ComlType_Double (.double (P.int_to_double value)) none table_name key_name

/-- The function `coml_set_float`: the shared body, but the payload is
resized to `sizeof(float)` before a `double` is stored in it. The store has a
meaning only where the block returned has room for a `double`. -/
def coml_set_float (P : Env) (coml : Coml) (value : Float32) (table_name : Option Str)
    (key_name : Str) : Except Stop (Bool × Coml) :=
  let result :=
    coml_set coml ComlType_Double (.double (P.float_to_double value)) none table_name key_name
  if result.1 = true ∧ P.float_block_holds_double = false then .error .undefined
  else .ok result

/-- The function `coml_set_string`. -/
def coml_set_string (coml : Coml) (value : Str) (table_name : Option Str)
    (key_name : Str) : Bool × Coml :=
  coml_set coml ComlType_String (.string value) none table_name key_name

/-- The function `coml_set_bool`. -/
def coml_set_bool (coml : Coml) (value : Bool) (table_name : Option Str)
    (key_name : Str) : Bool × Coml :=
  coml_set coml ComlType_Boolean (.bool value) none table_name key_name

/-- What `kv->value = realloc(old, size)` holds once the `length` new elements
are stored in it: the new list, or `NULL` when `length` is 0 and the
allocator answers a request of size 0 with `NULL`. -/
def realloc_payload (P : Env) (old : Option Payload) (new : Payload) (length : Nat) :
    Option Payload :=
  if length = 0 ∧ (if old.isNone then P.malloc_zero_null else P.realloc_zero_null) = true
  then none else some new

/-- The function `coml_set_list_double`; `value` holds `length` elements. The
old payload is resized with `realloc` and the elements are copied in. -/
def coml_set_list_double (P : Env) (coml : Coml) (value : List Double)
    (table_name : Option Str) (key_name : Str) : Bool × Coml :=
  match coml_get_kv coml table_name key_name with
  | none => (false, coml)
  | some (r, kv) =>
    if kv.type ≠ ComlType_ListDouble then (false, coml)
    else
      (true, coml.kv_store r
        { kv with value := realloc_payload P kv.value (.listDouble value) value.length,
                  list_length := value.length })

/-- The loop of `coml_set_list_string` that frees the old elements reads
`kv->list_length` pointers from the old payload: the payload has to be a list
of strings of at least that length, unless `list_length` is 0. -/
def old_elements_ok (kv : Coml_KV) : Bool :=
  kv.list_length = 0 ||
    (match kv.value with
     | some (.listString xs) => kv.list_length ≤ xs.length
     | _ => false)

/-- The function `coml_set_list_string`; `value` holds `length` elements. The
old elements and the old payload are freed, a new payload is obtained from
`realloc(NULL, ...)` and a copy of each element is stored in it. -/
def coml_set_list_string (P : Env) (coml : Coml) (value : List Str)
    (table_name : Option Str) (key_name : Str) : Except Stop (Bool × Coml) :=
  match coml_get_kv coml table_name key_name with
  | none => .ok (false, coml)
  | some (r, kv) =>
    if kv.type ≠ ComlType_ListString then .ok (false, coml)
    else if old_elements_ok kv then
      .ok (true, coml.kv_store r
        { kv with value := realloc_payload P none (.listString value) value.length,
                  list_length := value.length })
    else .error .undefined

/-! ## A concrete platform

Numbers that are non-negative decimals of at most five fractional digits,
coded by their value times `10 ^ 5`. Fresh memory reads as zero; the
allocator hands out blocks of 24 usable bytes for requests of up to 24 bytes,
answers `realloc(NULL, 0)` with a block and `realloc(p, 0)` with `NULL`. It
serves to run the embedding on concrete documents. -/

/-- The value of the leading decimal digits of a string. -/
def read_digits : Str → Nat → Nat
  | [], acc => acc
  | c :: cs, acc => if c.isDigit then read_digits cs (acc * 10 + (c.toNat - 48)) else acc

/-- The value of the leading fractional digits, the first one worth `scale`. -/
def read_fraction : Str → Nat → Nat
  | [], _ => 0
  | c :: cs, scale =>
    if c.isDigit then (c.toNat - 48) * scale + read_fraction cs (scale / 10) else 0

/-- Decimal `atof` of the concrete platform. -/
def fix_atof (s : Str) : Double :=
  read_digits s 0 * 100000 +
    (match s.dropWhile Char.isDigit with
     | '.' :: f => read_fraction f 10000
     | _ => 0)

/-- The `%.5f` conversion of the concrete platform. -/
def fix_fmt_fixed (d : Double) : Str :=
  (Nat.repr (d / 100000)).toList ++ '.' ::
    ((Nat.repr (100000 + d % 100000)).toList.drop 1)

/-- The cast `(int)x` of the concrete platform: `int` has 32 bits, and a
value out of its range gives `INT_MIN`, as the conversion instruction of
x86-64 does. -/
def fix_double_to_int (d : Double) : Int :=
  if d / 100000 < 2147483648 then Int.ofNat (d / 100000) else -2147483648

/-- The `%i` conversion of `(int)x` on the concrete platform. -/
def fix_fmt_int (d : Double) : Str :=
  if d / 100000 < 2147483648 then (Nat.repr (d / 100000)).toList
  else "-2147483648".toList

/-- The concrete platform; fresh memory reads as zero bytes. -/
def fixEnv : Env where
  atof := fix_atof
  is_whole := fun d => d % 100000 = 0
  fmt_int := fix_fmt_int
  fmt_fixed := fix_fmt_fixed
  int_to_double := fun i => i.toNat * 100000
  float_to_double := id
  double_to_int := fix_double_to_int
  double_to_float := id
  float_zero := 0
  fresh_kv := { key := [], value := none, type := 0, list_length := 0 }
  heap_nul := fun _ => true
  line_capacity := 24
  float_block_holds_double := true
  malloc_zero_null := false
  realloc_zero_null := true

/-! ## Input texts of a given shape -/

/-- A declared `key = literal` line. -/
structure Decl where
  key : Str
  literal : Str
  deriving DecidableEq, Repr

/-- A declared table block: the name in the header and the lines under it. -/
structure TableDecl where
  name : Str
  entries : List Decl
  deriving DecidableEq, Repr

/-- The text of a `key = literal` line. -/
def Decl.line (d : Decl) : Str := d.key ++ ' ' :: '=' :: ' ' :: d.literal

/-- The header line `[name]`. -/
def header_line (name : Str) : Str := '[' :: name ++ [']']

/-- The lines of a table block. -/
def TableDecl.lines (t : TableDecl) : List Str :=
  header_line t.name :: t.entries.map Decl.line

/-- The lines of all table blocks, in order. -/
def table_lines : List TableDecl → List Str
  | [] => []
  | t :: ts => t.lines ++ table_lines ts

/-- The lines of a document text: root lines, then the table blocks. -/
def doc_lines (roots : List Decl) (tables : List TableDecl) : List Str :=
  roots.map Decl.line ++ table_lines tables

/-- Lines joined into a text, each line ended by a newline. -/
def unlines : List Str → Str
  | [] => []
  | l :: ls => l ++ '\n' :: unlines ls

/-- The document text. -/
def doc_text (roots : List Decl) (tables : List TableDecl) : Str :=
  unlines (doc_lines roots tables)

/-- A character of a key word: a letter, a digit, `-` or `_`. -/
def key_char (c : Char) : Bool := c.isAlphanum || c == '-' || c == '_'

/-- A key is a non-empty word of key characters. -/
def key_ok (key : Str) : Prop := key ≠ [] ∧ ∀ c ∈ key, key_char c = true

instance (key : Str) : Decidable (key_ok key) := by unfold key_ok; infer_instance

/-- The literal has no `=` and no newline, and something is left of it after
trimming. -/
def literal_ok (literal : Str) : Prop :=
  '=' ∉ literal ∧ '\n' ∉ literal ∧ coml_trim literal ≠ []

instance (literal : Str) : Decidable (literal_ok literal) := by
  unfold literal_ok; infer_instance

/-- What `coml_parse_value` answers for a trimmed literal on a fresh entry:
`some true` accepted, `some false` rejected, `none` undefined. -/
def verdict (P : Env) (d : Decl) : Option Bool :=
  match coml_parse_value P (fresh_entry P d.key) (some (coml_trim d.literal)) with
  | .ok r => some r.1
  | .error _ => none

/-- The entry `coml_new_kv` builds for a declared line (the fresh entry when
the call is undefined). -/
def entry_of (P : Env) (d : Decl) : Coml_KV :=
  match coml_new_kv P (some d.key) (some (coml_trim d.literal)) with
  | .ok kv => kv
  | .error _ => P.fresh_kv

/-- The table a declared block stands for: entries in reverse order of
declaration. -/
def table_of (P : Env) (t : TableDecl) : Coml_Table :=
  { name := t.name, items := (t.entries.map (entry_of P)).reverse }

/-- The variants of all entries of a document, store by store. -/
def Coml.variants (coml : Coml) : List Coml_Type × List (List Coml_Type) :=
  (coml.items.map Coml_KV.type, coml.tables.map (fun t => t.items.map Coml_KV.type))

/-- The keys of all entries of a document, store by store, and the table
names, in order. -/
def Coml.layout (coml : Coml) : List Str × List (Str × List Str) :=
  (coml.items.map Coml_KV.key, coml.tables.map (fun t => (t.name, t.items.map Coml_KV.key)))

/-- The frame condition of a setter call under `(table_name, key_name)` that
answered `result`; `new_value kv` is what the call was to leave in the `value`
field of the entry `kv` it found, and `len` the new list length, for a list
setter. On `false` the document is as before; on `true` the entry
`coml_get_kv` locates holds the new value under its old key and tag, every
other entry is as before, and keys, table names, store orders, the retained
text and the cursor are as before. -/
def frame_ok (doc : Coml) (table_name : Option Str) (key_name : Str)
    (new_value : Coml_KV → Option Payload) (len : Option Nat) (result : Bool × Coml) : Prop :=
  (result.1 = false → result.2 = doc) ∧
  (result.1 = true →
    ∃ r kv kv', coml_get_kv doc table_name key_name = some (r, kv) ∧
      doc.kv_at r = some kv ∧ result.2.kv_at r = some kv' ∧
      kv'.key = kv.key ∧ kv'.type = kv.type ∧ kv'.value = new_value kv ∧
      kv'.list_length = len.getD kv.list_length ∧
      (∀ r', r' ≠ r → result.2.kv_at r' = doc.kv_at r') ∧
      result.2.layout = doc.layout ∧ result.2.variants = doc.variants ∧
      result.2.raw_content = doc.raw_content ∧ result.2.next_table = doc.next_table)

/-- A declared line the parser can take: the key is a word, the literal has
no `=` and no newline and is not blank, and `coml_parse_value` is defined on
the trimmed literal (it accepts it or rejects it). -/
def decl_ok (P : Env) (d : Decl) : Prop :=
  key_ok d.key ∧ literal_ok d.literal ∧ verdict P d ≠ none

instance (P : Env) (d : Decl) : Decidable (decl_ok P d) := by unfold decl_ok; infer_instance

/-- A declared table block the parser can take: no newline in the name, and
every line under the header can be taken. -/
def table_ok (P : Env) (t : TableDecl) : Prop :=
  '\n' ∉ t.name ∧ ∀ d ∈ t.entries, decl_ok P d

instance (P : Env) (t : TableDecl) : Decidable (table_ok P t) := by
  unfold table_ok; infer_instance

/-! ## Documents that survive serialization -/

/-- A number whose printed form is a bare token: the token is not empty, has
no quote, blank, comma, `=` or newline, does not start with `[`, and is
neither `true` nor `false`. -/
def number_ok (P : Env) (x : Double) : Prop :=
  format_number P x ≠ [] ∧
  (∀ c ∈ format_number P x, c ≠ DQ ∧ c ≠ SQ ∧ c ≠ Char.ofNat 9 ∧ c ≠ Char.ofNat 32 ∧
      c ≠ ',' ∧ c ≠ '=' ∧ c ≠ '\n') ∧
  (format_number P x).head? ≠ some '[' ∧
  format_number P x ≠ "true".toList ∧ format_number P x ≠ "false".toList

instance (P : Env) (x : Double) : Decidable (number_ok P x) := by
  unfold number_ok; infer_instance

/-- A string with no quote character, no `=` and no newline. -/
def string_ok (s : Str) : Prop :=
  ∀ c ∈ s, c ≠ DQ ∧ c ≠ SQ ∧ c ≠ '=' ∧ c ≠ '\n'

instance (s : Str) : Decidable (string_ok s) := by unfold string_ok; infer_instance

/-- A list element: a string with no quote character, comma, `=` or newline. -/
def element_ok (s : Str) : Prop :=
  ∀ c ∈ s, c ≠ DQ ∧ c ≠ SQ ∧ c ≠ '=' ∧ c ≠ '\n' ∧ c ≠ ','

instance (s : Str) : Decidable (element_ok s) := by unfold element_ok; infer_instance

/-- Strings joined by commas. -/
def comma_join : List Str → Str
  | [] => []
  | [x] => x
  | x :: y :: rest => x ++ ',' :: comma_join (y :: rest)

/-- The payload of an entry matches its tag and length and is printable, and
the platform deals with its line: the line of a list fits into what
`coml_format_kv` can build, and where `coml_parse_value` reads the text of a
string, or the inside of a list, back from a copy without a closing NUL, the
byte after the copy reads as NUL. -/
def plain_value (P : Env) (kv : Coml_KV) : Prop :=
  match kv.value with
  | some (.double x) => kv.type = ComlType_Double ∧ kv.list_length = 0 ∧ number_ok P x
  | some (.string s) =>
    kv.type = ComlType_String ∧ kv.list_length = 0 ∧ string_ok s ∧ P.heap_nul s = true
  | some (.bool _) => kv.type = ComlType_Boolean ∧ kv.list_length = 0
  | some (.listDouble xs) =>
    kv.type = ComlType_ListDouble ∧ kv.list_length = xs.length ∧ xs ≠ [] ∧
      (∀ x ∈ xs, number_ok P x) ∧
      (kv.key ++ " = [".toList ++ format_elements (format_number P) xs
          ++ " ]".toList).length < P.line_capacity ∧
      P.heap_nul (comma_join (xs.map (format_number P))) = true
  | some (.listString ss) =>
    kv.type = ComlType_ListString ∧ kv.list_length = ss.length ∧ ss ≠ [] ∧
      (∀ s ∈ ss, element_ok s) ∧
      (kv.key ++ " = [".toList ++ format_strings ss ++ " ]".toList).length
          < P.line_capacity ∧
      P.heap_nul (comma_join (ss.map (fun s => DQ :: s ++ [DQ]))) = true
  | none => False

/-- What `coml_parse_value` reads back from the printed form of a payload:
a number is what `atof` reads from its printed form, anything else is itself. -/
def reread_payload (P : Env) : Payload → Payload
  | .double x => .double (P.atof (format_number P x))
  | .listDouble xs => .listDouble (xs.map (fun x => P.atof (format_number P x)))
  | p => p

/-- An entry with its payload read back from its printed form. -/
def reread (P : Env) (kv : Coml_KV) : Coml_KV :=
  { kv with value := kv.value.map (reread_payload P) }

/-- A table with every payload read back from its printed form. -/
def reread_table (P : Env) (t : Coml_Table) : Coml_Table :=
  { t with items := t.items.map (reread P) }

/-- The numbers an entry holds. -/
def numbers_of (kv : Coml_KV) : List Double :=
  match kv.value with
  | some (.double x) => [x]
  | some (.listDouble xs) => xs
  | _ => []

/-- Every number of the document is read back by `atof` from its printed form
as the number itself. -/
def reads_exactly (P : Env) (doc : Coml) : Prop :=
  (∀ kv ∈ doc.items, ∀ x ∈ numbers_of kv, P.atof (format_number P x) = x) ∧
  ∀ t ∈ doc.tables, ∀ kv ∈ t.items, ∀ x ∈ numbers_of kv, P.atof (format_number P x) = x

instance (P : Env) (doc : Coml) : Decidable (reads_exactly P doc) := by
  unfold reads_exactly; infer_instance

/-- Every number of the document is printed, read by `atof` and printed again
as it was printed first. -/
def print_stable (P : Env) (doc : Coml) : Prop :=
  (∀ kv ∈ doc.items, ∀ x ∈ numbers_of kv,
    format_number P (P.atof (format_number P x)) = format_number P x) ∧
  ∀ t ∈ doc.tables, ∀ kv ∈ t.items, ∀ x ∈ numbers_of kv,
    format_number P (P.atof (format_number P x)) = format_number P x

instance (P : Env) (doc : Coml) : Decidable (print_stable P doc) := by
  unfold print_stable; infer_instance

instance (P : Env) (kv : Coml_KV) : Decidable (plain_value P kv) := by
  unfold plain_value
  split <;> infer_instance

/-- A plain entry: the key is a word and the value is printable. -/
def plain_kv (P : Env) (kv : Coml_KV) : Prop := key_ok kv.key ∧ plain_value P kv

instance (P : Env) (kv : Coml_KV) : Decidable (plain_kv P kv) := by
  unfold plain_kv; infer_instance

/-- A plain document: it has a table, the table at the head of the table list
has an entry, no table name has a newline, and every entry is plain. -/
def plain_doc (P : Env) (doc : Coml) : Prop :=
  doc.tables ≠ [] ∧ (∀ t, doc.tables.head? = some t → t.items ≠ []) ∧
  (∀ kv ∈ doc.items, plain_kv P kv) ∧
  ∀ t ∈ doc.tables, '\n' ∉ t.name ∧ ∀ kv ∈ t.items, plain_kv P kv

instance (P : Env) (doc : Coml) : Decidable (plain_doc P doc) := by
  unfold plain_doc
  refine @instDecidableAnd _ _ _ (@instDecidableAnd _ _ ?_ _)
  cases h : doc.tables.head? with
  | none => exact isTrue (fun t ht => Option.noConfusion ht)
  | some t0 =>
    exact decidable_of_iff (t0.items ≠ [])
      ⟨fun h0 t ht => by cases ht; exact h0, fun h0 => h0 t0 rfl⟩

/-- The literal `coml_format_kv` prints for the value of an entry. -/
def printed_literal (P : Env) (kv : Coml_KV) : Str :=
  match kv.value with
  | some (.double x) => format_number P x
  | some (.string s) => DQ :: s ++ [DQ]
  | some (.bool b) => if b then "true".toList else "false".toList
  | some (.listDouble xs) => '[' :: format_elements (format_number P) xs ++ [' ', ']']
  | some (.listString ss) => '[' :: format_strings ss ++ [' ', ']']
  | none => []

/-- The line `coml_format_kv` prints for an entry, as a declared line. -/
def decl_of (P : Env) (kv : Coml_KV) : Decl :=
  { key := kv.key, literal := printed_literal P kv }

/-- The block `coml_format_table` prints for a table, as a declared block:
the entries in reverse order of the store. -/
def tdecl_of (P : Env) (t : Coml_Table) : TableDecl :=
  { name := t.name, entries := t.items.reverse.map (decl_of P) }

/-- The text of table blocks as printed: every block is followed by an empty
line. -/
def blocks_text : List TableDecl → Str
  | [] => []
  | t :: ts => unlines t.lines ++ '\n' :: blocks_text ts

/-- The document of the mixed-table scenario of the specification, on the
concrete platform. -/
def scenario_doc : Coml :=
  { raw_content :=
      "title = \x22demo\x22\n[server]\nport = 8080\nhost = \x22local\x22\nweights = [ 1, 2, 3 ]\n".toList,
    tables :=
      [{ name := "server".toList,
         items :=
           [{ key := "weights".toList, value := some (.listDouble [100000, 200000, 300000]),
              type := ComlType_ListDouble, list_length := 3 },
            { key := "host".toList, value := some (.string "local".toList),
              type := ComlType_String, list_length := 0 },
            { key := "port".toList, value := some (.double 808000000),
              type := ComlType_Double, list_length := 0 }] }],
    items :=
      [{ key := "title".toList, value := some (.string "demo".toList),
         type := ComlType_String, list_length := 0 }],
    next_table := 5 }

/-- The document of `debug = false` / `[server]` / `port = 8080` /
`ratio = 0.5`, on the concrete platform: numbers and a boolean only. -/
def numbers_doc : Coml :=
  { raw_content := "debug = false\n[server]\nport = 8080\nratio = 0.5\n".toList,
    tables :=
      [{ name := "server".toList,
         items :=
           [{ key := "ratio".toList, value := some (.double 50000),
              type := ComlType_Double, list_length := 0 },
            { key := "port".toList, value := some (.double 808000000),
              type := ComlType_Double, list_length := 0 }] }],
    items :=
      [{ key := "debug".toList, value := some (.bool false),
         type := ComlType_Boolean, list_length := 0 }],
    next_table := 4 }

/-! ## Printing order -/

/-- The line `coml_format_kv` prints for one entry (nothing when the print
is undefined). -/
def entry_text (P : Env) (kv : Coml_KV) : Str :=
  match coml_format_entry P kv with
  | .ok line => line
  | .error _ => []

/-- Whether `coml_format_kv` can print the entry: the payload is there and is
of the variant the tag names, and the line of a list fits into what the
platform lets `coml_format_kv` build. -/
def printable (P : Env) (kv : Coml_KV) : Bool :=
  match coml_format_entry P kv with
  | .ok _ => true
  | .error _ => false

/-- Texts put one after the other. -/
def concat_all : List Str → Str
  | [] => []
  | l :: ls => l ++ concat_all ls

/-- The block `coml_format_table` prints for one table: the header, the
entries from the tail of the store to its head, and an empty line. -/
def table_text (P : Env) (t : Coml_Table) : Str :=
  '[' :: t.name ++ ']' :: '\n' :: concat_all (t.items.reverse.map (entry_text P)) ++ ['\n']

/-! ## Comment lines and blank lines -/

/-- The two stores of a document: the root entries and the table list. -/
def Coml.stores (coml : Coml) : List Coml_KV × List Coml_Table := (coml.items, coml.tables)

/-- The first character of the line is `#`: the line is a comment. -/
def is_comment (l : Str) : Bool := l.head? = some '#'

/-- The lines that are not comments, in their order. -/
def without_comments (lines : List Str) : List Str := lines.filter (fun l => !is_comment l)

/-- The lines before the first table header, a line whose first character
is `[`. -/
def root_part (lines : List Str) : List Str := lines.takeWhile (fun l => l.head? ≠ some '[')

/-- The number of comment lines at the end of a list of lines. -/
def trailing_comments (lines : List Str) : Nat := (lines.reverse.takeWhile is_comment).length

/-- The text that `main.c` parses. -/
def main_document : Str :=
  ("# this is a comment\nsome-string = \x22some string\x22\n\n# also a comment\n" ++
   "[stuff]\nstr1 = \x22qweqwe\x22\nstr2 = \x22asdasd\x22\n\n" ++
   "[qwerty]\nboolean = true\nnumber = 213\nfloot = 42.69\n" ++
   "stringwithspace = \x22this string has spaces\x22\n" ++
   "list = [ \x22this\x22, \x22is\x22, \x22a\x22, \x22list\x22 ]\nnums = [ 123, 321 ]\n").toList

/-! ## Sequences of setter calls -/

/-- A call of one of the six setters: the value to store, the table name
(`none` for `NULL`) and the key. -/
inductive SetterCall where
  | set_int (value : Int) (table_name : Option Str) (key_name : Str)
  | set_float (value : Float32) (table_name : Option Str) (key_name : Str)
  | set_string (value : Str) (table_name : Option Str) (key_name : Str)
  | set_bool (value : Bool) (table_name : Option Str) (key_name : Str)
  | set_list_double (value : List Double) (table_name : Option Str) (key_name : Str)
  | set_list_string (value : List Str) (table_name : Option Str) (key_name : Str)
  deriving DecidableEq, Repr

/-- The answer of a setter call and the document after it. -/
def SetterCall.run (P : Env) (coml : Coml) : SetterCall → Except Stop (Bool × Coml)
  | .set_int value table_name key_name => .ok (coml_set_int P coml value table_name key_name)
  | .set_float value table_name key_name => coml_set_float P coml value table_name key_name
  | .set_string value table_name key_name =>
    .ok (coml_set_string coml value table_name key_name)
  | .set_bool value table_name key_name => .ok (coml_set_bool coml value table_name key_name)
  | .set_list_double value table_name key_name =>
    .ok (coml_set_list_double P coml value table_name key_name)
  | .set_list_string value table_name key_name =>
    coml_set_list_string P coml value table_name key_name

/-- Whether a setter call returns on every document: `coml_set_float` where
the payload block has room for a `double`; `coml_set_list_string` depends on
the payload it finds. -/
def SetterCall.always_returns (P : Env) : SetterCall → Bool
  | .set_float _ _ _ => P.float_block_holds_double
  | .set_list_string _ _ _ => false
  | _ => true

/-- The document after a sequence of setter calls, made one after the other;
the sequence stops at a call that is undefined. -/
def run_setters (P : Env) (coml : Coml) : List SetterCall → Except Stop Coml
  | [] => .ok coml
  | call :: rest =>
    match call.run P coml with
    | .error e => .error e
    | .ok result => run_setters P result.2 rest

/-- No two entries of one store (the root store, or the store of one table)
have the same key. -/
def keys_unique (coml : Coml) : Prop :=
  (coml.items.map Coml_KV.key).Nodup ∧ ∀ t ∈ coml.tables, (t.items.map Coml_KV.key).Nodup

instance (coml : Coml) : Decidable (keys_unique coml) := by unfold keys_unique; infer_instance

/-! ## Trimming in the words of the specification -/

/-- The number of quote characters, of either kind, among the first `i`
characters of a line. -/
def quotes_before (input : Str) (i : Nat) : Nat :=
  (input.take i).countP (fun c => c = DQ ∨ c = SQ)

/-- The character at position `i` is one the specification removes: a space
or a tab preceded by an even number of quote characters. -/
def spec_removed (input : Str) (i : Nat) : Bool :=
  (input[i]? = some (Char.ofNat 32) ∨ input[i]? = some (Char.ofNat 9)) ∧
    quotes_before input i % 2 = 0

/-- The trimmed line in the words of the specification: the characters of the
line that are not removed, in their order. -/
def spec_trim (input : Str) : Str :=
  (List.range input.length).filterMap
    (fun i => if spec_removed input i then none else input[i]?)

/-! ## Lemmas on the chain search -/

theorem kv_search_none {K : Str} {l : List Coml_KV} :
    kv_search K l = none ↔ ∀ kv ∈ l, kv.key ≠ K := by
  induction l with
  | nil => simp [kv_search]
  | cons a l ih =>
    by_cases h : a.key = K
    · simp [kv_search, h]
    · simp [kv_search, h, ih]

theorem kv_search_some {K : Str} {l : List Coml_KV} {i : Nat} {kv : Coml_KV}
    (h : kv_search K l = some (i, kv)) :
    ∃ kpre kpost, l = kpre ++ kv :: kpost ∧ kpre.length = i ∧ kv.key = K ∧
      ∀ kv' ∈ kpre, kv'.key ≠ K := by
  induction l generalizing i with
  | nil => simp [kv_search] at h
  | cons a l ih =>
    by_cases hk : a.key = K
    · simp [kv_search, hk] at h
      obtain ⟨rfl, rfl⟩ := h
      exact ⟨[], l, rfl, rfl, hk, by simp⟩
    · simp only [kv_search, hk, if_false, Option.map_eq_some'] at h
      obtain ⟨⟨j, kv0⟩, hj, hq⟩ := h
      simp only [Prod.mk.injEq] at hq
      obtain ⟨rfl, rfl⟩ := hq
      obtain ⟨kpre, kpost, rfl, hlen, hkey, hpre⟩ := ih hj
      refine ⟨a :: kpre, kpost, rfl, by simp [hlen], hkey, ?_⟩
      intro kv' hmem
      rcases List.mem_cons.mp hmem with rfl | hmem
      · exact hk
      · exact hpre kv' hmem

theorem kv_search_first {K : Str} (kpre : List Coml_KV) (kv : Coml_KV) (kpost : List Coml_KV)
    (hk : kv.key = K) (hpre : ∀ kv' ∈ kpre, kv'.key ≠ K) :
    kv_search K (kpre ++ kv :: kpost) = some (kpre.length, kv) := by
  induction kpre with
  | nil => simp [kv_search, hk]
  | cons a kpre ih =>
    have ha : a.key ≠ K := hpre a (List.mem_cons_self _ _)
    have := ih (fun kv' h => hpre kv' (List.mem_cons_of_mem _ h))
    simp [kv_search, ha, this]

theorem kv_search_getElem {K : Str} {l : List Coml_KV} {i : Nat} {kv : Coml_KV}
    (h : kv_search K l = some (i, kv)) : l[i]? = some kv := by
  obtain ⟨kpre, kpost, rfl, rfl, -, -⟩ := kv_search_some h
  rw [List.getElem?_append_right (le_refl _)]
  simp

theorem get_value_raw_loop_none {T K : Str} {ts : List Coml_Table}
    (h : ∀ t ∈ ts, t.name = T → ∀ kv ∈ t.items, kv.key ≠ K) :
    coml_get_value_raw_loop T K ts = none := by
  induction ts with
  | nil => rfl
  | cons t ts ih =>
    have ih := ih (fun t' ht' => h t' (List.mem_cons_of_mem _ ht'))
    by_cases hn : t.name = T
    · have : kv_search K t.items = none := kv_search_none.mpr (h t (List.mem_cons_self _ _) hn)
      simp [coml_get_value_raw_loop, hn, this, ih]
    · simp [coml_get_value_raw_loop, hn, ih]

theorem get_value_raw_loop_some {T K : Str} {ts : List Coml_Table}
    (h : ∃ t ∈ ts, t.name = T ∧ ∃ kv ∈ t.items, kv.key = K) :
    ∃ pre t post kpre kv kpost,
      ts = pre ++ t :: post ∧ t.name = T ∧
      (∀ t' ∈ pre, t'.name = T → ∀ kv' ∈ t'.items, kv'.key ≠ K) ∧
      t.items = kpre ++ kv :: kpost ∧ kv.key = K ∧ (∀ kv' ∈ kpre, kv'.key ≠ K) ∧
      coml_get_value_raw_loop T K ts = kv.value := by
  induction ts with
  | nil => simp at h
  | cons t ts ih =>
    by_cases hit : t.name = T ∧ ∃ kv ∈ t.items, kv.key = K
    · obtain ⟨hn, hkv⟩ := hit
      cases hs : kv_search K t.items with
      | none =>
        obtain ⟨kv, hmem, hk⟩ := hkv
        exact absurd hk (kv_search_none.mp hs kv hmem)
      | some r =>
        obtain ⟨i, kv⟩ := r
        obtain ⟨kpre, kpost, hitems, -, hk, hpre⟩ := kv_search_some hs
        exact ⟨[], t, ts, kpre, kv, kpost, rfl, hn, by simp, hitems, hk, hpre,
          by simp [coml_get_value_raw_loop, hn, hs]⟩
    · have hrest : ∃ t' ∈ ts, t'.name = T ∧ ∃ kv ∈ t'.items, kv.key = K := by
        obtain ⟨t', ht', hn, hkv⟩ := h
        rcases List.mem_cons.mp ht' with rfl | ht'
        · exact absurd ⟨hn, hkv⟩ hit
        · exact ⟨t', ht', hn, hkv⟩
      obtain ⟨pre, t1, post, kpre, kv, kpost, rfl, hn, hpre, hitems, hk, hkpre, hres⟩ := ih hrest
      have hskip : coml_get_value_raw_loop T K (t :: (pre ++ t1 :: post)) =
          coml_get_value_raw_loop T K (pre ++ t1 :: post) := by
        by_cases hn' : t.name = T
        · have : kv_search K t.items = none := by
            apply kv_search_none.mpr
            intro kv' hmem hk'
            exact hit ⟨hn', kv', hmem, hk'⟩
          simp [coml_get_value_raw_loop, hn', this]
        · simp [coml_get_value_raw_loop, hn']
      refine ⟨t :: pre, t1, post, kpre, kv, kpost, rfl, hn, ?_, hitems, hk, hkpre, ?_⟩
      · intro t' ht' hn' kv' hmem hk'
        rcases List.mem_cons.mp ht' with rfl | ht'
        · exact hit ⟨hn', kv', hmem, hk'⟩
        · exact hpre t' ht' hn' kv' hmem hk'
      · rw [hskip, hres]

theorem find_value_raw_loop_none {K : Str} {ts : List Coml_Table}
    (h : ∀ t ∈ ts, ∀ kv ∈ t.items, kv.key ≠ K) :
    coml_find_value_raw_loop K ts = none := by
  induction ts with
  | nil => rfl
  | cons t ts ih =>
    have ih := ih (fun t' ht' => h t' (List.mem_cons_of_mem _ ht'))
    have : kv_search K t.items = none := kv_search_none.mpr (h t (List.mem_cons_self _ _))
    simp [coml_find_value_raw_loop, this, ih]

theorem find_value_raw_loop_first {K : Str} (pre : List Coml_Table) (t : Coml_Table)
    (post : List Coml_Table) (kpre : List Coml_KV) (kv : Coml_KV) (kpost : List Coml_KV)
    (hpre : ∀ t' ∈ pre, ∀ kv' ∈ t'.items, kv'.key ≠ K)
    (hitems : t.items = kpre ++ kv :: kpost) (hk : kv.key = K)
    (hkpre : ∀ kv' ∈ kpre, kv'.key ≠ K) :
    coml_find_value_raw_loop K (pre ++ t :: post) = kv.value := by
  induction pre with
  | nil =>
    have := kv_search_first kpre kv kpost hk hkpre
    simp [coml_find_value_raw_loop, hitems, this]
  | cons a pre ih =>
    have ha : kv_search K a.items = none :=
      kv_search_none.mpr (hpre a (List.mem_cons_self _ _))
    have := ih (fun t' ht' => hpre t' (List.mem_cons_of_mem _ ht'))
    simp [coml_find_value_raw_loop, ha, this]

/-- C2, amended. The scoped lookup `coml_get_value_raw(doc, T, K)` returns the
`value` field of the first entry with key `K` in the first table named `T`
that has such an entry (so `NULL` when that field is `NULL`), returns `NULL`
when no table named `T` has an entry with key `K`, and does not depend on the
root store. -/
theorem get_value_raw_first_match (doc : Coml) (T K : Str) :
    ((∀ t ∈ doc.tables, t.name = T → ∀ kv ∈ t.items, kv.key ≠ K) →
        coml_get_value_raw doc T K = none) ∧
    ((∃ t ∈ doc.tables, t.name = T ∧ ∃ kv ∈ t.items, kv.key = K) →
      ∃ pre t post kpre kv kpost,
        doc.tables = pre ++ t :: post ∧ t.name = T ∧
        (∀ t' ∈ pre, t'.name = T → ∀ kv' ∈ t'.items, kv'.key ≠ K) ∧
        t.items = kpre ++ kv :: kpost ∧ kv.key = K ∧ (∀ kv' ∈ kpre, kv'.key ≠ K) ∧
        coml_get_value_raw doc T K = kv.value) ∧
    (∀ items, coml_get_value_raw { doc with items := items } T K =
        coml_get_value_raw doc T K) :=
  ⟨get_value_raw_loop_none, get_value_raw_loop_some, fun _ => rfl⟩

/-- C2 as stated fails on a document that `coml_parse` returns: the table `t`
of `[t]` / `k = "oops` has an entry with key `k`, and the scoped lookup of
`(t, k)` returns `NULL`. -/
theorem get_value_raw_null_entry :
    ∃ doc, coml_parse fixEnv 1 "[t]\nk = \x22oops\n".toList = .ok (some doc) ∧
      (∃ t ∈ doc.tables, t.name = "t".toList ∧ ∃ kv ∈ t.items, kv.key = "k".toList) ∧
      coml_get_value_raw doc "t".toList "k".toList = none := by
  refine ⟨_, rfl, ?_, ?_⟩ <;> decide

/-- C3. The unscoped lookup `coml_find_value_raw(doc, K)` returns the value of
the first root entry with key `K` when the root store has one; otherwise the
value of the first entry with key `K` in the first table of the table list
that has one; otherwise `NULL`. With two tables inserted one after the other
that both define `K`, and no `K` in the root, the result is the value in the
table inserted last; so on `[a]` / `name = 1` / `[b]` / `name = 2` the lookup
of `name` gives the `2` of table `b`, declared later in the text. -/
theorem find_value_raw_order (doc : Coml) (K : Str) :
    (∀ kpre kv kpost, doc.items = kpre ++ kv :: kpost → kv.key = K →
        (∀ kv' ∈ kpre, kv'.key ≠ K) → coml_find_value_raw doc K = kv.value) ∧
    (∀ pre t post kpre kv kpost, (∀ kv' ∈ doc.items, kv'.key ≠ K) →
        doc.tables = pre ++ t :: post → (∀ t' ∈ pre, ∀ kv' ∈ t'.items, kv'.key ≠ K) →
        t.items = kpre ++ kv :: kpost → kv.key = K → (∀ kv' ∈ kpre, kv'.key ≠ K) →
        coml_find_value_raw doc K = kv.value) ∧
    ((∀ kv' ∈ doc.items, kv'.key ≠ K) → (∀ t ∈ doc.tables, ∀ kv' ∈ t.items, kv'.key ≠ K) →
        coml_find_value_raw doc K = none) ∧
    (∀ name1 items1 name2 kpre kv kpost, (∀ kv' ∈ doc.items, kv'.key ≠ K) →
        (∃ kv1 ∈ items1, kv1.key = K) → kv.key = K → (∀ kv' ∈ kpre, kv'.key ≠ K) →
        coml_find_value_raw
          { doc with tables := coml_insert_table (coml_insert_table doc.tables name1 items1)
                                 name2 (kpre ++ kv :: kpost) } K = kv.value) ∧
    (∃ d, coml_parse fixEnv 2 "[a]\nname = 1\n[b]\nname = 2\n".toList = .ok (some d) ∧
        coml_find_value_raw d "name".toList = some (.double 200000)) := by
  refine ⟨?_, ?_, ?_, ?_, ⟨_, rfl, by decide⟩⟩
  · intro kpre kv kpost hitems hk hpre
    have := kv_search_first kpre kv kpost hk hpre
    simp [coml_find_value_raw, hitems, this]
  · intro pre t post kpre kv kpost hroot htables hpre hitems hk hkpre
    have h0 : kv_search K doc.items = none := kv_search_none.mpr hroot
    simp only [coml_find_value_raw, h0, htables]
    exact find_value_raw_loop_first pre t post kpre kv kpost hpre hitems hk hkpre
  · intro hroot htables
    have h0 : kv_search K doc.items = none := kv_search_none.mpr hroot
    simp only [coml_find_value_raw, h0]
    exact find_value_raw_loop_none htables
  · intro name1 items1 name2 kpre kv kpost hroot _ hk hkpre
    have h0 : kv_search K doc.items = none := kv_search_none.mpr hroot
    simp only [coml_find_value_raw, h0, coml_insert_table]
    exact find_value_raw_loop_first [] (coml_new_table name2 (kpre ++ kv :: kpost)) _
      kpre kv kpost (by simp) rfl hk hkpre

/-! ## Lemmas on pointers to entries and the setters -/

theorem list_set_same {α : Type} {l : List α} {i : Nat} {a : α} (h : l[i]? = some a) :
    l.set i a = l := by
  apply List.ext_getElem?
  intro j
  rw [List.getElem?_set]
  by_cases hij : i = j
  · subst hij
    have hlt : i < l.length := by
      by_contra hge
      rw [List.getElem?_eq_none (Nat.le_of_not_lt hge)] at h
      exact Option.noConfusion h
    simp [hlt, h]
  · simp [hij]

theorem map_set_same {α β : Type} (f : α → β) {l : List α} {i : Nat} {a b : α}
    (h : l[i]? = some a) (hf : f b = f a) : (l.set i b).map f = l.map f := by
  rw [List.map_set, hf]
  apply list_set_same
  simp [h]

theorem get_kv_loop_sound {T : Option Str} {K : Str} {ts : List Coml_Table} {j : Nat}
    {r : KVRef} {kv : Coml_KV} (h : coml_get_kv_loop T K ts j = some (r, kv)) :
    ∃ t i table, r = .table (j + t) i ∧ ts[t]? = some table ∧ table.items[i]? = some kv := by
  induction ts generalizing j with
  | nil => simp [coml_get_kv_loop] at h
  | cons a ts ih =>
    cases hs : kv_search K a.items with
    | some p =>
      obtain ⟨i, kv0⟩ := p
      have hr : r = .table j i ∧ kv = kv0 := by
        simp only [coml_get_kv_loop, hs, ite_self, Option.some.injEq, Prod.mk.injEq] at h
        exact ⟨h.1.symm, h.2.symm⟩
      obtain ⟨rfl, rfl⟩ := hr
      exact ⟨0, i, a, rfl, by simp, kv_search_getElem hs⟩
    | none =>
      have hn : coml_get_kv_loop T K ts (j + 1) = some (r, kv) := by
        simpa only [coml_get_kv_loop, hs, ite_self] using h
      obtain ⟨t, i, table, rfl, ht, hi⟩ := ih hn
      exact ⟨t + 1, i, table, by rw [Nat.add_assoc, Nat.add_comm 1 t], by simpa using ht, hi⟩

theorem get_kv_sound {doc : Coml} {T : Option Str} {K : Str} {r : KVRef} {kv : Coml_KV}
    (h : coml_get_kv doc T K = some (r, kv)) : doc.kv_at r = some kv := by
  unfold coml_get_kv at h
  cases hs : (if T = none then kv_search K doc.items else none) with
  | some p =>
    rw [hs] at h
    simp only [Option.some.injEq, Prod.mk.injEq] at h
    obtain ⟨rfl, rfl⟩ := h
    by_cases hT : T = none
    · simp only [hT, if_true] at hs
      exact kv_search_getElem hs
    · simp [hT] at hs
  | none =>
    rw [hs] at h
    obtain ⟨t, i, table, rfl, ht, hi⟩ := get_kv_loop_sound h
    simp [Coml.kv_at, ht, hi]

theorem kv_store_frame {doc : Coml} {r : KVRef} {kv kv' : Coml_KV}
    (hat : doc.kv_at r = some kv) (hkey : kv'.key = kv.key) (htype : kv'.type = kv.type) :
    (doc.kv_store r kv').kv_at r = some kv' ∧
    (∀ r', r' ≠ r → (doc.kv_store r kv').kv_at r' = doc.kv_at r') ∧
    (doc.kv_store r kv').layout = doc.layout ∧
    (doc.kv_store r kv').variants = doc.variants ∧
    (doc.kv_store r kv').raw_content = doc.raw_content ∧
    (doc.kv_store r kv').next_table = doc.next_table := by
  cases r with
  | root i =>
    simp only [Coml.kv_at] at hat
    have hlt : i < doc.items.length := by
      by_contra hge
      rw [List.getElem?_eq_none (Nat.le_of_not_lt hge)] at hat
      exact Option.noConfusion hat
    refine ⟨?_, ?_, ?_, ?_, rfl, rfl⟩
    · simp [Coml.kv_store, Coml.kv_at, hlt]
    · intro r' hne
      cases r' with
      | root j =>
        have hij : i ≠ j := fun e => hne (by rw [e])
        simp [Coml.kv_store, Coml.kv_at, List.getElem?_set_ne hij]
      | table t j => simp [Coml.kv_store, Coml.kv_at]
    · simp only [Coml.layout, Coml.kv_store, map_set_same Coml_KV.key hat hkey]
    · simp only [Coml.variants, Coml.kv_store, map_set_same Coml_KV.type hat htype]
  | table t i =>
    simp only [Coml.kv_at] at hat
    cases ht : doc.tables[t]? with
    | none => simp [ht] at hat
    | some table =>
      simp only [ht, Option.some_bind] at hat
      have htl : t < doc.tables.length := by
        by_contra hge
        rw [List.getElem?_eq_none (Nat.le_of_not_lt hge)] at ht
        exact Option.noConfusion ht
      have hil : i < table.items.length := by
        by_contra hge
        rw [List.getElem?_eq_none (Nat.le_of_not_lt hge)] at hat
        exact Option.noConfusion hat
      refine ⟨?_, ?_, ?_, ?_, ?_, ?_⟩
      · simp [Coml.kv_store, Coml.kv_at, ht, htl, hil]
      · intro r' hne
        cases r' with
        | root j => simp [Coml.kv_store, Coml.kv_at, ht]
        | table t' j =>
          by_cases htt : t = t'
          · subst htt
            have hij : i ≠ j := fun e => hne (by rw [e])
            simp [Coml.kv_store, Coml.kv_at, ht, htl, List.getElem?_set_ne hij]
          · simp [Coml.kv_store, Coml.kv_at, ht, List.getElem?_set_ne htt]
      · simp only [Coml.layout, Coml.kv_store, ht]
        congr 1
        apply map_set_same _ ht
        simp only [map_set_same Coml_KV.key hat hkey]
      · simp only [Coml.variants, Coml.kv_store, ht]
        congr 1
        apply map_set_same (fun t => t.items.map Coml_KV.type) ht
        simp only [map_set_same Coml_KV.type hat htype]
      · simp [Coml.kv_store, ht]
      · simp [Coml.kv_store, ht]

theorem coml_set_true_iff (doc : Coml) (X : Coml_Type) (payload : Payload) (len : Option Nat)
    (T : Option Str) (K : Str) :
    (coml_set doc X payload len T K).1 = true ↔
      ∃ r kv, coml_get_kv doc T K = some (r, kv) ∧ kv.type = X := by
  unfold coml_set
  cases h : coml_get_kv doc T K with
  | none => simp
  | some p =>
    obtain ⟨r, kv⟩ := p
    by_cases hx : kv.type = X
    · simp only [hx, ne_eq, not_true_eq_false, if_false, true_iff]
      exact ⟨r, kv, rfl, hx⟩
    · simp only [hx, ne_eq, not_false_eq_true, if_true, Bool.false_eq_true, false_iff]
      rintro ⟨r', kv', hq, hx'⟩
      simp only [Option.some.injEq, Prod.mk.injEq] at hq
      exact hx (hq.2 ▸ hx')

theorem store_frame {doc : Coml} {T : Option Str} {K : Str} {r : KVRef} {kv : Coml_KV}
    (h : coml_get_kv doc T K = some (r, kv)) (f : Coml_KV → Option Payload)
    (len : Option Nat) :
    frame_ok doc T K f len
      (true, doc.kv_store r { kv with value := f kv, list_length := len.getD kv.list_length }) := by
  refine ⟨fun hc => by simp at hc, fun _ => ?_⟩
  have hat := get_kv_sound h
  obtain ⟨h1, h2, h3, h4, h5, h6⟩ :=
    @kv_store_frame doc r kv
      { kv with value := f kv, list_length := len.getD kv.list_length } hat rfl rfl
  exact ⟨r, kv, _, h, hat, h1, rfl, rfl, rfl, rfl, h2, h3, h4, h5, h6⟩

theorem frame_refl (doc : Coml) (T : Option Str) (K : Str) (f : Coml_KV → Option Payload)
    (len : Option Nat) : frame_ok doc T K f len (false, doc) :=
  ⟨fun _ => rfl, fun hc => by simp at hc⟩

theorem frame_variants {doc : Coml} {T : Option Str} {K : Str} {f : Coml_KV → Option Payload}
    {len : Option Nat} {result : Bool × Coml} (hf : frame_ok doc T K f len result) :
    result.2.variants = doc.variants := by
  cases hb : result.1 with
  | false => rw [hf.1 hb]
  | true =>
    obtain ⟨r, kv, kv', -, -, -, -, -, -, -, -, -, hv, -, -⟩ := hf.2 hb
    exact hv

theorem frame_layout {doc : Coml} {T : Option Str} {K : Str} {f : Coml_KV → Option Payload}
    {len : Option Nat} {result : Bool × Coml} (hf : frame_ok doc T K f len result) :
    result.2.layout = doc.layout := by
  cases hb : result.1 with
  | false => rw [hf.1 hb]
  | true =>
    obtain ⟨r, kv, kv', -, -, -, -, -, -, -, -, hl, -, -, -⟩ := hf.2 hb
    exact hl

theorem coml_set_frame (doc : Coml) (X : Coml_Type) (payload : Payload) (len : Option Nat)
    (T : Option Str) (K : Str) :
    frame_ok doc T K (fun _ => some payload) len (coml_set doc X payload len T K) := by
  unfold coml_set
  cases h : coml_get_kv doc T K with
  | none => exact frame_refl _ _ _ _ _
  | some p =>
    obtain ⟨r, kv⟩ := p
    dsimp only
    by_cases hx : kv.type = X
    · rw [if_neg (not_not_intro hx)]
      exact store_frame h (fun _ => some payload) len
    · rw [if_pos hx]
      exact frame_refl _ _ _ _ _

theorem coml_set_variants (doc : Coml) (X : Coml_Type) (payload : Payload) (len : Option Nat)
    (T : Option Str) (K : Str) :
    (coml_set doc X payload len T K).2.variants = doc.variants :=
  frame_variants (coml_set_frame doc X payload len T K)

theorem set_float_result {P : Env} {doc : Coml} {v : Float32} {T : Option Str} {K : Str}
    {result : Bool × Coml} (h : coml_set_float P doc v T K = .ok result) :
    result = coml_set doc ComlType_Double (.double (P.float_to_double v)) none T K := by
  unfold coml_set_float at h
  simp only at h
  split_ifs at h
  exact (Except.ok.inj h).symm

theorem set_float_defined (P : Env) (doc : Coml) (v : Float32) (T : Option Str) (K : Str)
    (hroom : P.float_block_holds_double = true) :
    coml_set_float P doc v T K
      = .ok (coml_set doc ComlType_Double (.double (P.float_to_double v)) none T K) := by
  unfold coml_set_float
  simp [hroom]

theorem set_list_double_frame (P : Env) (doc : Coml) (v : List Double) (T : Option Str)
    (K : Str) :
    frame_ok doc T K (fun kv => realloc_payload P kv.value (.listDouble v) v.length)
      (some v.length) (coml_set_list_double P doc v T K) := by
  unfold coml_set_list_double
  cases h : coml_get_kv doc T K with
  | none => exact frame_refl _ _ _ _ _
  | some p =>
    obtain ⟨r, kv⟩ := p
    dsimp only
    by_cases hx : kv.type = ComlType_ListDouble
    · rw [if_neg (not_not_intro hx)]
      exact store_frame h (fun kv => realloc_payload P kv.value (.listDouble v) v.length)
        (some v.length)
    · rw [if_pos hx]
      exact frame_refl _ _ _ _ _

theorem set_list_string_frame {P : Env} {doc : Coml} {v : List Str} {T : Option Str}
    {K : Str} {result : Bool × Coml} (hr : coml_set_list_string P doc v T K = .ok result) :
    frame_ok doc T K (fun _ => realloc_payload P none (.listString v) v.length)
      (some v.length) result := by
  unfold coml_set_list_string at hr
  cases h : coml_get_kv doc T K with
  | none =>
    rw [h] at hr
    rw [← Except.ok.inj hr]
    exact frame_refl _ _ _ _ _
  | some p =>
    obtain ⟨r, kv⟩ := p
    rw [h] at hr
    dsimp only at hr
    by_cases hx : kv.type = ComlType_ListString
    · rw [if_neg (not_not_intro hx)] at hr
      split_ifs at hr
      rw [← Except.ok.inj hr]
      exact store_frame h (fun _ => realloc_payload P none (.listString v) v.length)
        (some v.length)
    · rw [if_pos hx] at hr
      rw [← Except.ok.inj hr]
      exact frame_refl _ _ _ _ _

theorem set_list_string_defined (P : Env) (doc : Coml) (v : List Str) (T : Option Str)
    (K : Str) (hold : ∀ r kv, coml_get_kv doc T K = some (r, kv) → old_elements_ok kv = true) :
    ∃ result, coml_set_list_string P doc v T K = .ok result := by
  unfold coml_set_list_string
  cases h : coml_get_kv doc T K with
  | none => exact ⟨_, rfl⟩
  | some p =>
    obtain ⟨r, kv⟩ := p
    by_cases hx : kv.type = ComlType_ListString
    · simp only [hx, ne_eq, not_true_eq_false, if_false, hold r kv h, if_true]
      exact ⟨_, rfl⟩
    · simp only [hx, ne_eq, not_false_eq_true, if_true]
      exact ⟨_, rfl⟩

theorem realloc_payload_some (P : Env) (old : Option Payload) (new : Payload) (n : Nat)
    (hn : n ≠ 0) : realloc_payload P old new n = some new := by
  simp [realloc_payload, hn]

theorem get_kv_loop_any_name (K : Str) (n n' : Option Str) :
    ∀ (tables : List Coml_Table) (t : Nat),
      coml_get_kv_loop n K tables t = coml_get_kv_loop n' K tables t := by
  intro tables
  induction tables with
  | nil => intro t; rfl
  | cons table rest ih =>
    intro t
    simp only [coml_get_kv_loop, ih (t + 1), ite_self]

/-- C4 fails on the code. In the document of `[a]` / `x = 1` / `[b]` /
`x = true` the entry for `x` of table `a` is a number and the entry for `x` of
table `b` a boolean. `coml_set_int` called with table `a` and key `x` answers
`false` and changes nothing, although the entry of table `a` has the setter's
variant; `coml_set_bool` called with table `a` and key `x` answers `true`,
although that entry has not. For every document: a table name that is given
has no part in the choice of the entry whose tag is tested, and after a setter
call that returns, whatever the answer, every entry has the tag it had
before. -/
theorem setter_tests_entry_of_other_table (P : Env) :
    (∃ doc, coml_parse P 2 "[a]\nx = 1\n[b]\nx = true\n".toList = .ok (some doc) ∧
      doc.tables.map (fun t => (t.name, t.items.map (fun kv => (kv.key, kv.type))))
        = [("b".toList, [("x".toList, ComlType_Boolean)]),
           ("a".toList, [("x".toList, ComlType_Double)])] ∧
      coml_set_int P doc 5 (some "a".toList) "x".toList = (false, doc) ∧
      (coml_set_bool doc false (some "a".toList) "x".toList).1 = true) ∧
    (∀ (doc : Coml) (K n n' : Str),
      coml_get_kv doc (some n) K = coml_get_kv doc (some n') K) ∧
    (∀ (doc : Coml) (T : Option Str) (K : Str),
      (∀ v, (coml_set_int P doc v T K).2.variants = doc.variants) ∧
      (∀ v r, coml_set_float P doc v T K = .ok r → r.2.variants = doc.variants) ∧
      (∀ v, (coml_set_string doc v T K).2.variants = doc.variants) ∧
      (∀ v, (coml_set_bool doc v T K).2.variants = doc.variants) ∧
      (∀ v, (coml_set_list_double P doc v T K).2.variants = doc.variants) ∧
      (∀ v r, coml_set_list_string P doc v T K = .ok r → r.2.variants = doc.variants)) := by
  refine ⟨⟨_, rfl, rfl, rfl, rfl⟩, ?_, ?_⟩
  · intro doc K n n'
    simp only [coml_get_kv, reduceCtorEq, if_false]
    exact get_kv_loop_any_name K _ _ _ _
  · intro doc T K
    exact ⟨fun _ => coml_set_variants _ _ _ _ _ _,
      fun _ _ h => by rw [set_float_result h]; exact coml_set_variants _ _ _ _ _ _,
      fun _ => coml_set_variants _ _ _ _ _ _, fun _ => coml_set_variants _ _ _ _ _ _,
      fun _ => frame_variants (set_list_double_frame _ _ _ _ _),
      fun _ _ h => frame_variants (set_list_string_frame h)⟩

/-- C5 fails on the code. In the document of `[a]` / `x = 1` / `[b]` /
`y = 2` no table named `b` has an entry with key `x`; `coml_set_int` called
with table `b` and key `x` answers `true` and overwrites `x` of table `a`. -/
theorem scoped_setter_writes_other_table :
    ∃ doc, coml_parse fixEnv 2 "[a]\nx = 1\n[b]\ny = 2\n".toList = .ok (some doc) ∧
      (∀ t ∈ doc.tables, t.name = "b".toList → ∀ kv ∈ t.items, kv.key ≠ "x".toList) ∧
      coml_get_value_raw doc "a".toList "x".toList = some (.double 100000) ∧
      (coml_set_int fixEnv doc 5 (some "b".toList) "x".toList).1 = true ∧
      coml_get_value_raw (coml_set_int fixEnv doc 5 (some "b".toList) "x".toList).2
        "a".toList "x".toList = some (.double 500000) := by
  refine ⟨_, rfl, ?_, ?_, ?_, ?_⟩ <;> decide

/-- C7 fails on the code. In the document of `[a]` / `x = 1` / `[b]` /
`x = 2` the call `coml_set_float(doc, v, "a", "x")` answers `true`, and
`coml_get_value_float(doc, "a", "x")` afterwards still returns the old value
of `a.x`: the setter stored `v` in `x` of table `b`. -/
theorem set_float_then_get_reads_old_value :
    ∃ doc doc', coml_parse fixEnv 2 "[a]\nx = 1\n[b]\nx = 2\n".toList = .ok (some doc) ∧
      coml_set_float fixEnv doc 6942000 (some "a".toList) "x".toList = .ok (true, doc') ∧
      coml_get_value_float fixEnv doc' "a".toList "x".toList = .ok 100000 ∧
      coml_get_value_float fixEnv doc' "b".toList "x".toList = .ok 6942000 := by
  refine ⟨_, _, rfl, rfl, ?_, ?_⟩ <;> decide

/-- C10 as stated fails. The root line `key = "oops` has a literal that
`coml_parse_value` rejects; `coml_parse` of that line followed by a table
returns a document, and its root store holds an entry for `key`, with a
`NULL` value. -/
theorem rejected_literal_still_parses :
    ∃ doc, coml_parse fixEnv 1 "key = \x22oops\n[t]\nx = 1\n".toList = .ok (some doc) ∧
      verdict fixEnv { key := "key".toList, literal := "\x22oops".toList } = some false ∧
      ∃ kv ∈ doc.items, kv.key = "key".toList ∧ kv.value = none := by
  refine ⟨_, rfl, ?_, ?_⟩ <;> decide

/-! ## Lemmas on splitting and trimming -/

theorem split_loop_word (d : Char) (w : Str) (hw : d ∉ w) (rest tok : Str) :
    coml_split_loop d (w ++ rest) tok = coml_split_loop d rest (tok ++ w) := by
  induction w generalizing tok with
  | nil => simp
  | cons c w ih =>
    have hc : c ≠ d := fun e => hw (by simp [e])
    have hw' : d ∉ w := fun e => hw (List.mem_cons_of_mem _ e)
    rw [List.cons_append, coml_split_loop, if_neg hc, ih hw']
    simp

theorem split_loop_end (d : Char) (w : Str) (hw : d ∉ w) (tok : Str) :
    coml_split_loop d w tok = if tok ++ w = [] then [] else [tok ++ w] := by
  have := split_loop_word d w hw [] tok
  simp only [List.append_nil] at this
  rw [this]
  simp [coml_split_loop]

theorem split_loop_delim (d : Char) (rest tok : Str) (htok : tok ≠ []) :
    coml_split_loop d (d :: rest) tok = tok :: coml_split_loop d rest [] := by
  simp [coml_split_loop, htok]

theorem split_unlines (ls : List Str) (h : ∀ l ∈ ls, l ≠ [] ∧ '\n' ∉ l) :
    coml_split (unlines ls) '\n' = ls := by
  unfold coml_split
  induction ls with
  | nil => simp [unlines, coml_split_loop]
  | cons l ls ih =>
    obtain ⟨hne, hnl⟩ := h l (List.mem_cons_self _ _)
    have ih := ih (fun l' hl' => h l' (List.mem_cons_of_mem _ hl'))
    simp only [unlines]
    rw [split_loop_word '\n' l hnl, List.nil_append, split_loop_delim _ _ _ hne, ih]

theorem trim_loop_cons (b : Bool) (a : Char) (s : Str) :
    ∃ b', coml_trim_loop b (a :: s) = a :: coml_trim_loop b' s ∨
      coml_trim_loop b (a :: s) = coml_trim_loop b' s := by
  refine ⟨if a = DQ ∨ a = SQ then !b else b, ?_⟩
  simp only [coml_trim_loop]
  split_ifs <;> simp

theorem trim_loop_mem {b : Bool} {s : Str} {c : Char} (h : c ∈ coml_trim_loop b s) : c ∈ s := by
  induction s generalizing b with
  | nil => simp [coml_trim_loop] at h
  | cons a s ih =>
    obtain ⟨b', e | e⟩ := trim_loop_cons b a s
    · rw [e] at h
      rcases List.mem_cons.mp h with rfl | h
      · simp
      · exact List.mem_cons_of_mem _ (ih h)
    · rw [e] at h
      exact List.mem_cons_of_mem _ (ih h)

theorem trim_loop_word (w : Str)
    (hw : ∀ c ∈ w, c ≠ DQ ∧ c ≠ SQ ∧ c ≠ Char.ofNat 9 ∧ c ≠ Char.ofNat 32) (rest : Str) :
    coml_trim_loop false (w ++ rest) = w ++ coml_trim_loop false rest := by
  induction w with
  | nil => simp
  | cons c w ih =>
    obtain ⟨h1, h2, h3, h4⟩ := hw c (List.mem_cons_self _ _)
    have ih := ih (fun c' hc' => hw c' (List.mem_cons_of_mem _ hc'))
    simp [coml_trim_loop, h1, h2, h3, h4, ih]

theorem key_char_plain {c : Char} (h : key_char c = true) :
    c ≠ DQ ∧ c ≠ SQ ∧ c ≠ Char.ofNat 9 ∧ c ≠ Char.ofNat 32 ∧ c ≠ '=' ∧ c ≠ '\n' ∧
      c ≠ '#' ∧ c ≠ '[' := by
  refine ⟨?_, ?_, ?_, ?_, ?_, ?_, ?_, ?_⟩ <;> · rintro rfl; revert h; decide

theorem trim_line (d : Decl) (hk : ∀ c ∈ d.key, key_char c = true) :
    coml_trim d.line = d.key ++ '=' :: coml_trim d.literal := by
  unfold coml_trim Decl.line
  rw [trim_loop_word d.key (fun c hc => by
    obtain ⟨h1, h2, h3, h4, -⟩ := key_char_plain (hk c hc)
    exact ⟨h1, h2, h3, h4⟩)]
  have e : ' ' :: '=' :: ' ' :: d.literal = [' ', '=', ' '] ++ d.literal := rfl
  congr 1

theorem split_statement (key t : Str) (hkey : key ≠ []) (hk : '=' ∉ key) (ht : '=' ∉ t)
    (hne : t ≠ []) : coml_split (key ++ '=' :: t) '=' = [key, t] := by
  unfold coml_split
  rw [split_loop_word '=' key hk, List.nil_append, split_loop_delim _ _ _ hkey,
    split_loop_end '=' t ht]
  simp [hne]

/-! ## The parser on a text of the declared shape -/

theorem parse_value_key {P : Env} {kv : Coml_KV} {input : Option Str} {r : Bool × Coml_KV}
    (h : coml_parse_value P kv input = .ok r) : r.2.key = kv.key := by
  unfold coml_parse_value at h
  cases input with
  | none => simp at h
  | some s =>
    simp only at h
    split_ifs at h
    all_goals first
      | (cases h; rfl)
      | (cases hs : strip_ends_open P s with
         | error e => simp [hs, bind, Except.bind] at h
         | ok a =>
           simp only [hs, bind, Except.bind, pure, Except.pure] at h
           first
             | (cases h; rfl)
             | (split at h
                · simp at h
                · split_ifs at h
                  all_goals first
                    | (cases h; rfl)
                    | (cases hz : strip_elements (coml_split a ',') with
                       | error e => simp_all [bind, Except.bind]
                       | ok b =>
                         simp_all only [bind, Except.bind, pure, Except.pure]
                         cases h; rfl)))

theorem new_kv_entry {P : Env} {d : Decl} (h : verdict P d ≠ none) :
    coml_new_kv P (some d.key) (some (coml_trim d.literal)) = .ok (entry_of P d) := by
  unfold entry_of
  unfold verdict at h
  unfold coml_new_kv
  cases hv : coml_parse_value P (fresh_entry P d.key) (some (coml_trim d.literal)) with
  | error e => simp [hv] at h
  | ok r => simp [hv]

theorem entry_of_accepted {P : Env} {d : Decl} (h : verdict P d = some true) :
    coml_parse_value P (fresh_entry P d.key) (some (coml_trim d.literal)) =
      .ok (true, entry_of P d) := by
  unfold entry_of coml_new_kv
  unfold verdict at h
  cases hv : coml_parse_value P (fresh_entry P d.key) (some (coml_trim d.literal)) with
  | error e => simp [hv] at h
  | ok r =>
    obtain ⟨b, kv⟩ := r
    simp only [hv, Option.some.injEq] at h
    subst h
    simp [hv]

theorem entry_of_rejected {P : Env} {d : Decl} (h : verdict P d = some false) :
    (entry_of P d).key = d.key ∧ (entry_of P d).value = none := by
  unfold entry_of coml_new_kv
  unfold verdict at h
  cases hv : coml_parse_value P (fresh_entry P d.key) (some (coml_trim d.literal)) with
  | error e => simp [hv] at h
  | ok r =>
    obtain ⟨b, kv⟩ := r
    simp only [hv, Option.some.injEq] at h
    subst h
    have hk := parse_value_key hv
    simp only [fresh_entry] at hk
    simp [hv, hk]

theorem insert_kv_line {P : Env} {d : Decl} (h : decl_ok P d) (items : List Coml_KV) :
    coml_insert_kv P items (coml_split (coml_trim d.line) '=')[0]?
      (coml_split (coml_trim d.line) '=')[1]? = .ok (entry_of P d :: items) := by
  obtain ⟨⟨hne, hkc⟩, ⟨heq, -, htrim⟩, hv⟩ := h
  have hk : '=' ∉ d.key := fun hmem => (key_char_plain (hkc _ hmem)).2.2.2.2.1 rfl
  have ht : '=' ∉ coml_trim d.literal := fun hmem => heq (trim_loop_mem hmem)
  rw [trim_line d hkc, split_statement d.key _ hne hk ht htrim]
  simp [coml_insert_kv, new_kv_entry hv]

theorem line_head {P : Env} {d : Decl} (h : decl_ok P d) :
    d.line.head? ≠ some '[' ∧ d.line.head? ≠ some '#' := by
  obtain ⟨⟨hne, hkc⟩, -, -⟩ := h
  unfold Decl.line
  cases hkey : d.key with
  | nil => exact absurd hkey hne
  | cons c cs =>
    have hc := key_char_plain (hkc c (by simp [hkey]))
    simp only [List.cons_append, List.head?_cons, ne_eq, Option.some.injEq]
    exact ⟨hc.2.2.2.2.2.2.2, hc.2.2.2.2.2.2.1⟩

theorem parse_kv_line {P : Env} {d : Decl} (h : decl_ok P d) (table : Coml_Table) :
    coml_parse_kv P table d.line =
      .ok (true, { table with items := entry_of P d :: table.items }) := by
  unfold coml_parse_kv
  simp [insert_kv_line h]

theorem root_loop_shape {P : Env} (roots : List Decl) (hroots : ∀ d ∈ roots, decl_ok P d)
    (header : Str) (rest : List Str) (hh : header.head? = some '[') (i : Nat) (c : Coml) :
    coml_parse_root_loop P (roots.map Decl.line ++ header :: rest) i c =
      .ok { c with items := (roots.map (entry_of P)).reverse ++ c.items,
                   next_table := if roots = [] then c.next_table else i + roots.length } := by
  induction roots generalizing i c with
  | nil => simp [coml_parse_root_loop, hh]
  | cons d roots ih =>
    have hd := hroots d (List.mem_cons_self _ _)
    have ih := ih (fun d' hd' => hroots d' (List.mem_cons_of_mem _ hd'))
    obtain ⟨h1, h2⟩ := line_head hd
    rw [List.map_cons, List.cons_append, coml_parse_root_loop]
    simp only [h1, h2, if_false, insert_kv_line hd]
    rw [ih]
    by_cases hr : roots = []
    · simp [hr]
    · simp [hr, Nat.add_assoc, Nat.add_comm 1]

theorem table_loop_shape {P : Env} (entries : List Decl) (hentries : ∀ d ∈ entries, decl_ok P d)
    (rest : List Str) (hrest : rest = [] ∨ ∃ h r, rest = h :: r ∧ h.head? = some '[')
    (i : Nat) (c : Coml) (t : Coml_Table) :
    coml_parse_table_loop P (entries.map Decl.line ++ rest) i c t =
      .ok (true,
        { c with next_table :=
            if rest = [] then (if entries = [] then c.next_table else i + entries.length)
            else i + entries.length },
        { t with items := (entries.map (entry_of P)).reverse ++ t.items }) := by
  induction entries generalizing i c t with
  | nil =>
    rcases hrest with rfl | ⟨h, r, rfl, hh⟩
    · simp [coml_parse_table_loop]
    · have h2 : h.head? ≠ some '#' := by rw [hh]; decide
      simp [coml_parse_table_loop, hh, h2]
  | cons d entries ih =>
    have hd := hentries d (List.mem_cons_self _ _)
    have ih := ih (fun d' hd' => hentries d' (List.mem_cons_of_mem _ hd'))
    obtain ⟨h1, h2⟩ := line_head hd
    rw [List.map_cons, List.cons_append, coml_parse_table_loop]
    simp only [h1, h2, if_false, parse_kv_line hd]
    rw [ih]
    by_cases he : entries = []
    · subst he
      by_cases hr : rest = []
      · simp [hr]
      · simp [hr]
    · have hne : List.map Decl.line entries ++ rest ≠ [] := by
        cases entries with
        | nil => exact absurd rfl he
        | cons a l => simp
      by_cases hr : rest = []
      · simp [hr, he, Nat.add_assoc, Nat.add_comm 1]
      · simp [hr, hne, Nat.add_assoc, Nat.add_comm 1]

theorem table_lines_head (ts : List TableDecl) :
    table_lines ts = [] ∨ ∃ h r, table_lines ts = h :: r ∧ h.head? = some '[' := by
  cases ts with
  | nil => exact Or.inl rfl
  | cons t ts => exact Or.inr ⟨header_line t.name, _, rfl, rfl⟩

theorem table_lines_nil {ts : List TableDecl} (h : table_lines ts = []) : ts = [] := by
  cases ts with
  | nil => rfl
  | cons t ts => simp [table_lines, TableDecl.lines] at h

theorem strip_header (name : Str) : strip_ends (header_line name) = .ok name := by
  unfold strip_ends header_line
  have hlen : ¬ ('[' :: name ++ [']']).length < 2 := by simp
  rw [if_neg hlen]
  have e : ('[' :: name ++ [']']).length - 2 = name.length := by simp
  rw [e]
  simp

theorem parse_table_shape {P : Env} (pre : List Str) (t : TableDecl) (ts : List TableDecl)
    (c : Coml) (hsplit : coml_split c.raw_content '\n' = pre ++ (t.lines ++ table_lines ts))
    (hnt : c.next_table = pre.length) (ht : table_ok P t) (hlast : ts = [] → t.entries ≠ []) :
    coml_parse_table P c =
      .ok (true, { c with next_table := pre.length + t.lines.length,
                          tables := table_of P t :: c.tables }) := by
  unfold coml_parse_table
  have hget : (pre ++ (t.lines ++ table_lines ts))[pre.length]? = some (header_line t.name) := by
    rw [List.getElem?_append_right (le_refl _)]
    simp [TableDecl.lines]
  have hhead : (header_line t.name).head? ≠ some '#' := by simp [header_line]
  have hdrop : (pre ++ (t.lines ++ table_lines ts)).drop (pre.length + 1) =
      t.entries.map Decl.line ++ table_lines ts := by
    rw [List.drop_append]
    simp [TableDecl.lines]
  simp only [hsplit, hnt, hget, hhead, if_false, strip_header, hdrop]
  rw [table_loop_shape t.entries ht.2 (table_lines ts) (table_lines_head ts)]
  simp only [coml_new_table, coml_insert_table, table_of, List.append_nil]
  by_cases hr : table_lines ts = []
  · have he := hlast (table_lines_nil hr)
    simp [hr, he, TableDecl.lines, Nat.add_assoc, Nat.add_comm 1]
  · simp [hr, TableDecl.lines, Nat.add_assoc, Nat.add_comm 1]

theorem parse_tables_shape {P : Env} (ts : List TableDecl) (pre : List Str) (c : Coml)
    (hsplit : coml_split c.raw_content '\n' = pre ++ table_lines ts)
    (hnt : c.next_table = pre.length) (hok : ∀ t ∈ ts, table_ok P t)
    (hlast : ∀ t, ts.getLast? = some t → t.entries ≠ []) (fuel : Nat) (hf : ts.length ≤ fuel) :
    coml_parse_tables P (pre ++ table_lines ts).length fuel c =
      .ok (some { c with next_table := (pre ++ table_lines ts).length,
                         tables := (ts.map (table_of P)).reverse ++ c.tables }) := by
  induction ts generalizing pre c fuel with
  | nil =>
    cases fuel <;> simp [coml_parse_tables, table_lines, hnt] <;> rw [← hnt]
  | cons t ts ih =>
    cases fuel with
    | zero => simp at hf
    | succ fuel =>
      have hne : c.next_table ≠ (pre ++ table_lines (t :: ts)).length := by
        simp [hnt, table_lines, TableDecl.lines]
      have hl : ts = [] → t.entries ≠ [] := by
        intro e
        apply hlast t
        simp [e]
      have hstep := parse_table_shape pre t ts c (by simpa [table_lines] using hsplit) hnt
        (hok t (List.mem_cons_self _ _)) hl
      rw [coml_parse_tables]
      simp only [hne, ne_eq, not_false_eq_true, if_true, hstep]
      have hpre : pre ++ table_lines (t :: ts) = (pre ++ t.lines) ++ table_lines ts := by
        simp [table_lines]
      rw [hpre]
      rw [ih (pre ++ t.lines) _ (by simpa [table_lines] using hsplit) (by simp)
        (fun t' ht' => hok t' (List.mem_cons_of_mem _ ht'))
        (fun t' ht' => hlast t' (by
          cases ts with
          | nil => simp at ht'
          | cons a l => simpa [List.getLast?_cons_cons] using ht'))
        fuel (by simpa using hf)]
      simp

/-- The parser on a text whose lines are root lines followed by table blocks:
with fuel for every table it returns the document of the declared entries
and tables, each store and the table list in reverse order of declaration. -/
theorem parse_shape {P : Env} (roots : List Decl) (tables : List TableDecl) (content : Str)
    (hsplit : coml_split content '\n' = doc_lines roots tables)
    (hroots : ∀ d ∈ roots, decl_ok P d) (hne : tables ≠ [])
    (hok : ∀ t ∈ tables, table_ok P t)
    (hlast : ∀ t, tables.getLast? = some t → t.entries ≠ [])
    (fuel : Nat) (hf : tables.length ≤ fuel) :
    coml_parse P fuel content =
      .ok (some { raw_content := content,
                  tables := (tables.map (table_of P)).reverse,
                  items := (roots.map (entry_of P)).reverse,
                  next_table := (doc_lines roots tables).length }) := by
  have hcontent : content ≠ [] := by
    intro e
    rw [e] at hsplit
    cases tables with
    | nil => exact hne rfl
    | cons t ts =>
      have : (doc_lines roots (t :: ts)).length = 0 := by rw [← hsplit]; rfl
      simp [doc_lines, table_lines, TableDecl.lines] at this
  unfold coml_parse
  rw [if_neg hcontent]
  simp only [hsplit]
  cases tables with
  | nil => exact absurd rfl hne
  | cons t ts =>
    have hroot := root_loop_shape (P := P) roots hroots (header_line t.name)
      (t.entries.map Decl.line ++ table_lines ts) rfl 0
      { raw_content := content, tables := [], items := [], next_table := 0 }
    have hlines : doc_lines roots (t :: ts) =
        roots.map Decl.line ++ header_line t.name :: (t.entries.map Decl.line ++ table_lines ts) := by
      simp [doc_lines, table_lines, TableDecl.lines]
    rw [hlines, hroot, ← hlines]
    simp only [coml_split_length]
    have hnt : (if roots = [] then 0 else 0 + roots.length) = (roots.map Decl.line).length := by
      by_cases hr : roots = [] <;> simp [hr]
    have := parse_tables_shape (P := P) (t :: ts) (roots.map Decl.line)
      { raw_content := content, tables := [],
        items := (roots.map (entry_of P)).reverse ++ [],
        next_table := if roots = [] then 0 else 0 + roots.length }
      hsplit hnt hok hlast fuel hf
    simp only [doc_lines]
    rw [this]
    simp

theorem line_ok {P : Env} {d : Decl} (h : decl_ok P d) : d.line ≠ [] ∧ '\n' ∉ d.line := by
  obtain ⟨⟨hne, hkc⟩, ⟨-, hnl, -⟩, -⟩ := h
  unfold Decl.line
  refine ⟨by simp, ?_⟩
  intro hmem
  rcases List.mem_append.mp hmem with hm | hm
  · exact (key_char_plain (hkc _ hm)).2.2.2.2.2.1 rfl
  · simp only [List.mem_cons] at hm
    rcases hm with hm | hm | hm | hm
    · exact absurd hm (by decide)
    · exact absurd hm (by decide)
    · exact absurd hm (by decide)
    · exact hnl hm

theorem table_lines_ok {P : Env} {ts : List TableDecl} (hok : ∀ t ∈ ts, table_ok P t) :
    ∀ l ∈ table_lines ts, l ≠ [] ∧ '\n' ∉ l := by
  induction ts with
  | nil => simp [table_lines]
  | cons t ts ih =>
    have ht := hok t (List.mem_cons_self _ _)
    have ih := ih (fun t' ht' => hok t' (List.mem_cons_of_mem _ ht'))
    intro l hl
    simp only [table_lines, TableDecl.lines, List.cons_append, List.mem_cons, List.mem_append,
      List.mem_map] at hl
    rcases hl with rfl | ⟨d, hd, rfl⟩ | hl
    · refine ⟨by simp [header_line], ?_⟩
      intro hmem
      simp only [header_line, List.mem_cons, List.mem_append, List.mem_singleton] at hmem
      rcases hmem with (hm | hm) | hm
      · exact absurd hm (by decide)
      · exact ht.1 hm
      · exact absurd hm (by decide)
    · exact line_ok (ht.2 d hd)
    · exact ih l hl

theorem split_doc_text {P : Env} (roots : List Decl) (tables : List TableDecl)
    (hroots : ∀ d ∈ roots, decl_ok P d) (hok : ∀ t ∈ tables, table_ok P t) :
    coml_split (doc_text roots tables) '\n' = doc_lines roots tables := by
  apply split_unlines
  intro l hl
  simp only [doc_lines, List.mem_append, List.mem_map] at hl
  rcases hl with ⟨d, hd, rfl⟩ | hl
  · exact line_ok (hroots d hd)
  · exact table_lines_ok hok l hl

theorem getLast_mem {α : Type} {l : List α} {a : α} (h : l.getLast? = some a) : a ∈ l :=
  List.mem_of_getLast?_eq_some h

/-- C1 fails on the code at a blank literal. The text of the root line with
key `k` and the empty literal followed by the block `[t]` / `x = 1` meets what
the claim asks: the keys are words, the literals have no `=` and no newline,
and `coml_parse_value` accepts both trimmed literals (the empty one as a
number). On it `coml_parse` is undefined, whatever the fuel: the trimmed line
`k=` has no second part, and `coml_parse_value` is called on `NULL`. For
every text made of root `key = literal` lines followed by one or more table
blocks (a `[name]` header and at least one `key = literal` line), where keys
are non-empty words of letters, digits, `-` and `_`, literals have no `=` and
no newline and are not blank, table names have no newline, and
`coml_parse_value` accepts every trimmed literal: `coml_parse`, with fuel for
every table, returns a document whose root store is the declared root entries
and whose table list is the declared tables, each table with its declared
entries, every store and the table list in reverse order of declaration; and
every entry keeps its key and is what `coml_parse_value` makes of the trimmed
literal. -/
theorem parse_declared_document (P : Env) :
    (key_ok "k".toList ∧ '=' ∉ ([] : Str) ∧ '\n' ∉ ([] : Str) ∧
      verdict P { key := "k".toList, literal := [] } = some true ∧
      key_ok "x".toList ∧ '=' ∉ "1".toList ∧ '\n' ∉ "1".toList ∧
      verdict P { key := "x".toList, literal := "1".toList } = some true ∧
      doc_text [{ key := "k".toList, literal := [] }]
          [{ name := "t".toList, entries := [{ key := "x".toList, literal := "1".toList }] }]
        = "k = \n[t]\nx = 1\n".toList ∧
      ∀ fuel, coml_parse P fuel "k = \n[t]\nx = 1\n".toList = .error .undefined) ∧
    (∀ (roots : List Decl) (tables : List TableDecl),
      (∀ d ∈ roots, key_ok d.key ∧ literal_ok d.literal ∧ verdict P d = some true) →
      tables ≠ [] →
      (∀ t ∈ tables, '\n' ∉ t.name ∧ t.entries ≠ [] ∧
        ∀ d ∈ t.entries, key_ok d.key ∧ literal_ok d.literal ∧ verdict P d = some true) →
      ∀ fuel, tables.length ≤ fuel →
      coml_parse P fuel (doc_text roots tables) =
        .ok (some { raw_content := doc_text roots tables,
                    tables := (tables.map (table_of P)).reverse,
                    items := (roots.map (entry_of P)).reverse,
                    next_table := (doc_lines roots tables).length }) ∧
      (∀ d, (d ∈ roots ∨ ∃ t ∈ tables, d ∈ t.entries) →
        (entry_of P d).key = d.key ∧
        coml_parse_value P (fresh_entry P d.key) (some (coml_trim d.literal)) =
          .ok (true, entry_of P d))) := by
  refine ⟨⟨by decide, by decide, by decide, rfl, by decide, by decide, by decide, rfl, by decide,
    fun _ => rfl⟩, ?_⟩
  intro roots tables hroots hne htables fuel hf
  have hr : ∀ d ∈ roots, decl_ok P d := fun d hd =>
    ⟨(hroots d hd).1, (hroots d hd).2.1, by rw [(hroots d hd).2.2]; simp⟩
  have ht : ∀ t ∈ tables, table_ok P t := fun t ht =>
    ⟨(htables t ht).1, fun d hd =>
      ⟨((htables t ht).2.2 d hd).1, ((htables t ht).2.2 d hd).2.1,
        by rw [((htables t ht).2.2 d hd).2.2]; simp⟩⟩
  refine ⟨parse_shape roots tables _ (split_doc_text roots tables hr ht) hr hne ht
    (fun t hl => (htables t (getLast_mem hl)).2.1) fuel hf, ?_⟩
  intro d hd
  have hv : verdict P d = some true := by
    rcases hd with hd | ⟨t, ht', hd⟩
    · exact (hroots d hd).2.2
    · exact ((htables t ht').2.2 d hd).2.2
  have hacc := entry_of_accepted hv
  exact ⟨by simpa [fresh_entry] using parse_value_key hacc, hacc⟩

/-- C1 at the mixed-table scenario of the specification, on the concrete
platform: the theorem applied to `title = "demo"` / `[server]` /
`port = 8080` / `host = "local"` / `weights = [ 1, 2, 3 ]`, and the parse of
the document of `main.c`. -/
theorem parse_declared_document_witness :
    coml_parse fixEnv 1
        "title = \x22demo\x22\n[server]\nport = 8080\nhost = \x22local\x22\nweights = [ 1, 2, 3 ]\n".toList
      = .ok (some
          { raw_content :=
              "title = \x22demo\x22\n[server]\nport = 8080\nhost = \x22local\x22\nweights = [ 1, 2, 3 ]\n".toList,
            tables :=
              [{ name := "server".toList,
                 items :=
                   [{ key := "weights".toList,
                      value := some (.listDouble [100000, 200000, 300000]),
                      type := ComlType_ListDouble, list_length := 3 },
                    { key := "host".toList, value := some (.string "local".toList),
                      type := ComlType_String, list_length := 0 },
                    { key := "port".toList, value := some (.double 808000000),
                      type := ComlType_Double, list_length := 0 }] }],
            items :=
              [{ key := "title".toList, value := some (.string "demo".toList),
                 type := ComlType_String, list_length := 0 }],
            next_table := 5 }) ∧
    (coml_parse fixEnv 2 (
        "# this is a comment\nsome-string = \x22some string\x22\n\n# also a comment\n" ++
        "[stuff]\nstr1 = \x22qweqwe\x22\nstr2 = \x22asdasd\x22\n\n" ++
        "[qwerty]\nboolean = true\nnumber = 213\nfloot = 42.69\n" ++
        "stringwithspace = \x22this string has spaces\x22\n" ++
        "list = [ \x22this\x22, \x22is\x22, \x22a\x22, \x22list\x22 ]\nnums = [ 123, 321 ]\n").toList).map
        (Option.map (fun doc => (doc.items, doc.tables)))
      = .ok (some
          ([{ key := "some-string".toList, value := some (.string "some string".toList),
              type := ComlType_String, list_length := 0 }],
           [{ name := "qwerty".toList,
              items :=
                [{ key := "nums".toList, value := some (.listDouble [12300000, 32100000]),
                   type := ComlType_ListDouble, list_length := 2 },
                 { key := "list".toList,
                   value := some (.listString
                     ["this".toList, "is".toList, "a".toList, "list".toList]),
                   type := ComlType_ListString, list_length := 4 },
                 { key := "stringwithspace".toList,
                   value := some (.string "this string has spaces".toList),
                   type := ComlType_String, list_length := 0 },
                 { key := "floot".toList, value := some (.double 4269000),
                   type := ComlType_Double, list_length := 0 },
                 { key := "number".toList, value := some (.double 21300000),
                   type := ComlType_Double, list_length := 0 },
                 { key := "boolean".toList, value := some (.bool true),
                   type := ComlType_Boolean, list_length := 0 }] },
            { name := "stuff".toList,
              items :=
                [{ key := "str2".toList, value := some (.string "asdasd".toList),
                   type := ComlType_String, list_length := 0 },
                 { key := "str1".toList, value := some (.string "qweqwe".toList),
                   type := ComlType_String, list_length := 0 }] }])) :=
  ⟨((parse_declared_document fixEnv).2
      [{ key := "title".toList, literal := "\x22demo\x22".toList }]
      [{ name := "server".toList,
         entries := [{ key := "port".toList, literal := "8080".toList },
                     { key := "host".toList, literal := "\x22local\x22".toList },
                     { key := "weights".toList, literal := "[ 1, 2, 3 ]".toList }] }]
      (by decide) (by decide) (by decide) 1 (by decide)).1,
   by decide⟩

/-- C10, amended. A rejected value literal does not fail the parse. For every
text made of root `key = literal` lines followed by one or more table blocks
with at least one line each, where keys are words, literals have no `=` and
no newline and are not blank, and `coml_parse_value` either accepts or
rejects every trimmed literal: `coml_parse`, with fuel for every table,
returns a document that holds one entry for every declared line, and the
entry of a line whose literal was rejected has the line's key and a `NULL`
value. -/
theorem rejected_literal_stored_null (P : Env) (roots : List Decl) (tables : List TableDecl)
    (hroots : ∀ d ∈ roots, decl_ok P d) (hne : tables ≠ [])
    (htables : ∀ t ∈ tables, table_ok P t ∧ t.entries ≠ [])
    (fuel : Nat) (hf : tables.length ≤ fuel) :
    coml_parse P fuel (doc_text roots tables) =
      .ok (some { raw_content := doc_text roots tables,
                  tables := (tables.map (table_of P)).reverse,
                  items := (roots.map (entry_of P)).reverse,
                  next_table := (doc_lines roots tables).length }) ∧
    (∀ d, verdict P d = some false →
      (entry_of P d).key = d.key ∧ (entry_of P d).value = none) :=
  ⟨parse_shape roots tables _
      (split_doc_text roots tables hroots (fun t ht => (htables t ht).1)) hroots hne
      (fun t ht => (htables t ht).1) (fun t hl => (htables t (getLast_mem hl)).2) fuel hf,
    fun _ hv => entry_of_rejected hv⟩

/-- C10, amended, at `key = "oops` / `[t]` / `x = 1`: the parse returns the
document, with `key` stored under a `NULL` value. -/
theorem rejected_literal_stored_null_witness :
    coml_parse fixEnv 1 "key = \x22oops\n[t]\nx = 1\n".toList =
      .ok (some { raw_content := "key = \x22oops\n[t]\nx = 1\n".toList,
                  tables := [{ name := "t".toList,
                               items := [{ key := "x".toList, value := some (.double 100000),
                                           type := ComlType_Double, list_length := 0 }] }],
                  items := [{ key := "key".toList, value := none, type := 0,
                              list_length := 0 }],
                  next_table := 3 }) :=
  (rejected_literal_stored_null fixEnv
    [{ key := "key".toList, literal := "\x22oops".toList }]
    [{ name := "t".toList, entries := [{ key := "x".toList, literal := "1".toList }] }]
    (by decide) (by decide) (by decide) 1 (by decide)).1

/-! ## The serializer on plain documents -/

theorem unlines_append (a b : List Str) : unlines (a ++ b) = unlines a ++ unlines b := by
  induction a with
  | nil => rfl
  | cons l a ih => simp [unlines, ih]

theorem format_entry_plain {P : Env} {kv : Coml_KV} (h : plain_kv P kv) :
    coml_format_entry P kv = .ok ((decl_of P kv).line ++ ['\n']) := by
  obtain ⟨-, hv⟩ := h
  unfold plain_value at hv
  unfold coml_format_entry decl_of printed_literal Decl.line
  cases hval : kv.value with
  | none => simp [hval] at hv
  | some p =>
    cases p with
    | double x =>
      simp only [hval] at hv
      simp [hv.1]
    | string s =>
      simp only [hval] at hv
      simp [hv.1]
    | bool b =>
      simp only [hval] at hv
      cases b <;> simp [hv.1]
    | listDouble xs =>
      simp only [hval] at hv
      obtain ⟨h1, h2, h3, -, hcap, -⟩ := hv
      have hl : xs.length ≠ 0 := fun e => h3 (List.length_eq_zero.mp e)
      simp [h1, h2, hl, print_list_line]
      simp at hcap
      omega
    | listString ss =>
      simp only [hval] at hv
      obtain ⟨h1, h2, h3, -, hcap, -⟩ := hv
      have hl : ss.length ≠ 0 := fun e => h3 (List.length_eq_zero.mp e)
      simp [h1, h2, hl, print_list_line]
      simp at hcap
      omega

theorem format_kv_plain {P : Env} (items : List Coml_KV) (h : ∀ kv ∈ items, plain_kv P kv) :
    coml_format_kv P items = .ok (unlines ((items.reverse.map (decl_of P)).map Decl.line)) := by
  induction items with
  | nil => rfl
  | cons kv items ih =>
    have ih := ih (fun kv' h' => h kv' (List.mem_cons_of_mem _ h'))
    have hkv := format_entry_plain (h kv (List.mem_cons_self _ _))
    simp only [coml_format_kv, ih, hkv, bind, Except.bind, pure, Except.pure]
    simp [unlines_append, unlines]

theorem format_table_plain {P : Env} (tables : List Coml_Table)
    (h : ∀ t ∈ tables, ∀ kv ∈ t.items, plain_kv P kv) :
    coml_format_table P tables = .ok (blocks_text (tables.reverse.map (tdecl_of P))) := by
  have happ : ∀ a b : List TableDecl, blocks_text (a ++ b) = blocks_text a ++ blocks_text b := by
    intro a b
    induction a with
    | nil => rfl
    | cons t a ih => simp [blocks_text, ih]
  induction tables with
  | nil => rfl
  | cons t tables ih =>
    have ih := ih (fun t' h' => h t' (List.mem_cons_of_mem _ h'))
    have hkv := format_kv_plain t.items (h t (List.mem_cons_self _ _))
    simp only [coml_format_table, ih, hkv, bind, Except.bind, pure, Except.pure]
    simp [happ, blocks_text, tdecl_of, TableDecl.lines, unlines, header_line]

theorem write_file_plain {P : Env} {doc : Coml} (h : plain_doc P doc) :
    coml_write_file P doc =
      .ok (unlines ((doc.items.reverse.map (decl_of P)).map Decl.line) ++
            '\n' :: blocks_text (doc.tables.reverse.map (tdecl_of P))) := by
  obtain ⟨-, -, hi, ht⟩ := h
  unfold coml_write_file
  simp [format_kv_plain doc.items hi, format_table_plain doc.tables (fun t h' => (ht t h').2),
    bind, Except.bind, pure, Except.pure]

theorem split_loop_unlines (ls : List Str) (h : ∀ l ∈ ls, l ≠ [] ∧ '\n' ∉ l) (rest : Str) :
    coml_split_loop '\n' (unlines ls ++ rest) [] = ls ++ coml_split_loop '\n' rest [] := by
  induction ls with
  | nil => simp [unlines]
  | cons l ls ih =>
    obtain ⟨hne, hnl⟩ := h l (List.mem_cons_self _ _)
    have ih := ih (fun l' hl' => h l' (List.mem_cons_of_mem _ hl'))
    simp only [unlines, List.append_assoc, List.cons_append]
    rw [split_loop_word '\n' l hnl, List.nil_append, split_loop_delim _ _ _ hne, ih]

theorem split_loop_blank (rest : Str) :
    coml_split_loop '\n' ('\n' :: rest) [] = coml_split_loop '\n' rest [] := by
  simp [coml_split_loop]

theorem split_blocks_text {P : Env} (ts : List TableDecl) (hok : ∀ t ∈ ts, table_ok P t) :
    coml_split_loop '\n' (blocks_text ts) [] = table_lines ts := by
  induction ts with
  | nil => simp [blocks_text, table_lines, coml_split_loop]
  | cons t ts ih =>
    have ih := ih (fun t' ht' => hok t' (List.mem_cons_of_mem _ ht'))
    have hl : ∀ l ∈ t.lines, l ≠ [] ∧ '\n' ∉ l := by
      intro l hl
      apply @table_lines_ok P [t] (fun t' ht' => by
        simp only [List.mem_singleton] at ht'
        subst ht'
        exact hok _ (List.mem_cons_self _ _))
      simpa [table_lines] using hl
    simp only [blocks_text, table_lines]
    rw [split_loop_unlines t.lines hl, split_loop_blank, ih]

theorem split_written {P : Env} (roots : List Decl) (ts : List TableDecl)
    (hroots : ∀ d ∈ roots, decl_ok P d) (hok : ∀ t ∈ ts, table_ok P t) :
    coml_split (unlines (roots.map Decl.line) ++ '\n' :: blocks_text ts) '\n' =
      doc_lines roots ts := by
  unfold coml_split doc_lines
  rw [split_loop_unlines _ (by
    intro l hl
    simp only [List.mem_map] at hl
    obtain ⟨d, hd, rfl⟩ := hl
    exact line_ok (hroots d hd)), split_loop_blank, split_blocks_text ts hok]

/-! ## Printed literals read back -/

theorem trim_loop_plain_char (c : Char) (rest : Str)
    (hc : c ≠ DQ ∧ c ≠ SQ ∧ c ≠ Char.ofNat 9 ∧ c ≠ Char.ofNat 32) :
    coml_trim_loop false (c :: rest) = c :: coml_trim_loop false rest := by
  simpa using trim_loop_word [c] (by simpa using hc) rest

theorem trim_loop_blank (rest : Str) :
    coml_trim_loop false (' ' :: rest) = coml_trim_loop false rest := by
  rw [coml_trim_loop]
  have h1 : ¬ ((' ' : Char) = DQ ∨ (' ' : Char) = SQ) := by decide
  have h2 : ¬ ((' ' : Char) ≠ Char.ofNat 9 ∧ (' ' : Char) ≠ Char.ofNat 32) := by decide
  simp only [h1, h2, if_false, Bool.false_eq_true]

theorem trim_loop_inside (w : Str) (hw : ∀ c ∈ w, c ≠ DQ ∧ c ≠ SQ) (rest : Str) :
    coml_trim_loop true (w ++ rest) = w ++ coml_trim_loop true rest := by
  induction w with
  | nil => simp
  | cons c w ih =>
    obtain ⟨h1, h2⟩ := hw c (List.mem_cons_self _ _)
    have ih := ih (fun c' hc' => hw c' (List.mem_cons_of_mem _ hc'))
    rw [List.cons_append, coml_trim_loop]
    simp [h1, h2, ih]

theorem trim_loop_quoted (s : Str) (hs : ∀ c ∈ s, c ≠ DQ ∧ c ≠ SQ) (rest : Str) :
    coml_trim_loop false (DQ :: s ++ DQ :: rest) = DQ :: s ++ DQ :: coml_trim_loop false rest := by
  have h1 : coml_trim_loop false (DQ :: (s ++ DQ :: rest)) =
      DQ :: coml_trim_loop true (s ++ DQ :: rest) := by
    rw [coml_trim_loop]; simp
  have h2 : coml_trim_loop true (DQ :: rest) = DQ :: coml_trim_loop false rest := by
    rw [coml_trim_loop]; simp; decide
  rw [List.cons_append, h1, trim_loop_inside s hs, h2]
  rfl

theorem trim_elements (fmt : Double → Str) (xs : List Double)
    (h : ∀ x ∈ xs, ∀ c ∈ fmt x, c ≠ DQ ∧ c ≠ SQ ∧ c ≠ Char.ofNat 9 ∧ c ≠ Char.ofNat 32)
    (rest : Str) :
    coml_trim_loop false (format_elements fmt xs ++ rest) =
      comma_join (xs.map fmt) ++ coml_trim_loop false rest := by
  induction xs with
  | nil => simp [format_elements, comma_join]
  | cons x xs ih =>
    have hx := h x (List.mem_cons_self _ _)
    have ih := ih (fun x' hx' => h x' (List.mem_cons_of_mem _ hx'))
    cases xs with
    | nil =>
      simp only [format_elements, List.map_cons, List.map_nil, comma_join, List.cons_append]
      rw [trim_loop_blank, trim_loop_word _ hx]
    | cons y ys =>
      simp only [format_elements, List.map_cons, comma_join, List.cons_append,
        List.append_assoc]
      rw [trim_loop_blank, trim_loop_word _ hx, trim_loop_plain_char ',' _ (by decide)]
      simp only [List.map_cons] at ih
      rw [ih]

theorem trim_strings (ss : List Str) (h : ∀ s ∈ ss, ∀ c ∈ s, c ≠ DQ ∧ c ≠ SQ) (rest : Str) :
    coml_trim_loop false (format_strings ss ++ rest) =
      comma_join (ss.map (fun s => DQ :: s ++ [DQ])) ++ coml_trim_loop false rest := by
  induction ss with
  | nil => simp [format_strings, comma_join]
  | cons x xs ih =>
    have hx := h x (List.mem_cons_self _ _)
    have ih := ih (fun x' hx' => h x' (List.mem_cons_of_mem _ hx'))
    cases xs with
    | nil =>
      simp only [format_strings, List.map_cons, List.map_nil, comma_join, List.cons_append,
        List.append_assoc, List.singleton_append]
      rw [trim_loop_blank]
      exact trim_loop_quoted x hx rest
    | cons y ys =>
      simp only [format_strings, List.map_cons, comma_join, List.cons_append,
        List.append_assoc, List.singleton_append]
      rw [trim_loop_blank]
      have := trim_loop_quoted x hx (',' :: (format_strings (y :: ys) ++ rest))
      simp only [List.cons_append] at this
      rw [this, trim_loop_plain_char ',' _ (by decide)]
      simp only [List.map_cons] at ih
      rw [ih]
      simp

theorem split_comma_join (ws : List Str) (h : ∀ w ∈ ws, w ≠ [] ∧ ',' ∉ w) :
    coml_split (comma_join ws) ',' = ws := by
  unfold coml_split
  induction ws with
  | nil => simp [comma_join, coml_split_loop]
  | cons w ws ih =>
    obtain ⟨hne, hc⟩ := h w (List.mem_cons_self _ _)
    have ih := ih (fun w' hw' => h w' (List.mem_cons_of_mem _ hw'))
    cases ws with
    | nil =>
      simp only [comma_join]
      rw [split_loop_end ',' w hc]
      simp [hne]
    | cons y ys =>
      simp only [comma_join]
      rw [split_loop_word ',' w hc, List.nil_append, split_loop_delim _ _ _ hne, ih]

theorem strip_elements_quoted (ss : List Str) :
    strip_elements (ss.map (fun s => DQ :: s ++ [DQ])) = .ok ss := by
  induction ss with
  | nil => rfl
  | cons s ss ih =>
    have hs : strip_ends (DQ :: s ++ [DQ]) = .ok s := by
      unfold strip_ends
      have hlen : ¬ (DQ :: s ++ [DQ]).length < 2 := by simp
      rw [if_neg hlen]
      have e : (DQ :: s ++ [DQ]).length - 2 = s.length := by simp
      rw [e]
      simp
    simp only [List.map_cons, strip_elements, hs, ih, bind, Except.bind, pure, Except.pure]

theorem strip_ends_wrapped (a b : Char) (s : Str) : strip_ends (a :: s ++ [b]) = .ok s := by
  unfold strip_ends
  have hlen : ¬ (a :: s ++ [b]).length < 2 := by simp
  rw [if_neg hlen]
  have e : (a :: s ++ [b]).length - 2 = s.length := by simp
  rw [e]
  simp

theorem strip_ends_open_wrapped (P : Env) (a b : Char) (s : Str) :
    strip_ends_open P (a :: s ++ [b]) =
      if P.heap_nul s = true then .ok s else .error .undefined := by
  unfold strip_ends_open
  rw [strip_ends_wrapped]

theorem getLast_wrapped (a b : Char) (s : Str) : (a :: s ++ [b]).getLast? = some b := by
  have : a :: s ++ [b] = (a :: s) ++ [b] := rfl
  rw [this, List.getLast?_concat]

theorem parse_value_number (P : Env) (e : Coml_KV) (f : Str)
    (h1 : f.head? ≠ some DQ) (h2 : f.head? ≠ some SQ) (h3 : f.head? ≠ some '[')
    (h4 : f ≠ "true".toList) (h5 : f ≠ "false".toList) :
    coml_parse_value P e (some f) =
      .ok (true, { e with value := some (.double (P.atof f)),
                          type := ComlType_Double, list_length := 0 }) := by
  unfold coml_parse_value
  simp only [h1, h2, h3, h4, h5, or_self, if_false]

theorem parse_value_string (P : Env) (e : Coml_KV) (s : Str) :
    coml_parse_value P e (some (DQ :: s ++ [DQ])) =
      if P.heap_nul s = true then
        .ok (true, { e with value := some (.string s),
                            type := ComlType_String, list_length := 0 })
      else .error .undefined := by
  unfold coml_parse_value
  have hh : (DQ :: s ++ [DQ]).head? = some DQ := rfl
  have hq : ¬ (some DQ = some SQ) := by decide
  simp only [hh, getLast_wrapped, strip_ends_open_wrapped, true_or, if_true, ne_eq,
    not_true_eq_false, and_false, if_false, hq, false_and, bind, Except.bind, pure,
    Except.pure]
  by_cases hn : P.heap_nul s = true
  · simp only [hn, if_true]
  · simp only [hn, if_false, Bool.false_eq_true]

theorem parse_value_list_double (P : Env) (e : Coml_KV) (f0 : Str) (fs : List Str)
    (hne : ∀ w ∈ f0 :: fs, w ≠ [] ∧ ',' ∉ w)
    (h1 : f0.head? ≠ some DQ) (h2 : f0.head? ≠ some SQ) :
    coml_parse_value P e (some ('[' :: comma_join (f0 :: fs) ++ [']'])) =
      if P.heap_nul (comma_join (f0 :: fs)) = true then
        .ok (true, { e with value := some (.listDouble ((f0 :: fs).map P.atof)),
                            type := ComlType_ListDouble,
                            list_length := (f0 :: fs).length })
      else .error .undefined := by
  unfold coml_parse_value
  have hh : ('[' :: comma_join (f0 :: fs) ++ [']']).head? = some '[' := rfl
  have hq1 : ¬ (some '[' = some DQ) := by decide
  have hq2 : ¬ (some '[' = some SQ) := by decide
  simp only [hh, hq1, hq2, or_self, if_false, if_true, getLast_wrapped, ne_eq,
    not_true_eq_false, strip_ends_open_wrapped]
  by_cases hn : P.heap_nul (comma_join (f0 :: fs)) = true
  · simp only [hn, if_true, bind, Except.bind, split_comma_join _ hne, h1, h2,
      coml_split_length, or_self, if_false]
  · simp only [hn, if_false, bind, Except.bind, Bool.false_eq_true]

theorem parse_value_list_string (P : Env) (e : Coml_KV) (s0 : Str) (ss : List Str)
    (hok : ∀ s ∈ s0 :: ss, element_ok s) :
    coml_parse_value P e
        (some ('[' :: comma_join ((s0 :: ss).map (fun s => DQ :: s ++ [DQ])) ++ [']'])) =
      if P.heap_nul (comma_join ((s0 :: ss).map (fun s => DQ :: s ++ [DQ]))) = true then
        .ok (true, { e with value := some (.listString (s0 :: ss)),
                            type := ComlType_ListString,
                            list_length := (s0 :: ss).length })
      else .error .undefined := by
  unfold coml_parse_value
  have hq1 : ¬ (some '[' = some DQ) := by decide
  have hq2 : ¬ (some '[' = some SQ) := by decide
  have hne : ∀ w ∈ (s0 :: ss).map (fun s => DQ :: s ++ [DQ]), w ≠ [] ∧ ',' ∉ w := by
    intro w hw
    simp only [List.mem_map] at hw
    obtain ⟨s, hs, rfl⟩ := hw
    refine ⟨by simp, ?_⟩
    intro hmem
    simp only [List.cons_append, List.mem_cons, List.mem_append, List.mem_singleton] at hmem
    rcases hmem with hm | hm | hm
    · exact absurd hm (by decide)
    · exact (hok s hs _ hm).2.2.2.2 rfl
    · exact absurd hm (by decide)
  have hsplit := split_comma_join _ hne
  have hstrip := strip_elements_quoted (s0 :: ss)
  simp only [List.map_cons] at hsplit hstrip
  have hq : ¬ (some DQ = some SQ) := by decide
  have hh0 : (DQ :: s0 ++ [DQ]).head? = some DQ := rfl
  have hh : ('[' :: comma_join ((DQ :: s0 ++ [DQ]) :: ss.map (fun s => DQ :: s ++ [DQ]))
      ++ [']']).head? = some '[' := rfl
  simp only [hh, hq1, hq2, or_self, if_false, if_true, getLast_wrapped, ne_eq,
    not_true_eq_false, strip_ends_open_wrapped, List.map_cons]
  by_cases hn :
      P.heap_nul (comma_join ((DQ :: s0 ++ [DQ]) :: ss.map (fun s => DQ :: s ++ [DQ]))) = true
  · simp only [hn, if_true, bind, Except.bind, hsplit, hh0, true_or, and_false, hq, false_and,
      getLast_wrapped, hstrip, pure, Except.pure, coml_split_length, List.length_cons, List.length_map,
      ne_eq, not_true_eq_false, if_false]
  · simp only [hn, if_false, bind, Except.bind, Bool.false_eq_true]

theorem mem_format_elements {fmt : Double → Str} {xs : List Double} {c : Char}
    (h : c ∈ format_elements fmt xs) : c = ' ' ∨ c = ',' ∨ ∃ x ∈ xs, c ∈ fmt x := by
  induction xs with
  | nil => simp [format_elements] at h
  | cons x xs ih =>
    cases xs with
    | nil =>
      simp only [format_elements, List.mem_cons] at h
      rcases h with h | h
      · exact Or.inl h
      · exact Or.inr (Or.inr ⟨x, by simp, h⟩)
    | cons y ys =>
      simp only [format_elements, List.mem_cons, List.mem_append] at h
      rcases h with (h | h) | h | h
      · exact Or.inl h
      · exact Or.inr (Or.inr ⟨x, by simp, h⟩)
      · exact Or.inr (Or.inl h)
      · rcases ih h with h' | h' | ⟨z, hz, hc⟩
        · exact Or.inl h'
        · exact Or.inr (Or.inl h')
        · exact Or.inr (Or.inr ⟨z, List.mem_cons_of_mem _ hz, hc⟩)

theorem mem_format_strings {ss : List Str} {c : Char} (h : c ∈ format_strings ss) :
    c = ' ' ∨ c = ',' ∨ c = DQ ∨ ∃ s ∈ ss, c ∈ s := by
  induction ss with
  | nil => simp [format_strings] at h
  | cons x xs ih =>
    cases xs with
    | nil =>
      simp only [format_strings, List.mem_cons, List.mem_append, List.mem_singleton] at h
      rcases h with (h | h | h) | h | h
      · exact Or.inl h
      · exact Or.inr (Or.inr (Or.inl h))
      · exact Or.inr (Or.inr (Or.inr ⟨x, by simp, h⟩))
      · exact Or.inr (Or.inr (Or.inl h))
      · simp at h
    | cons y ys =>
      simp only [format_strings, List.mem_cons, List.mem_append] at h
      rcases h with (h | h | h) | h | h | h
      · exact Or.inl h
      · exact Or.inr (Or.inr (Or.inl h))
      · exact Or.inr (Or.inr (Or.inr ⟨x, by simp, h⟩))
      · exact Or.inr (Or.inr (Or.inl h))
      · exact Or.inr (Or.inl h)
      · rcases ih h with h' | h' | h' | ⟨z, hz, hc⟩
        · exact Or.inl h'
        · exact Or.inr (Or.inl h')
        · exact Or.inr (Or.inr (Or.inl h'))
        · exact Or.inr (Or.inr (Or.inr ⟨z, List.mem_cons_of_mem _ hz, hc⟩))

theorem head_mem {s : Str} {c : Char} (h : s.head? = some c) : c ∈ s := by
  cases s with
  | nil => simp at h
  | cons a s =>
    simp only [List.head?_cons, Option.some.injEq] at h
    simp [h]

theorem printed_reads_back {P : Env} {kv : Coml_KV} (hv : plain_value P kv) :
    '=' ∉ printed_literal P kv ∧ '\n' ∉ printed_literal P kv ∧
    coml_trim (printed_literal P kv) ≠ [] ∧
    coml_parse_value P (fresh_entry P kv.key) (some (coml_trim (printed_literal P kv))) =
      .ok (true, reread P kv) := by
  unfold plain_value at hv
  unfold printed_literal
  obtain ⟨key, value, type, len⟩ := kv
  cases value with
  | none => simp at hv
  | some p =>
    cases p with
    | double x =>
      simp only at hv
      dsimp only
      obtain ⟨rfl, rfl, hne, hch, hb, ht, hf⟩ := hv
      have htrim : coml_trim (format_number P x) = format_number P x := by
        have := trim_loop_word (format_number P x)
          (fun c hc => ⟨(hch c hc).1, (hch c hc).2.1, (hch c hc).2.2.1, (hch c hc).2.2.2.1⟩) []
        simpa [coml_trim, coml_trim_loop] using this
      refine ⟨fun hm => (hch _ hm).2.2.2.2.2.1 rfl, fun hm => (hch _ hm).2.2.2.2.2.2 rfl, ?_, ?_⟩
      · simp only [htrim]; exact hne
      · simp only [htrim]
        rw [parse_value_number P _ _ (fun e => (hch _ (head_mem e)).1 rfl)
          (fun e => (hch _ (head_mem e)).2.1 rfl) hb ht hf]
        rfl
    | string s =>
      simp only at hv
      dsimp only
      obtain ⟨rfl, rfl, hs, hnul⟩ := hv
      have htrim : coml_trim (DQ :: s ++ [DQ]) = DQ :: s ++ [DQ] := by
        have := trim_loop_quoted s (fun c hc => ⟨(hs c hc).1, (hs c hc).2.1⟩) []
        simpa [coml_trim, coml_trim_loop] using this
      refine ⟨?_, ?_, ?_, ?_⟩
      · intro hm
        simp only [List.cons_append, List.mem_cons, List.mem_append, List.mem_singleton] at hm
        rcases hm with hm | hm | hm
        · exact absurd hm (by decide)
        · exact (hs _ hm).2.2.1 rfl
        · exact absurd hm (by decide)
      · intro hm
        simp only [List.cons_append, List.mem_cons, List.mem_append, List.mem_singleton] at hm
        rcases hm with hm | hm | hm
        · exact absurd hm (by decide)
        · exact (hs _ hm).2.2.2 rfl
        · exact absurd hm (by decide)
      · simp only [htrim]; simp
      · simp only [htrim]
        rw [parse_value_string, if_pos hnul]
        rfl
    | bool b =>
      simp only at hv
      dsimp only
      obtain ⟨rfl, rfl⟩ := hv
      cases b
      · refine ⟨by decide, by decide, by decide, ?_⟩
        have htrim : coml_trim "false".toList = "false".toList := by decide
        simp only [Bool.false_eq_true, if_false, htrim]
        rfl
      · refine ⟨by decide, by decide, by decide, ?_⟩
        have htrim : coml_trim "true".toList = "true".toList := by decide
        simp only [if_true, htrim]
        rfl
    | listDouble xs =>
      simp only at hv
      dsimp only
      obtain ⟨rfl, rfl, hne, hx, -, hnul⟩ := hv
      have hplain : ∀ x ∈ xs, ∀ c ∈ format_number P x,
          c ≠ DQ ∧ c ≠ SQ ∧ c ≠ Char.ofNat 9 ∧ c ≠ Char.ofNat 32 := fun x hx' c hc =>
        ⟨((hx x hx').2.1 c hc).1, ((hx x hx').2.1 c hc).2.1, ((hx x hx').2.1 c hc).2.2.1,
          ((hx x hx').2.1 c hc).2.2.2.1⟩
      have htrim : coml_trim ('[' :: format_elements (format_number P) xs ++ [' ', ']']) =
          '[' :: comma_join (xs.map (format_number P)) ++ [']'] := by
        unfold coml_trim
        rw [List.cons_append, trim_loop_plain_char '[' _ (by decide),
          trim_elements _ xs hplain, trim_loop_blank,
          trim_loop_plain_char ']' _ (by decide)]
        rfl
      refine ⟨?_, ?_, ?_, ?_⟩
      · intro hm
        simp only [List.cons_append, List.mem_cons, List.mem_append, List.mem_singleton] at hm
        rcases hm with hm | hm | hm | hm
        · exact absurd hm (by decide)
        · rcases mem_format_elements hm with h' | h' | ⟨x, hx', hc⟩
          · exact absurd h' (by decide)
          · exact absurd h' (by decide)
          · exact ((hx x hx').2.1 _ hc).2.2.2.2.2.1 rfl
        · exact absurd hm (by decide)
        · exact absurd hm (by decide)
      · intro hm
        simp only [List.cons_append, List.mem_cons, List.mem_append, List.mem_singleton] at hm
        rcases hm with hm | hm | hm | hm
        · exact absurd hm (by decide)
        · rcases mem_format_elements hm with h' | h' | ⟨x, hx', hc⟩
          · exact absurd h' (by decide)
          · exact absurd h' (by decide)
          · exact ((hx x hx').2.1 _ hc).2.2.2.2.2.2 rfl
        · exact absurd hm (by decide)
        · exact absurd hm (by decide)
      · simp only [htrim]; simp
      · simp only [htrim]
        cases xs with
        | nil => exact absurd rfl hne
        | cons x0 xs' =>
          have h0 := hx x0 (List.mem_cons_self _ _)
          have hws : ∀ w ∈ format_number P x0 :: xs'.map (format_number P),
              w ≠ [] ∧ ',' ∉ w := by
            intro w hw
            have : w ∈ (x0 :: xs').map (format_number P) := by simpa using hw
            obtain ⟨x, hx', rfl⟩ := List.mem_map.mp this
            exact ⟨(hx x hx').1, fun hm => ((hx x hx').2.1 _ hm).2.2.2.2.1 rfl⟩
          rw [List.map_cons] at hnul
          rw [List.map_cons, parse_value_list_double P _ _ _ hws
            (fun e => (h0.2.1 _ (head_mem e)).1 rfl)
            (fun e => (h0.2.1 _ (head_mem e)).2.1 rfl), if_pos hnul]
          simp [fresh_entry, reread, reread_payload, List.map_map, Function.comp]
    | listString ss =>
      simp only at hv
      dsimp only
      obtain ⟨rfl, rfl, hne, hs, -, hnul⟩ := hv
      have htrim : coml_trim ('[' :: format_strings ss ++ [' ', ']']) =
          '[' :: comma_join (ss.map (fun s => DQ :: s ++ [DQ])) ++ [']'] := by
        unfold coml_trim
        rw [List.cons_append, trim_loop_plain_char '[' _ (by decide),
          trim_strings ss (fun s hs' c hc => ⟨(hs s hs' c hc).1, (hs s hs' c hc).2.1⟩),
          trim_loop_blank, trim_loop_plain_char ']' _ (by decide)]
        rfl
      refine ⟨?_, ?_, ?_, ?_⟩
      · intro hm
        simp only [List.cons_append, List.mem_cons, List.mem_append, List.mem_singleton] at hm
        rcases hm with hm | hm | hm | hm
        · exact absurd hm (by decide)
        · rcases mem_format_strings hm with h' | h' | h' | ⟨s, hs', hc⟩
          · exact absurd h' (by decide)
          · exact absurd h' (by decide)
          · exact absurd h' (by decide)
          · exact (hs s hs' _ hc).2.2.1 rfl
        · exact absurd hm (by decide)
        · exact absurd hm (by decide)
      · intro hm
        simp only [List.cons_append, List.mem_cons, List.mem_append, List.mem_singleton] at hm
        rcases hm with hm | hm | hm | hm
        · exact absurd hm (by decide)
        · rcases mem_format_strings hm with h' | h' | h' | ⟨s, hs', hc⟩
          · exact absurd h' (by decide)
          · exact absurd h' (by decide)
          · exact absurd h' (by decide)
          · exact (hs s hs' _ hc).2.2.2.1 rfl
        · exact absurd hm (by decide)
        · exact absurd hm (by decide)
      · simp only [htrim]; simp
      · simp only [htrim]
        cases ss with
        | nil => exact absurd rfl hne
        | cons s0 ss' =>
          rw [parse_value_list_string P _ s0 ss' hs, if_pos hnul]
          simp [fresh_entry, reread, reread_payload]

theorem entry_roundtrip {P : Env} {kv : Coml_KV} (h : plain_kv P kv) :
    decl_ok P (decl_of P kv) ∧ entry_of P (decl_of P kv) = reread P kv := by
  obtain ⟨hk, hv⟩ := h
  obtain ⟨h1, h2, h3, h4⟩ := printed_reads_back hv
  refine ⟨⟨hk, ⟨h1, h2, h3⟩, ?_⟩, ?_⟩
  · simp [verdict, decl_of, h4]
  · simp [entry_of, coml_new_kv, decl_of, h4]

theorem store_roundtrip {P : Env} (l : List Coml_KV) (h : ∀ kv ∈ l, plain_kv P kv) :
    ((l.reverse.map (decl_of P)).map (entry_of P)).reverse = l.map (reread P) := by
  rw [List.map_map, List.map_reverse, List.reverse_reverse]
  exact List.map_congr_left (fun kv hkv => (entry_roundtrip (h kv hkv)).2)

theorem table_roundtrip {P : Env} (ts : List Coml_Table)
    (h : ∀ t ∈ ts, ∀ kv ∈ t.items, plain_kv P kv) :
    ((ts.reverse.map (tdecl_of P)).map (table_of P)).reverse = ts.map (reread_table P) := by
  rw [List.map_map, List.map_reverse, List.reverse_reverse]
  apply List.map_congr_left
  intro t ht
  simp only [Function.comp, table_of, tdecl_of, reread_table, store_roundtrip t.items (h t ht)]

theorem roundtrip_plain {P : Env} {doc : Coml} (h : plain_doc P doc) (fuel : Nat)
    (hf : doc.tables.length ≤ fuel) :
    ∃ text next, coml_write_file P doc = .ok text ∧
      coml_parse P fuel text =
        .ok (some { raw_content := text, tables := doc.tables.map (reread_table P),
                    items := doc.items.map (reread P), next_table := next }) := by
  have hw := write_file_plain h
  obtain ⟨hne, hhead, hi, ht⟩ := h
  have hroots : ∀ d ∈ doc.items.reverse.map (decl_of P), decl_ok P d := by
    intro d hd
    obtain ⟨kv, hkv, rfl⟩ := List.mem_map.mp hd
    exact (entry_roundtrip (hi kv (List.mem_reverse.mp hkv))).1
  have hok : ∀ t ∈ doc.tables.reverse.map (tdecl_of P), table_ok P t := by
    intro t htm
    obtain ⟨t0, ht0, rfl⟩ := List.mem_map.mp htm
    have ht0' := ht t0 (List.mem_reverse.mp ht0)
    refine ⟨ht0'.1, ?_⟩
    intro d hd
    obtain ⟨kv, hkv, rfl⟩ := List.mem_map.mp hd
    exact (entry_roundtrip (ht0'.2 kv (List.mem_reverse.mp hkv))).1
  have hne' : doc.tables.reverse.map (tdecl_of P) ≠ [] := by simpa using hne
  have hlast : ∀ t, (doc.tables.reverse.map (tdecl_of P)).getLast? = some t →
      t.entries ≠ [] := by
    intro t hl
    rw [List.map_reverse, List.getLast?_reverse, List.head?_map] at hl
    cases hh : doc.tables.head? with
    | none => simp [hh] at hl
    | some t0 =>
      simp only [hh, Option.map_some', Option.some.injEq] at hl
      subst hl
      simpa [tdecl_of] using hhead t0 hh
  have hp := parse_shape (P := P) _ _ _
    (split_written _ _ hroots hok) hroots hne' hok hlast fuel (by simpa using hf)
  rw [store_roundtrip doc.items hi, table_roundtrip doc.tables (fun t h' => (ht t h').2)] at hp
  exact ⟨_, _, hw, hp⟩

theorem reread_exact {P : Env} {kv : Coml_KV}
    (h : ∀ x ∈ numbers_of kv, P.atof (format_number P x) = x) : reread P kv = kv := by
  obtain ⟨key, value, type, len⟩ := kv
  cases value with
  | none => rfl
  | some p =>
    cases p with
    | double x =>
      have hx := h x (by simp [numbers_of])
      simp [reread, reread_payload, hx]
    | string s => rfl
    | bool b => rfl
    | listDouble xs =>
      have hxs : xs.map (fun x => P.atof (format_number P x)) = xs := by
        have : ∀ x ∈ xs, (fun x => P.atof (format_number P x)) x = id x := fun x hx =>
          h x (by simpa [numbers_of] using hx)
        rw [List.map_congr_left this, List.map_id]
      simp [reread, reread_payload, hxs]
    | listString ss => rfl

theorem format_elements_map (f : Double → Str) (g : Double → Double) (l : List Double)
    (h : ∀ x ∈ l, f (g x) = f x) : format_elements f (l.map g) = format_elements f l := by
  induction l with
  | nil => rfl
  | cons x l ih =>
    have hx := h x (List.mem_cons_self _ _)
    have ih := ih (fun y hy => h y (List.mem_cons_of_mem _ hy))
    cases l with
    | nil => simp [format_elements, hx]
    | cons y l =>
      simp only [List.map_cons] at ih ⊢
      simp only [format_elements, hx, ih]

theorem format_entry_reread {P : Env} {kv : Coml_KV}
    (h : ∀ x ∈ numbers_of kv,
      format_number P (P.atof (format_number P x)) = format_number P x) :
    coml_format_entry P (reread P kv) = coml_format_entry P kv := by
  obtain ⟨key, value, type, len⟩ := kv
  cases value with
  | none => rfl
  | some p =>
    cases p with
    | double x =>
      have hx := h x (by simp [numbers_of])
      simp [coml_format_entry, reread, reread_payload, hx]
    | string s => rfl
    | bool b => rfl
    | listDouble xs =>
      have hmap : format_elements (format_number P)
            ((xs.map (fun x => P.atof (format_number P x))).take len)
          = format_elements (format_number P) (xs.take len) := by
        rw [← List.map_take]
        exact format_elements_map _ _ _ (fun x hx =>
          h x (by simpa [numbers_of] using List.mem_of_mem_take hx))
      simp [coml_format_entry, reread, reread_payload, hmap]
    | listString ss => rfl

theorem format_kv_reread {P : Env} (items : List Coml_KV)
    (h : ∀ kv ∈ items, ∀ x ∈ numbers_of kv,
      format_number P (P.atof (format_number P x)) = format_number P x) :
    coml_format_kv P (items.map (reread P)) = coml_format_kv P items := by
  induction items with
  | nil => rfl
  | cons kv items ih =>
    simp only [List.map_cons, coml_format_kv,
      ih (fun kv' h' => h kv' (List.mem_cons_of_mem _ h')),
      format_entry_reread (h kv (List.mem_cons_self _ _))]

theorem format_table_reread {P : Env} (tables : List Coml_Table)
    (h : ∀ t ∈ tables, ∀ kv ∈ t.items, ∀ x ∈ numbers_of kv,
      format_number P (P.atof (format_number P x)) = format_number P x) :
    coml_format_table P (tables.map (reread_table P)) = coml_format_table P tables := by
  induction tables with
  | nil => rfl
  | cons t tables ih =>
    simp only [List.map_cons, coml_format_table, reread_table,
      ih (fun t' h' => h t' (List.mem_cons_of_mem _ h')),
      format_kv_reread t.items (h t (List.mem_cons_self _ _))]

theorem reread_layout (P : Env) (doc : Coml) (text : Str) (next : Nat) :
    Coml.layout { raw_content := text, tables := doc.tables.map (reread_table P),
                  items := doc.items.map (reread P), next_table := next } = doc.layout ∧
    Coml.variants { raw_content := text, tables := doc.tables.map (reread_table P),
                    items := doc.items.map (reread P), next_table := next }
      = doc.variants := by
  simp [Coml.layout, Coml.variants, reread, reread_table, List.map_map, Function.comp]

/-- The document of `main.c` on the concrete platform: the parse returns a
document, and the serializer is undefined on it, the line of `list` being
longer than the block it is built in. -/
theorem long_list_line_is_undefined :
    ∃ doc, coml_parse fixEnv 2 main_document = .ok (some doc) ∧
      coml_write_file fixEnv doc = .error .undefined := by
  refine ⟨_, rfl, ?_⟩
  decide

/-- C9, amended. For every plain document (as for C8) whose numbers are
printed, read by `atof` and printed again as they were printed first:
serializing the document parsed from its serialized text gives that text
again. -/
theorem serialize_idempotent (P : Env) (doc : Coml) (h : plain_doc P doc)
    (hst : print_stable P doc) (fuel : Nat) (hf : doc.tables.length ≤ fuel) :
    ∃ text doc', coml_write_file P doc = .ok text ∧
      coml_parse P fuel text = .ok (some doc') ∧
      coml_write_file P doc' = .ok text := by
  obtain ⟨text, next, hw, hp⟩ := roundtrip_plain h fuel hf
  refine ⟨text, _, hw, hp, ?_⟩
  rw [← hw]
  unfold coml_write_file
  simp only [format_kv_reread doc.items hst.1, format_table_reread doc.tables hst.2]

/-- C9, amended, at the document of `debug = false` / `[server]` /
`port = 8080` / `ratio = 0.5` and at the mixed-table scenario, on the concrete
platform. -/
theorem serialize_idempotent_witness :
    (coml_parse fixEnv 1 numbers_doc.raw_content = .ok (some numbers_doc) ∧
      ∃ text doc', coml_write_file fixEnv numbers_doc = .ok text ∧
        coml_parse fixEnv 1 text = .ok (some doc') ∧
        coml_write_file fixEnv doc' = .ok text) ∧
    (coml_parse fixEnv 1 scenario_doc.raw_content = .ok (some scenario_doc) ∧
      ∃ text doc', coml_write_file fixEnv scenario_doc = .ok text ∧
        coml_parse fixEnv 1 text = .ok (some doc') ∧
        coml_write_file fixEnv doc' = .ok text) :=
  ⟨⟨by decide,
      serialize_idempotent fixEnv numbers_doc (by decide) (by decide) 1 (by decide)⟩,
    ⟨by decide,
      serialize_idempotent fixEnv scenario_doc (by decide) (by decide) 1 (by decide)⟩⟩

/-- C9 as stated fails. For the document `coml_parse` returns for `[t]` /
`k = ['a"',"b"]` the serializer prints `k = [ "a"", "b" ]`; the document
parsed from that text is printed as `k = [ "a"", ""b"" ]`. -/
theorem serialize_not_idempotent :
    ∃ doc text doc' text',
      coml_parse fixEnv 1 "[t]\nk = [\x27a\x22\x27,\x22b\x22]\n".toList = .ok (some doc) ∧
      coml_write_file fixEnv doc = .ok text ∧
      coml_parse fixEnv 1 text = .ok (some doc') ∧
      coml_write_file fixEnv doc' = .ok text' ∧
      text = "\n[t]\nk = [ \x22a\x22\x22, \x22b\x22 ]\n\n".toList ∧
      text' = "\n[t]\nk = [ \x22a\x22\x22, \x22\x22b\x22\x22 ]\n\n".toList := by
  refine ⟨_, _, _, _, rfl, rfl, rfl, rfl, ?_, ?_⟩ <;> decide

/-! ## Failure exits that are never taken -/

theorem parse_kv_true {P : Env} {t t' : Coml_Table} {l : Str} {b : Bool}
    (h : coml_parse_kv P t l = .ok (b, t')) : b = true := by
  unfold coml_parse_kv at h
  simp only at h
  split at h
  · exact Except.noConfusion h
  · simp only [Except.ok.injEq, Prod.mk.injEq] at h
    exact h.1.symm

theorem table_loop_true {P : Env} {ls : List Str} {i : Nat} {c c' : Coml} {t t' : Coml_Table}
    {b : Bool} (h : coml_parse_table_loop P ls i c t = .ok (b, c', t')) : b = true := by
  induction ls generalizing i c t with
  | nil =>
    simp only [coml_parse_table_loop, Except.ok.injEq, Prod.mk.injEq] at h
    exact h.1.symm
  | cons l rest ih =>
    rw [coml_parse_table_loop] at h
    by_cases h1 : l.head? = some '#'
    · rw [if_pos h1] at h
      exact ih h
    · rw [if_neg h1] at h
      by_cases h2 : l.head? = some '['
      · rw [if_pos h2] at h
        simp only [Except.ok.injEq, Prod.mk.injEq] at h
        exact h.1.symm
      · rw [if_neg h2] at h
        simp only at h
        cases hk : coml_parse_kv P t l with
        | error e => simp [hk] at h
        | ok r =>
          obtain ⟨b0, t0⟩ := r
          have hb := parse_kv_true hk
          subst hb
          simp only [hk] at h
          exact ih h

theorem parse_table_true {P : Env} {c c' : Coml} {b : Bool}
    (h : coml_parse_table P c = .ok (b, c')) : b = true := by
  unfold coml_parse_table at h
  simp only at h
  split at h
  · exact Except.noConfusion h
  · split at h
    · exact Except.noConfusion h
    · split at h
      · exact Except.noConfusion h
      · split at h
        · exact Except.noConfusion h
        · rename_i hl
          have := table_loop_true hl
          exact absurd this (by decide)
        · simp only [Except.ok.injEq, Prod.mk.injEq] at h
          exact h.1.symm

theorem parse_tables_some {P : Env} {n fuel : Nat} {c : Coml} {r : Option Coml}
    (h : coml_parse_tables P n fuel c = .ok r) : r ≠ none := by
  induction fuel generalizing c with
  | zero =>
    simp only [coml_parse_tables] at h
    split_ifs at h
    cases h
    simp
  | succ fuel ih =>
    rw [coml_parse_tables] at h
    split_ifs at h with hn
    · cases ht : coml_parse_table P c with
      | error e => simp [ht] at h
      | ok p =>
        obtain ⟨b, c1⟩ := p
        have hb := parse_table_true ht
        subst hb
        simp only [ht] at h
        exact ih h
    · cases h
      simp

theorem parse_never_null {P : Env} {fuel : Nat} {content : Str} (hne : content ≠ []) :
    coml_parse P fuel content ≠ .ok none := by
  unfold coml_parse
  rw [if_neg hne]
  simp only
  split
  · intro h; exact Except.noConfusion h
  · intro h
    exact parse_tables_some h rfl

/-- C11 fails on the code. A line with no `=` that is neither a comment nor a
header, in the root part (`title` before `[t]`) or in a table block (`foo`
under `[t]`), makes `coml_parse` pass the missing second part, a `NULL`, to
`coml_parse_value`, which reads it: the parse is undefined, it does not
return `NULL`. On no text but the empty one does `coml_parse` return `NULL`. -/
theorem missing_separator_is_undefined (P : Env) :
    (∀ fuel, coml_parse P fuel "title\n[t]\nk = 1\n".toList = .error .undefined) ∧
    (∀ fuel, coml_parse P (fuel + 1) "[t]\nfoo\n".toList = .error .undefined) ∧
    (∀ fuel content, content ≠ [] → coml_parse P fuel content ≠ .ok none) :=
  ⟨fun _ => rfl, fun _ => rfl, fun _ _ hne => parse_never_null hne⟩

/-! ## Texts without a table -/

theorem strip_ends_error {s : Str} {e : Stop} (h : strip_ends s = .error e) :
    e = .undefined := by
  unfold strip_ends at h
  split_ifs at h
  cases h
  rfl

theorem strip_ends_open_error {P : Env} {s : Str} {e : Stop}
    (h : strip_ends_open P s = .error e) : e = .undefined := by
  unfold strip_ends_open at h
  cases hs : strip_ends s with
  | error e1 =>
    simp only [hs] at h
    cases h
    exact strip_ends_error hs
  | ok a =>
    simp only [hs] at h
    split_ifs at h
    cases h
    rfl

theorem strip_elements_error {l : List Str} {e : Stop} (h : strip_elements l = .error e) :
    e = .undefined := by
  induction l with
  | nil => simp [strip_elements] at h
  | cons a l ih =>
    simp only [strip_elements, bind, Except.bind] at h
    cases ha : strip_ends a with
    | error e1 =>
      simp only [ha] at h
      cases h
      exact strip_ends_error ha
    | ok v =>
      simp only [ha] at h
      cases hl : strip_elements l with
      | error e2 =>
        simp only [hl] at h
        cases h
        exact ih hl
      | ok w => simp [hl, pure, Except.pure] at h

theorem parse_value_error {P : Env} {kv : Coml_KV} {input : Option Str} {e : Stop}
    (h : coml_parse_value P kv input = .error e) : e = .undefined := by
  unfold coml_parse_value at h
  cases input with
  | none => cases h; rfl
  | some s =>
    simp only at h
    split_ifs at h
    all_goals first
      | (cases hs : strip_ends_open P s with
         | error e1 =>
           simp only [hs, bind, Except.bind] at h
           cases h
           exact strip_ends_open_error hs
         | ok a =>
           simp only [hs, bind, Except.bind, pure, Except.pure] at h
           first
             | exact Except.noConfusion h
             | (split at h
                · cases h; rfl
                · split_ifs at h
                  cases hz : strip_elements (coml_split a ',') with
                  | error e2 =>
                    simp_all only [bind, Except.bind]
                    cases h
                    exact strip_elements_error hz
                  | ok b => simp_all [bind, Except.bind, pure, Except.pure]))

theorem insert_kv_error {P : Env} {items : List Coml_KV} {k v : Option Str} {e : Stop}
    (h : coml_insert_kv P items k v = .error e) : e = .undefined := by
  unfold coml_insert_kv coml_new_kv at h
  cases k with
  | none => simp at h; exact h.symm
  | some key =>
    simp only at h
    cases hv : coml_parse_value P (fresh_entry P key) v with
    | error e1 =>
      simp only [hv] at h
      cases h
      exact parse_value_error hv
    | ok r => simp [hv] at h

theorem root_loop_no_header {P : Env} (lines : List Str)
    (h : ∀ l ∈ lines, l.head? ≠ some '[') (i : Nat) (c : Coml) :
    coml_parse_root_loop P lines i c = .error .undefined := by
  induction lines generalizing i c with
  | nil => rfl
  | cons l rest ih =>
    have hl := h l (List.mem_cons_self _ _)
    have ih := ih (fun l' hl' => h l' (List.mem_cons_of_mem _ hl'))
    rw [coml_parse_root_loop, if_neg hl]
    split_ifs
    · exact ih _ _
    · simp only
      cases hk : coml_insert_kv P c.items (coml_split (coml_trim l) '=')[0]?
          (coml_split (coml_trim l) '=')[1]? with
      | error e => simp only [insert_kv_error hk]
      | ok items => exact ih _ _

/-- C12 fails on the code. For every non-empty text none of whose lines
starts with `[`, the root loop of `coml_parse` reads `lines[i][0]` past the
last line, so the parse is undefined whatever the fuel: no document is
returned. -/
theorem no_table_is_undefined (P : Env) (content : Str) (hne : content ≠ [])
    (h : ∀ l ∈ coml_split content '\n', l.head? ≠ some '[') (fuel : Nat) :
    coml_parse P fuel content = .error .undefined := by
  unfold coml_parse
  rw [if_neg hne]
  simp only [root_loop_no_header _ h]

/-- C12 at the text `a = 1`: one well-formed root line and no table. -/
theorem no_table_is_undefined_witness :
    coml_parse fixEnv 1 "a = 1\n".toList = .error .undefined :=
  no_table_is_undefined fixEnv "a = 1\n".toList (by decide) (by decide) 1

/-! ## Value literals -/

theorem head_getLast_singleton (q : Char) : ([q] : Str).getLast? = some q := rfl

theorem env_heap_nul (P : Env) (s : Str) (b : Bool) (h : P.heap_nul s = b) :
    P = { P with heap_nul := fun t => if t = s then b else P.heap_nul t } := by
  cases P
  simp only [Env.mk.injEq, true_and, and_true]
  funext t
  by_cases ht : t = s
  · subst ht
    simpa using h
  · simp [ht]

/-- C13 fails on the code at the lone quote. For a literal that begins with a
quote character `q`: when its last character is not `q`, `coml_parse_value`
rejects it; when it is `q`, some characters, `q`, the characters are copied
without a closing NUL, and the result is a String holding exactly those
characters where the byte after the copy reads as NUL, and undefined where it
does not; and when it is the lone character `q`, the literal passes the test
of the last character (it is its own last character) and the copy of
`strlen - 2` characters is undefined, where the claim wants a rejection. -/
theorem parse_value_quoted (P : Env) (kv : Coml_KV) :
    (∀ s q, (q = DQ ∨ q = SQ) → s.head? = some q → s.getLast? ≠ some q →
        coml_parse_value P kv (some s) = .ok (false, kv)) ∧
    (∀ q mid, (q = DQ ∨ q = SQ) →
        coml_parse_value P kv (some (q :: mid ++ [q])) =
          if P.heap_nul mid = true then
            .ok (true, { kv with value := some (.string mid),
                                 type := ComlType_String, list_length := 0 })
          else .error .undefined) ∧
    (∀ q, (q = DQ ∨ q = SQ) → coml_parse_value P kv (some [q]) = .error .undefined) := by
  refine ⟨?_, ?_, ?_⟩
  · intro s q hq hh hl
    unfold coml_parse_value
    rcases hq with rfl | rfl
    · have hq : ¬ (some DQ = some SQ) := by decide
      simp only [hh, hl, true_or, if_true, ne_eq, not_false_eq_true, and_self]
    · have hq : ¬ (some SQ = some DQ) := by decide
      simp only [hh, hl, or_true, if_true, ne_eq, not_false_eq_true, and_self, hq,
        false_and, if_false]
  · intro q mid hq
    unfold coml_parse_value
    have hh : (q :: mid ++ [q]).head? = some q := rfl
    rcases hq with rfl | rfl
    · have hq : ¬ (some DQ = some SQ) := by decide
      simp only [hh, getLast_wrapped, strip_ends_open_wrapped, true_or, if_true, ne_eq,
        not_true_eq_false, and_false, if_false, hq, false_and, bind, Except.bind, pure,
        Except.pure]
      by_cases hn : P.heap_nul mid = true
      · simp only [hn, if_true]
      · simp only [hn, if_false, Bool.false_eq_true]
    · have hq : ¬ (some SQ = some DQ) := by decide
      simp only [hh, getLast_wrapped, strip_ends_open_wrapped, or_true, if_true, ne_eq,
        not_true_eq_false, and_false, if_false, hq, false_and, bind, Except.bind, pure,
        Except.pure]
      by_cases hn : P.heap_nul mid = true
      · simp only [hn, if_true]
      · simp only [hn, if_false, Bool.false_eq_true]
  · intro q hq
    rcases hq with rfl | rfl <;> rfl

/-- C14 fails on the code. Only the first element of a string list is tested
for its closing quote: the literal `["a",bcd]` is never rejected. Where the
copy of its inner text is read back as copied (the byte after it reads as
NUL) the literal is accepted, and `bcd` loses its first and last character
like a quoted element, so the list stored is `a`, `c`; `coml_parse` of `[t]` /
`k = ["a", bcd]` then returns a document with that list under `k`, as it does
on the concrete platform. Where the byte does not read as NUL the call is
undefined. -/
theorem string_list_checks_first_element_only (P : Env) (kv : Coml_KV) :
    (coml_parse_value P kv (some "[\x22a\x22,bcd]".toList) =
      if P.heap_nul "\x22a\x22,bcd".toList = true then
        .ok (true, { kv with value := some (.listString ["a".toList, "c".toList]),
                             type := ComlType_ListString, list_length := 2 })
      else .error .undefined) ∧
    (P.heap_nul "\x22a\x22,bcd".toList = true →
      ∃ doc, coml_parse P 1 "[t]\nk = [\x22a\x22, bcd]\n".toList = .ok (some doc) ∧
        coml_get_value_raw doc "t".toList "k".toList =
          some (.listString ["a".toList, "c".toList])) ∧
    (∃ doc, coml_parse fixEnv 1 "[t]\nk = [\x22a\x22, bcd]\n".toList = .ok (some doc) ∧
      coml_get_value_raw doc "t".toList "k".toList =
        some (.listString ["a".toList, "c".toList])) := by
  refine ⟨?_, ?_, _, rfl, rfl⟩
  · by_cases hn : P.heap_nul "\x22a\x22,bcd".toList = true
    · rw [if_pos hn, env_heap_nul P _ true hn]
      rfl
    · rw [if_neg hn, env_heap_nul P _ false (by simpa using hn)]
      rfl
  · intro hn
    rw [env_heap_nul P _ true hn]
    exact ⟨_, rfl, rfl⟩

/-- C15, amended. A list literal `[` inner `]` whose inner text splits on
commas into at least one element, the first of which does not begin with a
quote character, is always accepted: `coml_parse_value` stores the list of
`atof` of every element, numeric or not, and never fails on an element. The
inner text is read from a copy whose closing byte the code does not write:
this is so where that byte reads as NUL, and the call is undefined where it
does not; in neither case is the literal rejected. -/
theorem number_list_never_fails (P : Env) (kv : Coml_KV) (inner e0 : Str) (rest : List Str)
    (hsplit : coml_split inner ',' = e0 :: rest)
    (h1 : e0.head? ≠ some DQ) (h2 : e0.head? ≠ some SQ) :
    coml_parse_value P kv (some ('[' :: inner ++ [']'])) =
      if P.heap_nul inner = true then
        .ok (true, { kv with value := some (.listDouble ((e0 :: rest).map P.atof)),
                             type := ComlType_ListDouble,
                             list_length := (e0 :: rest).length })
      else .error .undefined := by
  unfold coml_parse_value
  have hh : ('[' :: inner ++ [']']).head? = some '[' := rfl
  have hq1 : ¬ (some '[' = some DQ) := by decide
  have hq2 : ¬ (some '[' = some SQ) := by decide
  simp only [hh, hq1, hq2, or_self, if_false, if_true, getLast_wrapped, ne_eq,
    not_true_eq_false, strip_ends_open_wrapped]
  by_cases hn : P.heap_nul inner = true
  · simp only [hn, if_true, bind, Except.bind, hsplit, h1, h2, coml_split_length, or_self,
      if_false]
  · simp only [hn, if_false, bind, Except.bind, Bool.false_eq_true]

/-- C15, amended, at the literal `[true]` on the concrete platform: it is
accepted and a number is stored for `true`. -/
theorem number_list_never_fails_witness :
    coml_parse_value fixEnv (fresh_entry fixEnv "flags".toList) (some "[true]".toList) =
      .ok (true, { key := "flags".toList, value := some (.listDouble [fixEnv.atof "true".toList]),
                   type := ComlType_ListDouble, list_length := 1 }) :=
  number_list_never_fails fixEnv (fresh_entry fixEnv "flags".toList) "true".toList
    "true".toList [] (by decide) (by decide) (by decide)

/-- C15 as stated fails. The line `flags = [ true ]` of the basic-document
scenario has an unquoted first element that is no numeric literal; the parse
returns a document, and `flags` holds a list of one number. -/
theorem non_numeric_element_is_stored :
    ∃ doc, coml_parse fixEnv 1
        "title = \x22demo\x22\n[server]\nport = 8080\nratio = 0.5\nflags = [ true ]\n".toList =
          .ok (some doc) ∧
      coml_get_value_raw doc "server".toList "flags".toList = some (.listDouble [0]) := by
  refine ⟨_, rfl, ?_⟩
  decide

/-- C16 fails on the code. On the literal `[]` the inner text has no element,
and `coml_parse_value` reads the first character of the first element all the
same: the call is undefined, and so is the parse of a text with the line
`k = []`. -/
theorem empty_list_is_undefined (P : Env) (kv : Coml_KV) :
    coml_parse_value P kv (some "[]".toList) = .error .undefined ∧
    (∀ fuel, coml_parse P (fuel + 1) "[t]\nk = []\n".toList = .error .undefined) ∧
    (∀ fuel, coml_parse P (fuel + 1) "[t]\nk = [ ]\n".toList = .error .undefined) := by
  cases hn : P.heap_nul []
  · rw [env_heap_nul P [] false hn]
    exact ⟨rfl, fun _ => rfl, fun _ => rfl⟩
  · rw [env_heap_nul P [] true hn]
    exact ⟨rfl, fun _ => rfl, fun _ => rfl⟩

/-! ## Typed accessors -/

/-- C17, amended. A typed accessor returns its sentinel (`0`, `0.0`, `false`,
`NULL`) exactly on the strength of the raw lookup returning `NULL`: the key
is not found, or it is found with a `NULL` value. When the raw lookup
returns a payload of the accessor's variant, the accessor returns that
payload (cast to `int` or `float` for the numeric ones). The tag of the entry
is never read: on a payload of another variant the accessor reads it at its
own type, which is undefined; no sentinel is put in its place. -/
theorem typed_accessors (P : Env) (doc : Coml) (T K : Str) :
    (coml_get_value_raw doc T K = none →
      coml_get_value_int P doc T K = .ok 0 ∧
      coml_get_value_float P doc T K = .ok P.float_zero ∧
      coml_get_value_string doc T K = .ok none ∧
      coml_get_value_bool doc T K = .ok false ∧
      coml_get_value_list_double doc T K = .ok none ∧
      coml_get_value_list_string doc T K = .ok none) ∧
    (coml_find_value_raw doc K = none →
      coml_find_value_int P doc K = .ok 0 ∧
      coml_find_value_float P doc K = .ok P.float_zero ∧
      coml_find_value_string doc K = .ok none ∧
      coml_find_value_bool doc K = .ok false ∧
      coml_find_value_list_double doc K = .ok none ∧
      coml_find_value_list_string doc K = .ok none) ∧
    (∀ p, coml_get_value_raw doc T K = some p →
      coml_get_value_int P doc T K =
        (match p with | .double d => .ok (P.double_to_int d) | _ => .error .undefined) ∧
      coml_get_value_float P doc T K =
        (match p with | .double d => .ok (P.double_to_float d) | _ => .error .undefined) ∧
      coml_get_value_string doc T K =
        (match p with | .string s => .ok (some s) | _ => .error .undefined) ∧
      coml_get_value_bool doc T K =
        (match p with | .bool b => .ok b | _ => .error .undefined) ∧
      coml_get_value_list_double doc T K =
        (match p with | .listDouble xs => .ok (some xs) | _ => .error .undefined) ∧
      coml_get_value_list_string doc T K =
        (match p with | .listString xs => .ok (some xs) | _ => .error .undefined)) ∧
    (∀ p, coml_find_value_raw doc K = some p →
      coml_find_value_int P doc K =
        (match p with | .double d => .ok (P.double_to_int d) | _ => .error .undefined) ∧
      coml_find_value_float P doc K =
        (match p with | .double d => .ok (P.double_to_float d) | _ => .error .undefined) ∧
      coml_find_value_string doc K =
        (match p with | .string s => .ok (some s) | _ => .error .undefined) ∧
      coml_find_value_bool doc K =
        (match p with | .bool b => .ok b | _ => .error .undefined) ∧
      coml_find_value_list_double doc K =
        (match p with | .listDouble xs => .ok (some xs) | _ => .error .undefined) ∧
      coml_find_value_list_string doc K =
        (match p with | .listString xs => .ok (some xs) | _ => .error .undefined)) := by
  refine ⟨?_, ?_, ?_, ?_⟩
  · intro h
    simp [coml_get_value_int, coml_get_value_float, coml_get_value_string,
      coml_get_value_bool, coml_get_value_list_double, coml_get_value_list_string, h]
  · intro h
    simp [coml_find_value_int, coml_find_value_float, coml_find_value_string,
      coml_find_value_bool, coml_find_value_list_double, coml_find_value_list_string, h]
  · intro p h
    simp only [coml_get_value_int, coml_get_value_float, coml_get_value_string,
      coml_get_value_bool, coml_get_value_list_double, coml_get_value_list_string, h]
    cases p <;> simp
  · intro p h
    simp only [coml_find_value_int, coml_find_value_float, coml_find_value_string,
      coml_find_value_bool, coml_find_value_list_double, coml_find_value_list_string, h]
    cases p <;> simp

/-- C17 as stated fails. In the document of `[t]` / `n = 0.1` the entry `n` is
a Number; the raw lookup returns its payload, not `NULL`, so
`coml_get_value_bool` and `coml_get_value_string` do not take their sentinel
exit: they read the number at their own type. -/
theorem accessor_reads_other_variant :
    ∃ doc, coml_parse fixEnv 1 "[t]\nn = 0.1\n".toList = .ok (some doc) ∧
      coml_get_value_raw doc "t".toList "n".toList = some (.double 10000) ∧
      coml_get_value_bool doc "t".toList "n".toList ≠ .ok false ∧
      coml_get_value_string doc "t".toList "n".toList ≠ .ok none ∧
      coml_find_value_bool doc "n".toList ≠ .ok false := by
  refine ⟨_, rfl, ?_, ?_, ?_, ?_⟩ <;> decide

/-! ## Numbers out of the range of `int` -/

/-- C18 fails on the code. The whole-valued number 3000000000 is printed
through `%i` of its cast to `int`; on the concrete platform (32-bit `int`,
x86-64 conversion) the text written is `n = -2147483648`, not
`n = 3000000000`, and the same holds for an element of a number list. -/
theorem whole_number_printed_through_int :
    ∃ doc, coml_parse fixEnv 1 "[t]\nn = 3000000000\nxs = [ 1, 3000000000 ]\n".toList =
        .ok (some doc) ∧
      coml_get_value_raw doc "t".toList "n".toList = some (.double 300000000000000) ∧
      fixEnv.is_whole 300000000000000 = true ∧
      coml_write_file fixEnv doc =
        .ok "\n[t]\nn = -2147483648\nxs = [ 1, -2147483648 ]\n\n".toList := by
  refine ⟨_, rfl, ?_, ?_, ?_⟩ <;> decide

/-! ## Printing order -/

theorem format_kv_reverse {P : Env} (items : List Coml_KV)
    (h : ∀ kv ∈ items, printable P kv = true) :
    coml_format_kv P items = .ok (concat_all (items.reverse.map (entry_text P))) := by
  have happ : ∀ a b : List Str, concat_all (a ++ b) = concat_all a ++ concat_all b := by
    intro a b
    induction a with
    | nil => rfl
    | cons l a ih => simp [concat_all, ih]
  induction items with
  | nil => rfl
  | cons kv items ih =>
    have ih := ih (fun kv' h' => h kv' (List.mem_cons_of_mem _ h'))
    have hp := h kv (List.mem_cons_self _ _)
    obtain ⟨line, hline⟩ : ∃ line, coml_format_entry P kv = .ok line := by
      unfold printable at hp
      cases hf : coml_format_entry P kv with
      | error e => simp [hf] at hp
      | ok line => exact ⟨line, rfl⟩
    have ht : entry_text P kv = line := by simp [entry_text, hline]
    simp only [coml_format_kv, ih, hline, bind, Except.bind, pure, Except.pure]
    simp [happ, concat_all, ht]

theorem format_table_reverse {P : Env} (tables : List Coml_Table)
    (h : ∀ t ∈ tables, ∀ kv ∈ t.items, printable P kv = true) :
    coml_format_table P tables = .ok (concat_all (tables.reverse.map (table_text P))) := by
  have happ : ∀ a b : List Str, concat_all (a ++ b) = concat_all a ++ concat_all b := by
    intro a b
    induction a with
    | nil => rfl
    | cons l a ih => simp [concat_all, ih]
  induction tables with
  | nil => rfl
  | cons t tables ih =>
    have ih := ih (fun t' h' => h t' (List.mem_cons_of_mem _ h'))
    have hkv := format_kv_reverse t.items (h t (List.mem_cons_self _ _))
    simp only [coml_format_table, ih, hkv, bind, Except.bind, pure, Except.pure]
    simp [happ, concat_all, table_text]

/-- C19, amended. For every document all of whose entries can be printed
(the payload is there and of the variant the tag names, and the line of a
list fits into what the platform lets `coml_format_kv` build), the serializer
emits the entries of the root store and of each table from the
tail of the store to its head, the reverse of the store's order, and the
tables from the tail of the table list to its head. When the stores and the
table list are those of declared lines and blocks, in reverse order of
declaration as `coml_parse` builds them, the text written lists the root
lines, the tables and the lines of every table in the order of declaration. -/
theorem serializer_order (P : Env) (doc : Coml)
    (hroot : ∀ kv ∈ doc.items, printable P kv = true)
    (htables : ∀ t ∈ doc.tables, ∀ kv ∈ t.items, printable P kv = true) :
    coml_format_kv P doc.items = .ok (concat_all (doc.items.reverse.map (entry_text P))) ∧
    coml_format_table P doc.tables =
      .ok (concat_all (doc.tables.reverse.map (table_text P))) ∧
    coml_write_file P doc =
      .ok (concat_all (doc.items.reverse.map (entry_text P)) ++
            '\n' :: concat_all (doc.tables.reverse.map (table_text P))) ∧
    (∀ (roots : List Decl) (tables : List TableDecl),
      doc.items = (roots.map (entry_of P)).reverse →
      doc.tables = (tables.map (table_of P)).reverse →
      coml_write_file P doc =
        .ok (concat_all (roots.map (fun d => entry_text P (entry_of P d))) ++
              '\n' :: concat_all (tables.map (fun t =>
                '[' :: t.name ++ ']' :: '\n' ::
                  concat_all (t.entries.map (fun d => entry_text P (entry_of P d))) ++
                  ['\n'])))) := by
  have h1 := format_kv_reverse doc.items hroot
  have h2 := format_table_reverse doc.tables htables
  have h3 : coml_write_file P doc =
      .ok (concat_all (doc.items.reverse.map (entry_text P)) ++
            '\n' :: concat_all (doc.tables.reverse.map (table_text P))) := by
    simp [coml_write_file, h1, h2, bind, Except.bind, pure, Except.pure]
  refine ⟨h1, h2, h3, ?_⟩
  intro roots tables hi ht
  rw [h3, hi, ht, List.reverse_reverse, List.reverse_reverse, List.map_map, List.map_map]
  have hfun : (table_text P ∘ table_of P) = (fun t : TableDecl =>
      '[' :: t.name ++ ']' :: '\n' ::
        concat_all (t.entries.map (fun d => entry_text P (entry_of P d))) ++ ['\n']) := by
    funext t
    simp [table_text, table_of, List.map_map, Function.comp]
    rfl
  rw [hfun]
  rfl

/-- C19, amended, at the document of `debug = false` / `[server]` /
`port = 8080` / `ratio = 0.5`, which has no list: the store of `server` is
`ratio`, `port`, and the text written lists `port`, `ratio`, as declared. -/
theorem serializer_order_witness :
    numbers_doc.tables.map (fun t => t.items.map Coml_KV.key) =
      [["ratio".toList, "port".toList]] ∧
    coml_write_file fixEnv numbers_doc =
      .ok "debug = false\n\n[server]\nport = 8080\nratio = 0.50000\n\n".toList :=
  ⟨by decide,
   (serializer_order fixEnv numbers_doc (by decide) (by decide)).2.2.1.trans (by decide)⟩

/-- C19 as stated fails. In the document of `[a]` / `x = 1` / `[b]` / `y = 2`
/ `z = 3` the table list is `b`, `a` and the store of `b` is `z`, `y`; the
serializer writes table `a` before table `b`, and `y` before `z`. -/
theorem serializer_prints_tail_first :
    ∃ doc, coml_parse fixEnv 2 "[a]\nx = 1\n[b]\ny = 2\nz = 3\n".toList = .ok (some doc) ∧
      doc.tables.map (fun t => (t.name, t.items.map Coml_KV.key)) =
        [("b".toList, ["z".toList, "y".toList]), ("a".toList, ["x".toList])] ∧
      coml_write_file fixEnv doc = .ok "\n[a]\nx = 1\n\n[b]\ny = 2\nz = 3\n\n".toList := by
  refine ⟨_, rfl, ?_, ?_⟩ <;> decide

/-! ## A cursor that does not move -/

theorem stall_empty_table (P : Env) (tables : List Coml_Table) :
    coml_parse_table P
        { raw_content := "[t]\n".toList, tables := tables, items := [], next_table := 0 } =
      .ok (true, { raw_content := "[t]\n".toList,
                   tables := { name := "t".toList, items := [] } :: tables,
                   items := [], next_table := 0 }) := rfl

theorem stall_empty_table_loop (P : Env) (fuel : Nat) (tables : List Coml_Table) :
    coml_parse_tables P 1 fuel
        { raw_content := "[t]\n".toList, tables := tables, items := [], next_table := 0 } =
      .error .fuel := by
  induction fuel generalizing tables with
  | zero => rfl
  | succ fuel ih =>
    rw [coml_parse_tables]
    have h01 : (0 : Nat) ≠ 1 := by decide
    simp only [h01, ne_eq, not_false_eq_true, if_true, stall_empty_table, ih]

theorem stall_last_comment (tables : List Coml_Table) :
    coml_parse_table fixEnv
        { raw_content := "[t]\nk = 1\n# c\n".toList, tables := tables, items := [],
          next_table := 0 } =
      .ok (true, { raw_content := "[t]\nk = 1\n# c\n".toList,
                   tables := { name := "t".toList,
                               items := [{ key := "k".toList, value := some (.double 100000),
                                           type := ComlType_Double, list_length := 0 }] }
                             :: tables,
                   items := [], next_table := 0 }) := rfl

theorem stall_last_comment_loop (fuel : Nat) (tables : List Coml_Table) :
    coml_parse_tables fixEnv 3 fuel
        { raw_content := "[t]\nk = 1\n# c\n".toList, tables := tables, items := [],
          next_table := 0 } =
      .error .fuel := by
  induction fuel generalizing tables with
  | zero => rfl
  | succ fuel ih =>
    rw [coml_parse_tables]
    have h03 : (0 : Nat) ≠ 3 := by decide
    simp only [h03, ne_eq, not_false_eq_true, if_true, stall_last_comment, ih]

/-- C20 fails on the code. On the text `[t]`, a last table with no entry, the
call of `coml_parse_table` succeeds and leaves `next_table` at 0, where it was
on entry and below the line count 1; so the outer loop of `coml_parse` runs
out of every fuel, adding one more table `t` in each round. The same happens
on `[t]` / `k = 1` / `# c`, where a comment is the last line. -/
theorem cursor_does_not_advance (P : Env) :
    (∃ c, coml_parse_table P
        { raw_content := "[t]\n".toList, tables := [], items := [], next_table := 0 } =
          .ok (true, c) ∧ c.next_table = 0 ∧ coml_split c.raw_content '\n' = ["[t]".toList]) ∧
    (∀ fuel, coml_parse P fuel "[t]\n".toList = .error .fuel) ∧
    (∀ fuel, coml_parse fixEnv fuel "[t]\nk = 1\n# c\n".toList = .error .fuel) :=
  ⟨⟨_, stall_empty_table P [], rfl, rfl⟩,
   fun fuel => stall_empty_table_loop P fuel [],
   fun fuel => stall_last_comment_loop fuel []⟩

/-! ## Comment lines -/

theorem without_comments_cons_comment {l : Str} (rest : List Str) (h : l.head? = some '#') :
    without_comments (l :: rest) = without_comments rest := by
  simp [without_comments, is_comment, h]

theorem without_comments_cons_line {l : Str} (rest : List Str) (h : l.head? ≠ some '#') :
    without_comments (l :: rest) = l :: without_comments rest := by
  simp [without_comments, is_comment, h]

theorem without_comments_append (a b : List Str) :
    without_comments (a ++ b) = without_comments a ++ without_comments b := by
  simp [without_comments]

theorem without_comments_comments {cs : List Str} (h : ∀ l ∈ cs, l.head? = some '#') :
    without_comments cs = [] := by
  simp only [without_comments, List.filter_eq_nil_iff]
  intro l hl
  simp [is_comment, h l hl]

theorem without_comments_lines {ls : List Str} (h : ∀ l ∈ ls, l.head? ≠ some '#') :
    without_comments ls = ls := by
  simp only [without_comments, List.filter_eq_self]
  intro l hl
  simp [is_comment, h l hl]

theorem mem_without_comments {ls : List Str} {l : Str} (h : l ∈ without_comments ls) :
    l ∈ ls ∧ l.head? ≠ some '#' := by
  simp only [without_comments, List.mem_filter, is_comment, Bool.not_eq_true',
    decide_eq_false_iff_not] at h
  exact h

theorem getLast_cons_of_ne {α : Type} (a : α) {l : List α} (h : l ≠ []) :
    (a :: l).getLast? = l.getLast? := by
  cases l with
  | nil => exact absurd rfl h
  | cons b r => exact List.getLast?_cons_cons

theorem header_not_comment {l : Str} (h : l.head? = some '[') : l.head? ≠ some '#' := by
  rw [h]; decide

/-- What the table loop builds does not depend on comment lines, on the line
numbers or on the document. -/
theorem table_loop_filter (P : Env) (ls : List Str) (i i' : Nat) (c c' : Coml) (t : Coml_Table) :
    (coml_parse_table_loop P ls i c t).map (fun x => (x.1, x.2.2)) =
      (coml_parse_table_loop P (without_comments ls) i' c' t).map (fun x => (x.1, x.2.2)) := by
  induction ls generalizing i i' c c' t with
  | nil => rfl
  | cons l rest ih =>
    by_cases h1 : l.head? = some '#'
    · rw [without_comments_cons_comment rest h1, coml_parse_table_loop, if_pos h1]
      exact ih _ _ _ _ _
    · rw [without_comments_cons_line rest h1, coml_parse_table_loop, coml_parse_table_loop,
        if_neg h1, if_neg h1]
      by_cases h2 : l.head? = some '['
      · rw [if_pos h2, if_pos h2]; rfl
      · rw [if_neg h2, if_neg h2]
        cases hk : coml_parse_kv P t l with
        | error e => rfl
        | ok p =>
          obtain ⟨b, t1⟩ := p
          cases b with
          | false => rfl
          | true => exact ih _ _ _ _ _

/-- The table loop changes nothing of the document but the cursor. -/
theorem table_loop_frame {P : Env} {ls : List Str} {i : Nat} {c c' : Coml}
    {t t' : Coml_Table} {b : Bool}
    (h : coml_parse_table_loop P ls i c t = .ok (b, c', t')) :
    c'.raw_content = c.raw_content ∧ c'.tables = c.tables ∧ c'.items = c.items := by
  induction ls generalizing i c t with
  | nil =>
    simp only [coml_parse_table_loop, Except.ok.injEq, Prod.mk.injEq] at h
    rw [← h.2.1]; exact ⟨rfl, rfl, rfl⟩
  | cons l rest ih =>
    rw [coml_parse_table_loop] at h
    by_cases h1 : l.head? = some '#'
    · rw [if_pos h1] at h; exact ih h
    · rw [if_neg h1] at h
      by_cases h2 : l.head? = some '['
      · rw [if_pos h2] at h
        simp only [Except.ok.injEq, Prod.mk.injEq] at h
        rw [← h.2.1]; exact ⟨rfl, rfl, rfl⟩
      · rw [if_neg h2] at h
        cases hk : coml_parse_kv P t l with
        | error e => simp [hk] at h
        | ok p =>
          obtain ⟨b0, t0⟩ := p
          cases b0 with
          | false =>
            simp only [hk, Except.ok.injEq, Prod.mk.injEq] at h
            rw [← h.2.1]
            by_cases hr : rest = [] <;> simp [hr]
          | true =>
            simp only [hk] at h
            have := ih h
            by_cases hr : rest = [] <;> simpa [hr] using this

/-- The cursor after the table loop when the lines hold a header: the line
number of the first header. -/
theorem table_loop_cursor_header {P : Env} (A : List Str) (hdr : Str) (B : List Str)
    (hA : ∀ l ∈ A, l.head? ≠ some '[') (hh : hdr.head? = some '[') {i : Nat} {c d : Coml}
    {t t1 : Coml_Table} {b : Bool}
    (h : coml_parse_table_loop P (A ++ hdr :: B) i c t = .ok (b, d, t1)) :
    d.next_table = i + A.length := by
  induction A generalizing i c t with
  | nil =>
    rw [List.nil_append, coml_parse_table_loop, if_neg (header_not_comment hh), if_pos hh] at h
    simp only [Except.ok.injEq, Prod.mk.injEq] at h
    rw [← h.2.1]; rfl
  | cons l A ih =>
    have ih := @ih (fun l' hl' => hA l' (List.mem_cons_of_mem _ hl'))
    have hl : l.head? ≠ some '[' := hA l (List.mem_cons_self _ _)
    rw [List.cons_append, coml_parse_table_loop] at h
    by_cases h1 : l.head? = some '#'
    · rw [if_pos h1] at h
      rw [ih h, List.length_cons]; omega
    · rw [if_neg h1, if_neg hl] at h
      have hne : A ++ hdr :: B ≠ [] := by simp
      simp only [hne, if_false] at h
      cases hk : coml_parse_kv P t l with
      | error e => simp [hk] at h
      | ok p =>
        obtain ⟨b0, t0⟩ := p
        have hb := parse_kv_true hk
        subst hb
        simp only [hk] at h
        rw [ih h, List.length_cons]; omega

/-- The cursor after the table loop when the lines hold no header and do not
end in a comment: the number of lines, unless there is no line at all. -/
theorem table_loop_cursor_end {P : Env} (ls : List Str)
    (hls : ∀ l ∈ ls, l.head? ≠ some '[')
    (hlast : ∀ l, ls.getLast? = some l → l.head? ≠ some '#') {i : Nat} {c d : Coml}
    {t t1 : Coml_Table} {b : Bool}
    (h : coml_parse_table_loop P ls i c t = .ok (b, d, t1)) :
    d.next_table = if ls = [] then c.next_table else i + ls.length := by
  induction ls generalizing i c t with
  | nil =>
    simp only [coml_parse_table_loop, Except.ok.injEq, Prod.mk.injEq] at h
    rw [← h.2.1]; rfl
  | cons l rest ih =>
    have hl : l.head? ≠ some '[' := hls l (List.mem_cons_self _ _)
    have hls' : ∀ l' ∈ rest, l'.head? ≠ some '[' := fun l' hl' => hls l' (List.mem_cons_of_mem _ hl')
    rw [coml_parse_table_loop] at h
    rw [if_neg (List.cons_ne_nil _ _), List.length_cons]
    by_cases hr : rest = []
    · subst hr
      have h1 : l.head? ≠ some '#' := hlast l rfl
      rw [if_neg h1, if_neg hl] at h
      simp only [if_true] at h
      cases hk : coml_parse_kv P t l with
      | error e => simp [hk] at h
      | ok p =>
        obtain ⟨b0, t0⟩ := p
        have hb := parse_kv_true hk
        subst hb
        simp only [hk, coml_parse_table_loop, Except.ok.injEq, Prod.mk.injEq] at h
        rw [← h.2.1]; rfl
    · have hlast' : ∀ l', rest.getLast? = some l' → l'.head? ≠ some '#' := by
        intro l' hl'
        apply hlast l'
        rw [getLast_cons_of_ne l hr]
        exact hl'
      have ih := @ih hls' hlast'
      by_cases h1 : l.head? = some '#'
      · rw [if_pos h1] at h
        rw [ih h, if_neg hr]; omega
      · rw [if_neg h1, if_neg hl] at h
        simp only [hr, if_false] at h
        cases hk : coml_parse_kv P t l with
        | error e => simp [hk] at h
        | ok p =>
          obtain ⟨b0, t0⟩ := p
          have hb := parse_kv_true hk
          subst hb
          simp only [hk] at h
          rw [ih h, if_neg hr]; omega

/-- What the root loop stores does not depend on comment lines or on the line
numbers. -/
theorem root_loop_filter (P : Env) (ls : List Str) (i i' : Nat) (c c' : Coml)
    (hi : c.items = c'.items) (ht : c.tables = c'.tables) :
    (coml_parse_root_loop P ls i c).map Coml.stores =
      (coml_parse_root_loop P (without_comments ls) i' c').map Coml.stores := by
  induction ls generalizing i i' c c' with
  | nil => rfl
  | cons l rest ih =>
    by_cases h1 : l.head? = some '#'
    · rw [without_comments_cons_comment rest h1, coml_parse_root_loop,
        if_neg (by rw [h1]; decide), if_pos h1]
      exact ih _ _ _ _ hi ht
    · rw [without_comments_cons_line rest h1, coml_parse_root_loop, coml_parse_root_loop]
      by_cases h2 : l.head? = some '['
      · rw [if_pos h2, if_pos h2]
        simp [Except.map, Coml.stores, hi, ht]
      · rw [if_neg h2, if_neg h2, if_neg h1, if_neg h1]
        simp only [hi]
        cases hk : coml_insert_kv P c'.items (coml_split (coml_trim l) '=')[0]?
            (coml_split (coml_trim l) '=')[1]? with
        | error e => rfl
        | ok items => exact ih _ _ _ _ rfl ht

/-- The root loop changes neither the retained text nor the table list. -/
theorem root_loop_frame {P : Env} {ls : List Str} {i : Nat} {c d : Coml}
    (h : coml_parse_root_loop P ls i c = .ok d) :
    d.raw_content = c.raw_content ∧ d.tables = c.tables := by
  induction ls generalizing i c with
  | nil => simp [coml_parse_root_loop] at h
  | cons l rest ih =>
    rw [coml_parse_root_loop] at h
    by_cases h1 : l.head? = some '['
    · rw [if_pos h1] at h
      cases h; exact ⟨rfl, rfl⟩
    · rw [if_neg h1] at h
      by_cases h2 : l.head? = some '#'
      · rw [if_pos h2] at h; exact ih h
      · rw [if_neg h2] at h
        simp only at h
        cases hk : coml_insert_kv P c.items (coml_split (coml_trim l) '=')[0]?
            (coml_split (coml_trim l) '=')[1]? with
        | error e => simp [hk] at h
        | ok items =>
          simp only [hk] at h
          have := ih h
          exact this

/-- The cursor after the root loop. The loop ends at the first header; the
cursor is left behind the last line before it that is not a comment, or as it
was when there is no such line. -/
theorem root_loop_cursor {P : Env} {ls : List Str} {i : Nat} {c d : Coml}
    (h : coml_parse_root_loop P ls i c = .ok d) :
    ∃ A hdr B, ls = A ++ hdr :: B ∧ (∀ l ∈ A, l.head? ≠ some '[') ∧ hdr.head? = some '[' ∧
      ((d.next_table = c.next_table ∧ ∀ l ∈ A, l.head? = some '#') ∨
       (∃ A1 x A2, A = A1 ++ x :: A2 ∧ x.head? ≠ some '#' ∧ (∀ l ∈ A2, l.head? = some '#') ∧
          d.next_table = i + A1.length + 1)) := by
  induction ls generalizing i c with
  | nil => simp [coml_parse_root_loop] at h
  | cons l rest ih =>
    rw [coml_parse_root_loop] at h
    by_cases h1 : l.head? = some '['
    · rw [if_pos h1] at h
      cases h
      exact ⟨[], l, rest, rfl, by simp, h1, Or.inl ⟨rfl, by simp⟩⟩
    · rw [if_neg h1] at h
      by_cases h2 : l.head? = some '#'
      · rw [if_pos h2] at h
        obtain ⟨A, hdr, B, rfl, hA, hh, hcur⟩ := ih h
        refine ⟨l :: A, hdr, B, rfl, ?_, hh, ?_⟩
        · intro l' hl'
          rcases List.mem_cons.mp hl' with rfl | hl'
          · exact h1
          · exact hA l' hl'
        · rcases hcur with ⟨hn, hall⟩ | ⟨A1, x, A2, rfl, hx, hA2, hn⟩
          · left
            refine ⟨hn, ?_⟩
            intro l' hl'
            rcases List.mem_cons.mp hl' with rfl | hl'
            · exact h2
            · exact hall l' hl'
          · right
            exact ⟨l :: A1, x, A2, rfl, hx, hA2, by rw [hn, List.length_cons]; omega⟩
      · rw [if_neg h2] at h
        simp only at h
        cases hk : coml_insert_kv P c.items (coml_split (coml_trim l) '=')[0]?
            (coml_split (coml_trim l) '=')[1]? with
        | error e => simp [hk] at h
        | ok items =>
          simp only [hk] at h
          obtain ⟨A, hdr, B, rfl, hA, hh, hcur⟩ := ih h
          refine ⟨l :: A, hdr, B, rfl, ?_, hh, Or.inr ?_⟩
          · intro l' hl'
            rcases List.mem_cons.mp hl' with rfl | hl'
            · exact h1
            · exact hA l' hl'
          · rcases hcur with ⟨hn, hall⟩ | ⟨A1, x, A2, rfl, hx, hA2, hn⟩
            · exact ⟨[], l, A, rfl, h2, hall, by rw [hn]; rfl⟩
            · exact ⟨l :: A1, x, A2, rfl, hx, hA2, by rw [hn, List.length_cons]; omega⟩

theorem takeWhile_before {α : Type} (p : α → Bool) (A : List α) (x : α) (B : List α)
    (hA : ∀ a ∈ A, p a = true) (hx : p x = false) : (A ++ x :: B).takeWhile p = A := by
  induction A with
  | nil => simp [List.takeWhile, hx]
  | cons a A ih =>
    have ha := hA a (List.mem_cons_self _ _)
    rw [List.cons_append, List.takeWhile_cons, ha]
    simp only [if_true]
    rw [ih (fun a' ha' => hA a' (List.mem_cons_of_mem _ ha'))]

theorem takeWhile_all {α : Type} (p : α → Bool) (A : List α)
    (hA : ∀ a ∈ A, p a = true) : A.takeWhile p = A := by
  induction A with
  | nil => rfl
  | cons a A ih =>
    rw [List.takeWhile_cons, hA a (List.mem_cons_self _ _)]
    simp only [if_true]
    rw [ih (fun a' ha' => hA a' (List.mem_cons_of_mem _ ha'))]

theorem root_part_split (A : List Str) (hdr : Str) (B : List Str)
    (hA : ∀ l ∈ A, l.head? ≠ some '[') (hh : hdr.head? = some '[') :
    root_part (A ++ hdr :: B) = A := by
  unfold root_part
  apply takeWhile_before
  · intro a ha; simpa using hA a ha
  · simpa using hh

theorem trailing_comments_all {A : List Str} (hA : ∀ l ∈ A, l.head? = some '#') :
    trailing_comments A = A.length := by
  unfold trailing_comments
  rw [takeWhile_all]
  · simp
  · intro a ha
    simp only [is_comment, decide_eq_true_eq]
    exact hA a (List.mem_reverse.mp ha)

theorem trailing_comments_after (A1 : List Str) (x : Str) (A2 : List Str)
    (hx : x.head? ≠ some '#') (hA2 : ∀ l ∈ A2, l.head? = some '#') :
    trailing_comments (A1 ++ x :: A2) = A2.length := by
  unfold trailing_comments
  have : (A1 ++ x :: A2).reverse = A2.reverse ++ x :: A1.reverse := by simp
  rw [this, takeWhile_before]
  · simp
  · intro a ha
    simp only [is_comment, decide_eq_true_eq]
    exact hA2 a (List.mem_reverse.mp ha)
  · simpa [is_comment] using hx

theorem trailing_comments_zero {ls : List Str} (h : trailing_comments ls = 0) :
    ∀ l, ls.getLast? = some l → l.head? ≠ some '#' := by
  intro l hl hc
  obtain ⟨A, rfl⟩ : ∃ A, ls = A ++ [l] := by
    have hne : ls ≠ [] := by rintro rfl; simp at hl
    refine ⟨ls.dropLast, ?_⟩
    have := List.dropLast_append_getLast? l (by simpa using hl)
    exact this.symm
  unfold trailing_comments at h
  simp [is_comment, hc] at h

theorem first_split {α : Type} (p : α → Prop) [DecidablePred p] (ls : List α)
    (h : ∃ l ∈ ls, p l) : ∃ A x B, ls = A ++ x :: B ∧ (∀ l ∈ A, ¬ p l) ∧ p x := by
  induction ls with
  | nil => simp at h
  | cons a ls ih =>
    by_cases ha : p a
    · exact ⟨[], a, ls, rfl, by simp, ha⟩
    · have : ∃ l ∈ ls, p l := by
        obtain ⟨l, hl, hp⟩ := h
        rcases List.mem_cons.mp hl with rfl | hl
        · exact absurd hp ha
        · exact ⟨l, hl, hp⟩
      obtain ⟨A, x, B, rfl, hA, hx⟩ := ih this
      refine ⟨a :: A, x, B, rfl, ?_, hx⟩
      intro l hl
      rcases List.mem_cons.mp hl with rfl | hl
      · exact ha
      · exact hA l hl

theorem first_split_unique {α : Type} (p : α → Prop) (A : List α) (x : α) (B A' : List α)
    (x' : α) (B' : List α) (h : A ++ x :: B = A' ++ x' :: B') (hA : ∀ l ∈ A, ¬ p l) (hx : p x)
    (hA' : ∀ l ∈ A', ¬ p l) (hx' : p x') : A = A' ∧ x = x' ∧ B = B' := by
  induction A generalizing A' with
  | nil =>
    cases A' with
    | nil => simpa using h
    | cons a A' =>
      simp only [List.nil_append, List.cons_append, List.cons.injEq] at h
      exact absurd (h.1 ▸ hx) (hA' a (List.mem_cons_self _ _))
  | cons a A ih =>
    cases A' with
    | nil =>
      simp only [List.nil_append, List.cons_append, List.cons.injEq] at h
      exact absurd (h.1 ▸ hx') (hA a (List.mem_cons_self _ _))
    | cons a' A' =>
      simp only [List.cons_append, List.cons.injEq] at h
      obtain ⟨h1, h2, h3⟩ := ih A' h.2 (fun l hl => hA l (List.mem_cons_of_mem _ hl))
        (fun l hl => hA' l (List.mem_cons_of_mem _ hl))
      exact ⟨by rw [h.1, h1], h2, h3⟩

theorem getElem_at_length {α : Type} (pre : List α) (x : α) (rest : List α) :
    (pre ++ x :: rest)[pre.length]? = some x := by
  rw [List.getElem?_append_right (le_refl _)]
  simp

theorem drop_at_length {α : Type} (pre : List α) (x : α) (rest : List α) :
    (pre ++ x :: rest).drop (pre.length + 1) = rest := by
  induction pre with
  | nil => rfl
  | cons a pre ih => simp

/-- The function `coml_parse_table` at a cursor that stands on a header line,
or on one comment line followed by a header line. -/
theorem parse_table_at (P : Env) (c : Coml) (pre cs : List Str) (hdr : Str) (rest : List Str)
    (hlines : coml_split c.raw_content '\n' = pre ++ cs ++ hdr :: rest)
    (hn : c.next_table = pre.length) (hcs : ∀ l ∈ cs, l.head? = some '#')
    (hlen : cs.length ≤ 1) (hh : hdr.head? ≠ some '#') :
    coml_parse_table P c =
      match strip_ends hdr with
      | .error e => .error e
      | .ok name =>
        match coml_parse_table_loop P rest (pre.length + cs.length + 1)
            { c with next_table := pre.length + cs.length } (coml_new_table name []) with
        | .error e => .error e
        | .ok (false, d, _) => .ok (false, d)
        | .ok (true, d, t1) =>
          .ok (true, { d with tables := coml_insert_table d.tables t1.name t1.items }) := by
  obtain ⟨raw, tables, items, n⟩ := c
  simp only at hlines hn
  subst hn
  unfold coml_parse_table
  simp only [hlines]
  cases cs with
  | nil =>
    rw [List.append_nil]
    simp only [getElem_at_length, hh, if_false, drop_at_length, List.length_nil, Nat.add_zero]
  | cons c1 cs =>
    have hnil : cs = [] := by
      cases cs with
      | nil => rfl
      | cons a b => simp at hlen
    subst hnil
    have hc1 : c1.head? = some '#' := hcs c1 (by simp)
    have e1 : pre ++ [c1] ++ hdr :: rest = pre ++ c1 :: hdr :: rest := by simp
    have e2 : pre ++ c1 :: hdr :: rest = (pre ++ [c1]) ++ hdr :: rest := by simp
    have h1 : (pre ++ c1 :: hdr :: rest)[pre.length + 1]? = some hdr := by
      have := getElem_at_length (pre ++ [c1]) hdr rest
      rw [← e2] at this
      simpa using this
    have hd : List.drop (pre.length + 1 + 1) (pre ++ c1 :: hdr :: rest) = rest := by
      have := drop_at_length (pre ++ [c1]) hdr rest
      rw [← e2] at this
      simpa using this
    rw [e1]
    simp only [getElem_at_length, hc1, if_true, h1, hd, List.length_singleton]

/-- One round of the outer loop on a text and on the text without its comment
lines: the two calls of `coml_parse_table` stop alike, or both return `true`
with the same stores and with cursors that stand at matching lines. -/
theorem parse_table_filter (P : Env) (c c' : Coml) (pre cs : List Str) (hdr : Str)
    (rest : List Str)
    (hlines : coml_split c.raw_content '\n' = pre ++ cs ++ hdr :: rest)
    (hlines' : coml_split c'.raw_content '\n' = without_comments (pre ++ cs ++ hdr :: rest))
    (hn : c.next_table = pre.length) (hn' : c'.next_table = (without_comments pre).length)
    (hcs : ∀ l ∈ cs, l.head? = some '#') (hlen : cs.length ≤ 1) (hh : hdr.head? ≠ some '#')
    (hi : c.items = c'.items) (ht : c.tables = c'.tables)
    (hlast : ∀ l, (pre ++ cs ++ hdr :: rest).getLast? = some l → l.head? ≠ some '#') :
    (∃ e, coml_parse_table P c = .error e ∧ coml_parse_table P c' = .error e) ∨
    ∃ d d', coml_parse_table P c = .ok (true, d) ∧ coml_parse_table P c' = .ok (true, d') ∧
      d.raw_content = c.raw_content ∧ d'.raw_content = c'.raw_content ∧
      d.items = d'.items ∧ d.tables = d'.tables ∧
      ∃ pre2 post2, pre ++ cs ++ hdr :: rest = pre2 ++ post2 ∧ d.next_table = pre2.length ∧
        d'.next_table = (without_comments pre2).length ∧
        ∀ l, post2.head? = some l → l.head? ≠ some '#' := by
  have hF : without_comments (pre ++ cs ++ hdr :: rest) =
      without_comments pre ++ [] ++ hdr :: without_comments rest := by
    rw [without_comments_append, without_comments_append, without_comments_comments hcs,
      without_comments_cons_line rest hh]
  rw [hF] at hlines'
  rw [parse_table_at P c pre cs hdr rest hlines hn hcs hlen hh,
    parse_table_at P c' (without_comments pre) [] hdr (without_comments rest) hlines' hn'
      (by simp) (by simp) hh]
  cases hs : strip_ends hdr with
  | error e => exact Or.inl ⟨e, rfl, rfl⟩
  | ok name =>
    simp only [List.length_nil, Nat.add_zero]
    have hfil := table_loop_filter P rest (pre.length + cs.length + 1)
      ((without_comments pre).length + 1) { c with next_table := pre.length + cs.length }
      { c' with next_table := (without_comments pre).length } (coml_new_table name [])
    cases hL : coml_parse_table_loop P rest (pre.length + cs.length + 1)
        { c with next_table := pre.length + cs.length } (coml_new_table name []) with
    | error e =>
      rw [hL] at hfil
      cases hL' : coml_parse_table_loop P (without_comments rest)
          ((without_comments pre).length + 1)
          { c' with next_table := (without_comments pre).length } (coml_new_table name []) with
      | error e' =>
        rw [hL'] at hfil
        simp only [Except.map, Except.error.injEq] at hfil
        subst hfil
        exact Or.inl ⟨e, rfl, rfl⟩
      | ok p => rw [hL'] at hfil; simp [Except.map] at hfil
    | ok p =>
      obtain ⟨b, d, t1⟩ := p
      have hb := table_loop_true hL
      subst hb
      rw [hL] at hfil
      cases hL' : coml_parse_table_loop P (without_comments rest)
          ((without_comments pre).length + 1)
          { c' with next_table := (without_comments pre).length } (coml_new_table name []) with
      | error e' => rw [hL'] at hfil; simp [Except.map] at hfil
      | ok p' =>
        obtain ⟨b', d', t1'⟩ := p'
        have hb' := table_loop_true hL'
        subst hb'
        rw [hL'] at hfil
        simp only [Except.map, Except.ok.injEq, Prod.mk.injEq, true_and] at hfil
        subst hfil
        obtain ⟨hr, htab, hit⟩ := table_loop_frame hL
        obtain ⟨hr', htab', hit'⟩ := table_loop_frame hL'
        simp only at hr htab hit hr' htab' hit'
        right
        refine ⟨_, _, rfl, rfl, hr, hr', by rw [hit, hit', hi], by simp only [htab, htab', ht], ?_⟩
        simp only
        by_cases hex : ∃ l ∈ rest, l.head? = some '['
        · obtain ⟨A, h2, B, rfl, hA, hh2⟩ := first_split (fun l : Str => l.head? = some '[') rest hex
          have hc := table_loop_cursor_header A h2 B hA hh2 hL
          have hFr : without_comments (A ++ h2 :: B) =
              without_comments A ++ h2 :: without_comments B := by
            rw [without_comments_append, without_comments_cons_line B (header_not_comment hh2)]
          rw [hFr] at hL'
          have hc' := table_loop_cursor_header (without_comments A) h2 (without_comments B)
            (fun l hl => hA l (mem_without_comments hl).1) hh2 hL'
          refine ⟨pre ++ cs ++ hdr :: A, h2 :: B, by simp, ?_, ?_, ?_⟩
          · rw [hc]; simp; omega
          · rw [hc', without_comments_append, without_comments_append,
              without_comments_comments hcs, without_comments_cons_line A hh]
            simp; omega
          · intro l hl
            simp only [List.head?_cons, Option.some.injEq] at hl
            subst hl
            exact header_not_comment hh2
        · have hnone : ∀ l ∈ rest, l.head? ≠ some '[' := fun l hl hc => hex ⟨l, hl, hc⟩
          by_cases hr0 : rest = []
          · subst hr0
            have hc := table_loop_cursor_end [] (by simp) (by simp) hL
            have hc' := table_loop_cursor_end (P := P) [] (by simp) (by simp) hL'
            simp only [if_true] at hc hc'
            refine ⟨pre ++ cs, [hdr], by simp, ?_, ?_, ?_⟩
            · rw [hc]; simp
            · rw [hc', without_comments_append, without_comments_comments hcs]; simp
            · intro l hl
              simp only [List.head?_cons, Option.some.injEq] at hl
              subst hl
              exact hh
          · have hlast' : ∀ l, rest.getLast? = some l → l.head? ≠ some '#' := by
              intro l hl
              apply hlast l
              rw [List.getLast?_append_of_ne_nil _ (by simp), getLast_cons_of_ne hdr hr0]
              exact hl
            have hFne : without_comments rest ≠ [] := by
              obtain ⟨l, hl⟩ : ∃ l, rest.getLast? = some l := by
                cases hg : rest.getLast? with
                | none => exact absurd (List.getLast?_eq_none_iff.mp hg) hr0
                | some l => exact ⟨l, rfl⟩
              have hmem : l ∈ without_comments rest := by
                simp only [without_comments, List.mem_filter, is_comment, Bool.not_eq_true',
                  decide_eq_false_iff_not]
                exact ⟨List.mem_of_getLast?_eq_some hl, hlast' l hl⟩
              exact List.ne_nil_of_mem hmem
            have hc := table_loop_cursor_end rest hnone hlast' hL
            have hc' := table_loop_cursor_end (without_comments rest)
              (fun l hl => hnone l (mem_without_comments hl).1)
              (fun l hl => (mem_without_comments (List.mem_of_getLast?_eq_some hl)).2) hL'
            rw [if_neg hr0] at hc
            rw [if_neg hFne] at hc'
            refine ⟨pre ++ cs ++ hdr :: rest, [], by simp, ?_, ?_, by simp⟩
            · rw [hc]; simp; omega
            · rw [hc', without_comments_append, without_comments_append,
                without_comments_comments hcs, without_comments_cons_line rest hh]
              simp; omega

/-- The outer loop on a text and on the text without its comment lines, from
cursors that stand at matching lines: the two runs stop alike or return
documents with the same stores. -/
theorem parse_tables_filter (P : Env) (ls : List Str)
    (hlast : ∀ l, ls.getLast? = some l → l.head? ≠ some '#') (fuel : Nat) (c c' : Coml)
    (hlines : coml_split c.raw_content '\n' = ls)
    (hlines' : coml_split c'.raw_content '\n' = without_comments ls)
    (hi : c.items = c'.items) (ht : c.tables = c'.tables)
    (hinv : ∃ pre cs post, ls = pre ++ cs ++ post ∧ c.next_table = pre.length ∧
      c'.next_table = (without_comments pre).length ∧ (∀ l ∈ cs, l.head? = some '#') ∧
      cs.length ≤ 1 ∧ (∀ l, post.head? = some l → l.head? ≠ some '#') ∧ (post = [] → cs = [])) :
    (coml_parse_tables P ls.length fuel c).map (Option.map Coml.stores) =
      (coml_parse_tables P (without_comments ls).length fuel c').map
        (Option.map Coml.stores) := by
  induction fuel generalizing c c' with
  | zero =>
    obtain ⟨pre, cs, post, rfl, hn, hn', hcs, hlen, hpost, hend⟩ := hinv
    cases post with
    | nil =>
      have := hend rfl
      subst this
      simp [coml_parse_tables, hn, hn', Except.map, Coml.stores, hi, ht]
    | cons hdr rest =>
      have hh : hdr.head? ≠ some '#' := hpost hdr rfl
      have h1 : c.next_table ≠ (pre ++ cs ++ hdr :: rest).length := by
        rw [hn]; simp
      have h2 : c'.next_table ≠ (without_comments (pre ++ cs ++ hdr :: rest)).length := by
        rw [hn', without_comments_append, without_comments_append,
          without_comments_cons_line rest hh]
        simp
      rw [coml_parse_tables, coml_parse_tables, if_pos h1, if_pos h2]
  | succ fuel ih =>
    obtain ⟨pre, cs, post, rfl, hn, hn', hcs, hlen, hpost, hend⟩ := hinv
    cases post with
    | nil =>
      have := hend rfl
      subst this
      simp [coml_parse_tables, hn, hn', Except.map, Coml.stores, hi, ht]
    | cons hdr rest =>
      have hh : hdr.head? ≠ some '#' := hpost hdr rfl
      have h1 : c.next_table ≠ (pre ++ cs ++ hdr :: rest).length := by
        rw [hn]; simp
      have h2 : c'.next_table ≠ (without_comments (pre ++ cs ++ hdr :: rest)).length := by
        rw [hn', without_comments_append, without_comments_append,
          without_comments_cons_line rest hh]
        simp
      rw [coml_parse_tables, coml_parse_tables, if_pos h1, if_pos h2]
      rcases parse_table_filter P c c' pre cs hdr rest hlines hlines' hn hn' hcs hlen hh hi ht
        hlast with ⟨e, he, he'⟩ | ⟨d, d', hd, hd', hr, hr', hdi, hdt, pre2, post2, hsplit, hdn,
          hdn', hpost2⟩
      · rw [he, he']
      · rw [hd, hd']
        simp only
        refine ih d d' (by rw [hr]; exact hlines) (by rw [hr']; exact hlines') hdi hdt ?_
        exact ⟨pre2, [], post2, by simpa using hsplit, hdn, hdn', by simp, by simp, hpost2,
          fun _ => rfl⟩

/-- Comment lines are inert in a text that does not end in a comment line and
has at most one comment line directly before its first header. -/
theorem parse_without_comments (P : Env) (fuel : Nat) (content stripped : Str)
    (hc : content ≠ []) (hs : stripped ≠ [])
    (hlines : coml_split stripped '\n' = without_comments (coml_split content '\n'))
    (hlast : trailing_comments (coml_split content '\n') = 0)
    (hroot : trailing_comments (root_part (coml_split content '\n')) ≤ 1) :
    (coml_parse P fuel content).map (Option.map Coml.stores) =
      (coml_parse P fuel stripped).map (Option.map Coml.stores) := by
  unfold coml_parse
  rw [if_neg hc, if_neg hs]
  simp only [hlines, coml_split_length]
  have hfil := root_loop_filter P (coml_split content '\n') 0 0
    { raw_content := content, tables := [], items := [], next_table := 0 }
    { raw_content := stripped, tables := [], items := [], next_table := 0 } rfl rfl
  cases hR : coml_parse_root_loop P (coml_split content '\n') 0
      { raw_content := content, tables := [], items := [], next_table := 0 } with
  | error e =>
    rw [hR] at hfil
    cases hR' : coml_parse_root_loop P (without_comments (coml_split content '\n')) 0
        { raw_content := stripped, tables := [], items := [], next_table := 0 } with
    | error e' =>
      rw [hR'] at hfil
      simp only [Except.map, Except.error.injEq] at hfil
      subst hfil
      rfl
    | ok d' => rw [hR'] at hfil; simp [Except.map] at hfil
  | ok d =>
    rw [hR] at hfil
    cases hR' : coml_parse_root_loop P (without_comments (coml_split content '\n')) 0
        { raw_content := stripped, tables := [], items := [], next_table := 0 } with
    | error e' => rw [hR'] at hfil; simp [Except.map] at hfil
    | ok d' =>
      rw [hR'] at hfil
      simp only [Except.map, Except.ok.injEq, Coml.stores, Prod.mk.injEq] at hfil
      obtain ⟨hraw, -⟩ := root_loop_frame hR
      obtain ⟨hraw', -⟩ := root_loop_frame hR'
      simp only at hraw hraw'
      obtain ⟨A, hdr, B, hls, hA, hh, hcur⟩ := root_loop_cursor hR
      obtain ⟨A', hdr', B', hls', hA', hh', hcur'⟩ := root_loop_cursor hR'
      have hFls : without_comments (coml_split content '\n') =
          without_comments A ++ hdr :: without_comments B := by
        rw [hls, without_comments_append, without_comments_cons_line B (header_not_comment hh)]
      obtain ⟨hAA, -, -⟩ := first_split_unique (fun l : Str => l.head? = some '[')
        A' hdr' B' (without_comments A) hdr (without_comments B) (by rw [← hls', hFls]) hA' hh'
        (fun l hl => hA l (mem_without_comments hl).1) hh
      have hn' : d'.next_table = (without_comments A).length := by
        rcases hcur' with ⟨hn, hall⟩ | ⟨A1, x, A2, hA1, hx, hA2, hn⟩
        · have : without_comments A = [] := by
            rw [← hAA]
            cases A' with
            | nil => rfl
            | cons a r =>
              have h1 := hall a (List.mem_cons_self _ _)
              have h2 := (mem_without_comments (hAA ▸ List.mem_cons_self a r)).2
              exact absurd h1 h2
          rw [hn, this]; rfl
        · have h2nil : A2 = [] := by
            cases A2 with
            | nil => rfl
            | cons a r =>
              have h1 := hA2 a (List.mem_cons_self _ _)
              have hmem : a ∈ without_comments A := by rw [← hAA, hA1]; simp
              exact absurd h1 (mem_without_comments hmem).2
          rw [hn, ← hAA, hA1, h2nil]; simp
      rw [hls, root_part_split A hdr B hA hh] at hroot
      have hinv : ∃ pre cs post, coml_split content '\n' = pre ++ cs ++ post ∧
          d.next_table = pre.length ∧ d'.next_table = (without_comments pre).length ∧
          (∀ l ∈ cs, l.head? = some '#') ∧ cs.length ≤ 1 ∧
          (∀ l, post.head? = some l → l.head? ≠ some '#') ∧ (post = [] → cs = []) := by
        rcases hcur with ⟨hn, hall⟩ | ⟨A1, x, A2, hA1, hx, hA2, hn⟩
        · rw [trailing_comments_all hall] at hroot
          refine ⟨[], A, hdr :: B, by simpa using hls, hn, ?_, hall, hroot, ?_, by simp⟩
          · rw [hn', without_comments_comments hall]; rfl
          · intro l hl
            simp only [List.head?_cons, Option.some.injEq] at hl
            subst hl
            exact header_not_comment hh
        · rw [hA1, trailing_comments_after A1 x A2 hx hA2] at hroot
          refine ⟨A1 ++ [x], A2, hdr :: B, by rw [hls, hA1]; simp, by rw [hn]; simp, ?_, hA2,
            hroot, ?_, by simp⟩
          · rw [hn', hA1]
            have : A1 ++ x :: A2 = (A1 ++ [x]) ++ A2 := by simp
            rw [this, without_comments_append _ A2, without_comments_comments hA2]
            simp
          · intro l hl
            simp only [List.head?_cons, Option.some.injEq] at hl
            subst hl
            exact header_not_comment hh
      exact parse_tables_filter P (coml_split content '\n') (trailing_comments_zero hlast) fuel
        d d' (by rw [hraw]) (by rw [hraw']; exact hlines) hfil.1 hfil.2 hinv

/-- C21 fails on the code. Before the first header `coml_parse_table` skips
one comment line, not more: on `# a` / `# b` / `[t]` / `k = 1` the root loop
leaves the cursor at line 0, the call skips `# a` and takes `# b` for the
header, and the document gets a table named by the inside of `# b` (one
blank), with no entry, besides the table `t`; the text without the two
comment lines gives the table `t` alone. A comment as last line keeps the
outer loop from ending. On every other text comment lines are inert: when
the text does not end in a comment line and at most one comment line stands
directly before the first header, `coml_parse` stops in the same way or
returns the same root entries and the same tables as on a text whose lines
are the lines that are not comments. -/
theorem one_comment_skipped_before_header (P : Env) :
    (∀ fuel, coml_parse P (fuel + 2) "# a\n# b\n[t]\nk = 1\n".toList =
      .ok (some { raw_content := "# a\n# b\n[t]\nk = 1\n".toList,
                  tables := [{ name := "t".toList,
                               items := [{ key := "k".toList,
                                           value := some (.double (P.atof "1".toList)),
                                           type := ComlType_Double, list_length := 0 }] },
                             { name := " ".toList, items := [] }],
                  items := [], next_table := 4 })) ∧
    (∀ fuel, coml_parse P (fuel + 1) "[t]\nk = 1\n".toList =
      .ok (some { raw_content := "[t]\nk = 1\n".toList,
                  tables := [{ name := "t".toList,
                               items := [{ key := "k".toList,
                                           value := some (.double (P.atof "1".toList)),
                                           type := ComlType_Double, list_length := 0 }] }],
                  items := [], next_table := 2 })) ∧
    (∀ fuel, coml_parse fixEnv fuel "[t]\nk = 1\n# c\n".toList = .error .fuel) ∧
    (∀ (fuel : Nat) (content stripped : Str), content ≠ [] → stripped ≠ [] →
      coml_split stripped '\n' = without_comments (coml_split content '\n') →
      trailing_comments (coml_split content '\n') = 0 →
      trailing_comments (root_part (coml_split content '\n')) ≤ 1 →
      (coml_parse P fuel content).map (Option.map Coml.stores) =
        (coml_parse P fuel stripped).map (Option.map Coml.stores)) :=
  ⟨fun fuel => by cases fuel <;> rfl, fun fuel => by cases fuel <;> rfl,
    fun fuel => stall_last_comment_loop fuel [],
    fun fuel content stripped => parse_without_comments P fuel content stripped⟩

/-- C21, the inert case at a text with comment lines in the root part, one
comment line before the first header, and comment lines inside and between
the table blocks: the parse gives the stores of the text without them. -/
theorem one_comment_skipped_before_header_witness :
    (coml_parse fixEnv 2
        "x = 1\n# a\n[t]\n# b\n# c\nk = 1\n# d\n# e\n[u]\nj = 2\n".toList).map
        (Option.map Coml.stores) =
      (coml_parse fixEnv 2 "x = 1\n[t]\nk = 1\n[u]\nj = 2\n".toList).map
        (Option.map Coml.stores) :=
  (one_comment_skipped_before_header fixEnv).2.2.2 2
    "x = 1\n# a\n[t]\n# b\n# c\nk = 1\n# d\n# e\n[u]\nj = 2\n".toList
    "x = 1\n[t]\nk = 1\n[u]\nj = 2\n".toList (by decide) (by decide) (by decide) (by decide)
    (by decide)

/-! ## Blank lines -/

theorem split_loop_token (d : Char) (input tok : Str) (htok : d ∉ tok) :
    ∀ l ∈ coml_split_loop d input tok, l ≠ [] ∧ d ∉ l := by
  induction input generalizing tok with
  | nil =>
    intro l hl
    by_cases h : tok = []
    · simp [coml_split_loop, h] at hl
    · simp only [coml_split_loop, h, if_false, List.mem_singleton] at hl
      subst hl
      exact ⟨h, htok⟩
  | cons c rest ih =>
    intro l hl
    by_cases hc : c = d
    · by_cases h : tok = []
      · simp only [coml_split_loop, hc, h, if_true] at hl
        exact ih [] (by simp) l hl
      · simp only [coml_split_loop, hc, h, if_true, if_false, List.mem_cons] at hl
        rcases hl with rfl | hl
        · exact ⟨h, htok⟩
        · exact ih [] (by simp) l hl
    · simp only [coml_split_loop, hc, if_false] at hl
      refine ih (tok ++ [c]) ?_ l hl
      simp only [List.mem_append, List.mem_singleton, not_or]
      exact ⟨htok, fun e => hc e.symm⟩

theorem split_token (d : Char) (input : Str) :
    ∀ l ∈ coml_split input d, l ≠ [] ∧ d ∉ l :=
  split_loop_token d input [] (by simp)

theorem split_loop_blank_line (a b tok : Str) :
    coml_split_loop '\n' (a ++ '\n' :: '\n' :: b) tok =
      coml_split_loop '\n' (a ++ '\n' :: b) tok := by
  induction a generalizing tok with
  | nil =>
    by_cases h : tok = []
    · simp [coml_split_loop, h]
    · simp [coml_split_loop, h]
  | cons c a ih =>
    by_cases hc : c = '\n'
    · by_cases h : tok = []
      · simp [coml_split_loop, hc, h, ih]
      · simp [coml_split_loop, hc, h, ih]
    · simp [coml_split_loop, hc, ih]

theorem table_loop_raw (P : Env) (r : Str) (ls : List Str) (i : Nat) (c : Coml) (t : Coml_Table) :
    coml_parse_table_loop P ls i { c with raw_content := r } t =
      (coml_parse_table_loop P ls i c t).map
        (fun x => (x.1, { x.2.1 with raw_content := r }, x.2.2)) := by
  induction ls generalizing i c t with
  | nil => rfl
  | cons l rest ih =>
    rw [coml_parse_table_loop, coml_parse_table_loop]
    by_cases h1 : l.head? = some '#'
    · rw [if_pos h1, if_pos h1]; exact ih _ _ _
    · rw [if_neg h1, if_neg h1]
      by_cases h2 : l.head? = some '['
      · rw [if_pos h2, if_pos h2]; rfl
      · rw [if_neg h2, if_neg h2]
        cases hk : coml_parse_kv P t l with
        | error e => rfl
        | ok p =>
          obtain ⟨b, t'⟩ := p
          cases b with
          | false => by_cases hr : rest = [] <;> simp [hr, Except.map]
          | true =>
            by_cases hr : rest = []
            · subst hr
              simp [coml_parse_table_loop, Except.map]
            · simp only [hr, if_false]
              exact ih _ _ _

theorem parse_table_raw (P : Env) (r : Str) (c : Coml)
    (h : coml_split r '\n' = coml_split c.raw_content '\n') :
    coml_parse_table P { c with raw_content := r } =
      (coml_parse_table P c).map (fun x => (x.1, { x.2 with raw_content := r })) := by
  unfold coml_parse_table
  simp only [h]
  cases h0 : (coml_split c.raw_content '\n')[c.next_table]? with
  | none => rfl
  | some l0 =>
    simp only
    by_cases hc : l0.head? = some '#'
    · simp only [hc, if_true]
      cases h1 : (coml_split c.raw_content '\n')[c.next_table + 1]? with
      | none => rfl
      | some header =>
        simp only
        cases hs : strip_ends header with
        | error e => rfl
        | ok name =>
          simp only
          have := table_loop_raw P r (List.drop (c.next_table + 1 + 1) (coml_split c.raw_content '\n'))
            (c.next_table + 1 + 1) { c with next_table := c.next_table + 1 } (coml_new_table name [])
          simp only at this
          rw [this]
          cases hl : coml_parse_table_loop P (List.drop (c.next_table + 1 + 1) (coml_split c.raw_content '\n'))
            (c.next_table + 1 + 1) { c with next_table := c.next_table + 1 } (coml_new_table name []) with
          | error e => rfl
          | ok p =>
            obtain ⟨b, c', t'⟩ := p
            cases b <;> rfl
    · simp only [hc, if_false, h0]
      cases hs : strip_ends l0 with
      | error e => rfl
      | ok name =>
        simp only
        have := table_loop_raw P r (List.drop (c.next_table + 1) (coml_split c.raw_content '\n'))
          (c.next_table + 1) c (coml_new_table name [])
        rw [this]
        cases hl : coml_parse_table_loop P (List.drop (c.next_table + 1) (coml_split c.raw_content '\n'))
          (c.next_table + 1) c (coml_new_table name []) with
        | error e => rfl
        | ok p =>
          obtain ⟨b, c', t'⟩ := p
          cases b <;> rfl

theorem parse_table_keeps_raw {P : Env} {c c' : Coml} {b : Bool}
    (h : coml_parse_table P c = .ok (b, c')) : c'.raw_content = c.raw_content := by
  unfold coml_parse_table at h
  cases h0 : (coml_split c.raw_content '\n')[c.next_table]? with
  | none => simp [h0] at h
  | some l0 =>
    simp only [h0] at h
    split at h
    · simp at h
    · rename_i header hh
      split at h
      · simp at h
      · rename_i name hs
        split at h
        · simp at h
        · rename_i c1 t1 hl
          simp only [Except.ok.injEq, Prod.mk.injEq] at h
          rw [← h.2, (table_loop_frame hl).1]
          by_cases hc : l0.head? = some '#' <;> simp [hc]
        · rename_i c1 t1 hl
          simp only [Except.ok.injEq, Prod.mk.injEq] at h
          rw [← h.2]
          simp only
          rw [(table_loop_frame hl).1]
          by_cases hc : l0.head? = some '#' <;> simp [hc]

theorem parse_tables_raw (P : Env) (r : Str) (n fuel : Nat) (c : Coml)
    (h : coml_split r '\n' = coml_split c.raw_content '\n') :
    coml_parse_tables P n fuel { c with raw_content := r } =
      (coml_parse_tables P n fuel c).map (Option.map (fun d => { d with raw_content := r })) := by
  induction fuel generalizing c with
  | zero =>
    simp only [coml_parse_tables]
    by_cases hn : c.next_table = n <;> simp [hn, Except.map]
  | succ fuel ih =>
    simp only [coml_parse_tables]
    by_cases hn : c.next_table = n
    · simp [hn, Except.map]
    · simp only [ne_eq, hn, not_false_eq_true, if_true]
      rw [parse_table_raw P r c h]
      cases hp : coml_parse_table P c with
      | error e => rfl
      | ok p =>
        obtain ⟨b, c1⟩ := p
        cases b with
        | false => rfl
        | true =>
          simp only [Except.map]
          exact ih c1 (by rw [parse_table_keeps_raw hp]; exact h)

theorem root_loop_raw (P : Env) (r : Str) (ls : List Str) (i : Nat) (c : Coml) :
    coml_parse_root_loop P ls i { c with raw_content := r } =
      (coml_parse_root_loop P ls i c).map (fun d => { d with raw_content := r }) := by
  induction ls generalizing i c with
  | nil => rfl
  | cons l rest ih =>
    rw [coml_parse_root_loop, coml_parse_root_loop]
    by_cases h1 : l.head? = some '['
    · rw [if_pos h1, if_pos h1]; rfl
    · rw [if_neg h1, if_neg h1]
      by_cases h2 : l.head? = some '#'
      · rw [if_pos h2, if_pos h2]; exact ih _ _
      · rw [if_neg h2, if_neg h2]
        simp only
        cases hk : coml_insert_kv P c.items (coml_split (coml_trim l) '=')[0]?
            (coml_split (coml_trim l) '=')[1]? with
        | error e => rfl
        | ok items => exact ih (i + 1) { c with items := items, next_table := i + 1 }

/-- The parse depends on the text through its lines only: two texts with the
same lines give the same result but for the retained text. -/
theorem parse_same_lines (P : Env) (fuel : Nat) (x y : Str) (hx : x ≠ []) (hy : y ≠ [])
    (h : coml_split x '\n' = coml_split y '\n') :
    coml_parse P fuel x =
      (coml_parse P fuel y).map (Option.map (fun d => { d with raw_content := x })) := by
  unfold coml_parse
  rw [if_neg hx, if_neg hy]
  simp only [h]
  have hr := root_loop_raw P x (coml_split y '\n') 0
    { raw_content := y, tables := [], items := [], next_table := 0 }
  simp only at hr
  rw [hr]
  cases hroot : coml_parse_root_loop P (coml_split y '\n') 0
      { raw_content := y, tables := [], items := [], next_table := 0 } with
  | error e => rfl
  | ok c =>
    simp only [Except.map]
    have hraw : c.raw_content = y := (root_loop_frame hroot).1
    rw [parse_tables_raw P x _ fuel c (by rw [hraw]; exact h)]
    rfl

/-- C22, amended. An empty line never reaches the key/value step: the split
of a text into lines yields no empty line, so a text with an empty line after
any line has the same lines as the text without it, and `coml_parse` gives
the same result on both (the same stop, or the same entries, tables and
cursor; only the retained text differs). -/
theorem blank_lines_are_dropped (P : Env) :
    (∀ content : Str, ∀ l ∈ coml_split content '\n', l ≠ []) ∧
    (∀ a b : Str,
      coml_split (a ++ '\n' :: '\n' :: b) '\n' = coml_split (a ++ '\n' :: b) '\n') ∧
    (∀ (fuel : Nat) (a b : Str),
      coml_parse P fuel (a ++ '\n' :: '\n' :: b) =
        (coml_parse P fuel (a ++ '\n' :: b)).map
          (Option.map (fun d => { d with raw_content := a ++ '\n' :: '\n' :: b }))) :=
  ⟨fun content l hl => (split_token '\n' content l hl).1,
    fun a b => split_loop_blank_line a b [],
    fun fuel a b => parse_same_lines P fuel _ _ (by simp) (by simp)
      (split_loop_blank_line a b [])⟩

/-- C22 as stated fails. The text of `main.c` has an empty line after `str2`,
the last entry of table `stuff`; `coml_parse` returns a document for it, and
table `stuff` holds `str1` and `str2`. -/
theorem blank_line_after_entries_parses :
    ∃ doc, coml_parse fixEnv 2 main_document = .ok (some doc) ∧
      doc.layout =
        (["some-string".toList],
         [("qwerty".toList, ["nums".toList, "list".toList, "stringwithspace".toList,
                             "floot".toList, "number".toList, "boolean".toList]),
          ("stuff".toList, ["str2".toList, "str1".toList])]) := by
  refine ⟨_, rfl, ?_⟩
  decide

/-! ## Statements with more than one separator -/

theorem split_two_separators (key v rest : Str) (hkey : key ≠ []) (hk : '=' ∉ key)
    (hv : v ≠ []) (hve : '=' ∉ v) :
    coml_split (key ++ '=' :: (v ++ '=' :: rest)) '=' = key :: v :: coml_split rest '=' := by
  unfold coml_split
  rw [split_loop_word '=' key hk, List.nil_append, split_loop_delim _ _ _ hkey,
    split_loop_word '=' v hve, List.nil_append, split_loop_delim _ _ _ hv]

/-- C23 fails on the code. The statement is split at every `=`, not once,
and the first two parts are the key and the literal: for a trimmed statement
`key=v=rest` the literal is `v`, and what follows the second `=` is dropped.
The line `k = "a=b"` is trimmed to `k="a=b"` and split into `k`, `"a` and
`b"`; the literal `"a` has no closing quote, `coml_parse_value` rejects it,
and `k` is stored with a `NULL` value, not with the string `a=b`. The line
`k = 1 = 2` gives the same table as `k = 1`. With one `=` in the statement
the parts are the text before it and the whole text after it. -/
theorem statement_split_on_every_separator (P : Env) :
    (∀ key v rest : Str, key ≠ [] → '=' ∉ key → v ≠ [] → '=' ∉ v →
      coml_split (key ++ '=' :: (v ++ '=' :: rest)) '=' = key :: v :: coml_split rest '=') ∧
    (∀ key v : Str, key ≠ [] → '=' ∉ key → v ≠ [] → '=' ∉ v →
      coml_split (key ++ '=' :: v) '=' = [key, v]) ∧
    coml_trim "k = \x22a=b\x22".toList = "k=\x22a=b\x22".toList ∧
    coml_split "k=\x22a=b\x22".toList '=' = ["k".toList, "\x22a".toList, "b\x22".toList] ∧
    (∀ table, coml_parse_kv P table "k = \x22a=b\x22".toList =
      .ok (true, { table with items :=
        { key := "k".toList, value := none, type := P.fresh_kv.type,
          list_length := P.fresh_kv.list_length } :: table.items })) ∧
    (∀ fuel, coml_parse P (fuel + 1) "[t]\nk = \x22a=b\x22\n".toList =
      .ok (some { raw_content := "[t]\nk = \x22a=b\x22\n".toList,
                  tables := [{ name := "t".toList,
                               items := [{ key := "k".toList, value := none,
                                           type := P.fresh_kv.type,
                                           list_length := P.fresh_kv.list_length }] }],
                  items := [], next_table := 2 })) ∧
    (∀ fuel, (coml_parse P (fuel + 1) "[t]\nk = 1 = 2\n".toList).map (Option.map Coml.tables) =
      (coml_parse P (fuel + 1) "[t]\nk = 1\n".toList).map (Option.map Coml.tables)) :=
  ⟨split_two_separators,
    fun key v hkey hk hv hve => split_statement key v hkey hk hve hv,
    rfl, rfl, fun _ => rfl, fun fuel => by cases fuel <;> rfl,
    fun fuel => by cases fuel <;> rfl⟩

/-! ## Keys of a store -/

theorem coml_set_layout (doc : Coml) (X : Coml_Type) (payload : Payload) (len : Option Nat)
    (T : Option Str) (K : Str) :
    (coml_set doc X payload len T K).2.layout = doc.layout :=
  frame_layout (coml_set_frame doc X payload len T K)

theorem setter_call_layout (P : Env) (doc : Coml) (call : SetterCall) (result : Bool × Coml)
    (h : call.run P doc = .ok result) : result.2.layout = doc.layout := by
  cases call with
  | set_int v T K => cases h; exact coml_set_layout _ _ _ _ _ _
  | set_float v T K =>
    rw [set_float_result h]
    exact coml_set_layout _ _ _ _ _ _
  | set_string v T K => cases h; exact coml_set_layout _ _ _ _ _ _
  | set_bool v T K => cases h; exact coml_set_layout _ _ _ _ _ _
  | set_list_double v T K => cases h; exact frame_layout (set_list_double_frame _ _ _ _ _)
  | set_list_string v T K => exact frame_layout (set_list_string_frame h)

theorem run_setters_layout (P : Env) (doc doc' : Coml) (calls : List SetterCall)
    (h : run_setters P doc calls = .ok doc') : doc'.layout = doc.layout := by
  induction calls generalizing doc with
  | nil =>
    cases h
    rfl
  | cons call rest ih =>
    rw [run_setters] at h
    cases hc : call.run P doc with
    | error e =>
      rw [hc] at h
      exact Except.noConfusion h
    | ok result =>
      rw [hc] at h
      rw [ih result.2 h, setter_call_layout P doc call result hc]

theorem setter_call_returns (P : Env) (doc : Coml) (call : SetterCall)
    (h : call.always_returns P = true) : ∃ result, call.run P doc = .ok result := by
  cases call with
  | set_int v T K => exact ⟨_, rfl⟩
  | set_float v T K => exact ⟨_, set_float_defined P doc v T K h⟩
  | set_string v T K => exact ⟨_, rfl⟩
  | set_bool v T K => exact ⟨_, rfl⟩
  | set_list_double v T K => exact ⟨_, rfl⟩
  | set_list_string v T K => exact absurd h (by simp [SetterCall.always_returns])

theorem run_setters_returns (P : Env) (doc : Coml) (calls : List SetterCall)
    (h : ∀ call ∈ calls, call.always_returns P = true) :
    ∃ doc', run_setters P doc calls = .ok doc' := by
  induction calls generalizing doc with
  | nil => exact ⟨_, rfl⟩
  | cons call rest ih =>
    obtain ⟨result, hc⟩ := setter_call_returns P doc call (h call (List.mem_cons_self _ _))
    obtain ⟨doc', hd⟩ := ih result.2 (fun c hc' => h c (List.mem_cons_of_mem _ hc'))
    refine ⟨doc', ?_⟩
    rw [run_setters, hc]
    exact hd

theorem entry_of_key {P : Env} {d : Decl} (h : verdict P d ≠ none) : (entry_of P d).key = d.key := by
  unfold entry_of coml_new_kv
  unfold verdict at h
  cases hv : coml_parse_value P (fresh_entry P d.key) (some (coml_trim d.literal)) with
  | error e => simp [hv] at h
  | ok r =>
    obtain ⟨b, kv⟩ := r
    have hk := parse_value_key hv
    simp only [fresh_entry] at hk
    cases b <;> simp [hv, hk]

theorem keys_unique_layout (doc : Coml) :
    keys_unique doc ↔ doc.layout.1.Nodup ∧ ∀ p ∈ doc.layout.2, p.2.Nodup := by
  simp [keys_unique, Coml.layout]

theorem map_entry_keys {P : Env} (ds : List Decl) (h : ∀ d ∈ ds, decl_ok P d) :
    (ds.map (entry_of P)).map Coml_KV.key = ds.map Decl.key := by
  rw [List.map_map]
  apply List.map_congr_left
  intro d hd
  exact entry_of_key (h d hd).2.2

theorem parsed_layout {P : Env} (roots : List Decl) (tables : List TableDecl)
    (hroots : ∀ d ∈ roots, decl_ok P d) (htables : ∀ t ∈ tables, table_ok P t) (raw : Str)
    (n : Nat) :
    Coml.layout { raw_content := raw, tables := (tables.map (table_of P)).reverse,
                  items := (roots.map (entry_of P)).reverse, next_table := n } =
      ((roots.map Decl.key).reverse,
       (tables.map (fun t => (t.name, (t.entries.map Decl.key).reverse))).reverse) := by
  simp only [Coml.layout, List.map_reverse, Prod.mk.injEq]
  refine ⟨by rw [map_entry_keys roots hroots], ?_⟩
  congr 1
  rw [List.map_map]
  apply List.map_congr_left
  intro t ht
  simp only [Function.comp, table_of, List.map_reverse, Prod.mk.injEq, true_and]
  rw [map_entry_keys t.entries (htables t ht).2]

/-- C24, amended. Keys need not be unique in a store. The setters never
change the keys, the table names or their order, in any document: the
document a sequence of setter calls ends in has those of the document it began
with, and a sequence of calls each of which returns on every document ends in
a document. For a text of root lines and table blocks that the parser can
take, the document `coml_parse` returns holds in each store one entry for
every declared line, the declared keys in reverse order of declaration,
duplicates included, and it still does after any sequence of setter calls; so
the keys of every store are unique exactly when no root key and no key of one
block is declared twice. -/
theorem keys_follow_the_declarations (P : Env) (roots : List Decl) (tables : List TableDecl)
    (hroots : ∀ d ∈ roots, decl_ok P d) (hne : tables ≠ [])
    (htables : ∀ t ∈ tables, table_ok P t ∧ t.entries ≠ [])
    (fuel : Nat) (hf : tables.length ≤ fuel) (calls : List SetterCall) :
    (∀ (d d' : Coml) (l : List SetterCall), run_setters P d l = .ok d' →
      d'.layout = d.layout) ∧
    (∀ (d : Coml) (l : List SetterCall), (∀ call ∈ l, call.always_returns P = true) →
      ∃ d', run_setters P d l = .ok d') ∧
    ∃ doc, coml_parse P fuel (doc_text roots tables) = .ok (some doc) ∧
      ∀ doc', run_setters P doc calls = .ok doc' →
        doc'.layout =
          ((roots.map Decl.key).reverse,
           (tables.map (fun t => (t.name, (t.entries.map Decl.key).reverse))).reverse) ∧
        (keys_unique doc' ↔
          (roots.map Decl.key).Nodup ∧ ∀ t ∈ tables, (t.entries.map Decl.key).Nodup) := by
  refine ⟨run_setters_layout P, run_setters_returns P, _, parse_shape roots tables _
      (split_doc_text roots tables hroots (fun t ht => (htables t ht).1)) hroots hne
      (fun t ht => (htables t ht).1) (fun t hl => (htables t (getLast_mem hl)).2) fuel hf, ?_⟩
  intro doc' hrun
  constructor
  · rw [run_setters_layout P _ _ _ hrun,
      parsed_layout roots tables hroots (fun t ht => (htables t ht).1)]
  · rw [keys_unique_layout, run_setters_layout P _ _ _ hrun,
      parsed_layout roots tables hroots (fun t ht => (htables t ht).1)]
    simp only [List.nodup_reverse, List.mem_reverse, List.mem_map, forall_exists_index, and_imp,
      forall_apply_eq_imp_iff₂]

/-- C24, amended, at `a = 1` / `[t]` / `k = 1` / `j = 2` followed by a numeric
setter on `k` and a boolean setter on `a`: the calls return, and the keys of
every store are still unique. -/
theorem keys_follow_the_declarations_witness :
    ∃ doc doc', coml_parse fixEnv 1 "a = 1\n[t]\nk = 1\nj = 2\n".toList = .ok (some doc) ∧
      run_setters fixEnv doc
        [.set_int 5 (some "t".toList) "k".toList, .set_bool true none "a".toList]
          = .ok doc' ∧
      keys_unique doc' := by
  obtain ⟨-, hret, doc, hdoc, hu⟩ := keys_follow_the_declarations fixEnv
    [{ key := "a".toList, literal := "1".toList }]
    [{ name := "t".toList, entries := [{ key := "k".toList, literal := "1".toList },
                                       { key := "j".toList, literal := "2".toList }] }]
    (by decide) (by decide) (by decide) 1 (by decide)
    [.set_int 5 (some "t".toList) "k".toList, .set_bool true none "a".toList]
  obtain ⟨doc', hrun⟩ := hret doc
    [.set_int 5 (some "t".toList) "k".toList, .set_bool true none "a".toList] (by decide)
  exact ⟨doc, doc', hdoc, hrun, (hu doc' hrun).2.mpr (by decide)⟩

/-- C24 as stated fails. The text `[t]` / `k = 1` / `k = 2` is parsed into a
document whose table `t` has two entries with key `k`. -/
theorem duplicate_keys_are_stored :
    ∃ doc, coml_parse fixEnv 1 "[t]\nk = 1\nk = 2\n".toList = .ok (some doc) ∧
      ¬ keys_unique doc := by
  refine ⟨_, rfl, ?_⟩
  decide

/-! ## The trimmed line -/

theorem trim_loop_spec (pre s : Str) :
    coml_trim_loop (decide (quotes_before pre pre.length % 2 = 1)) s =
      (List.range s.length).filterMap
        (fun i => if spec_removed (pre ++ s) (pre.length + i) then none
                  else (pre ++ s)[pre.length + i]?) := by
  induction s generalizing pre with
  | nil => simp [coml_trim_loop]
  | cons c s ih =>
    have hstep : ∀ i, (pre ++ c :: s)[pre.length + (i + 1)]? = ((pre ++ [c]) ++ s)[(pre ++ [c]).length + i]? := by
      intro i
      simp only [List.append_assoc, List.singleton_append, List.length_append, List.length_singleton]
      congr 1
      omega
    have hq : ∀ i, quotes_before (pre ++ c :: s) (pre.length + (i + 1)) =
        quotes_before ((pre ++ [c]) ++ s) ((pre ++ [c]).length + i) := by
      intro i
      simp only [quotes_before, List.append_assoc, List.singleton_append, List.length_append,
        List.length_singleton]
      congr 2
      omega
    have hrem : ∀ i, spec_removed (pre ++ c :: s) (pre.length + (i + 1)) =
        spec_removed ((pre ++ [c]) ++ s) ((pre ++ [c]).length + i) := by
      intro i
      simp only [spec_removed, hstep, hq]
    have h0 : (pre ++ c :: s)[pre.length + 0]? = some c := by
      rw [Nat.add_zero, List.getElem?_append_right (le_refl _)]
      simp
    have hq0 : quotes_before (pre ++ c :: s) (pre.length + 0) = quotes_before pre pre.length := by
      simp [quotes_before]
    have hq1 : quotes_before (pre ++ [c]) (pre ++ [c]).length =
        quotes_before pre pre.length + (if c = DQ ∨ c = SQ then 1 else 0) := by
      unfold quotes_before
      rw [List.take_length, List.take_length, List.countP_append]
      by_cases hc : c = DQ ∨ c = SQ
      · simp [List.countP_cons, hc]
      · simp [List.countP_cons, hc]
    have ih := ih (pre ++ [c])
    rw [hq1] at ih
    rw [List.length_cons, List.range_succ_eq_map, List.filterMap_cons, List.filterMap_map]
    simp only [Function.comp_def, Nat.succ_eq_add_one, hstep, hrem]
    rw [← ih]
    simp only [spec_removed, h0, hq0, coml_trim_loop]
    by_cases hquote : c = DQ ∨ c = SQ
    · have h32 : c ≠ Char.ofNat 32 := by rintro rfl; revert hquote; decide
      have h9 : c ≠ Char.ofNat 9 := by rintro rfl; revert hquote; decide
      rcases Nat.mod_two_eq_zero_or_one (quotes_before pre pre.length) with hp | hp
      · have hp' : (quotes_before pre pre.length + 1) % 2 = 1 := by omega
        simp [hquote, h32, h9, hp, hp']
      · have hp' : ¬ (quotes_before pre pre.length + 1) % 2 = 1 := by omega
        simp [hquote, h32, h9, hp, hp']
    · rcases Nat.mod_two_eq_zero_or_one (quotes_before pre pre.length) with hp | hp
      · by_cases hb : c = Char.ofNat 32 ∨ c = Char.ofNat 9
        · rcases hb with rfl | rfl <;> simp [hp, hquote]
        · push_neg at hb
          simp [hquote, hp, hb.1, hb.2]
      · simp [hquote, hp]

/-- C25. For every line, `coml_trim` returns the characters of the line in
their order without the spaces (0x20) and tabs (0x09) that are preceded by an
even number of quote characters, `"` and `'` counted together; every other
character is kept, the quote characters and the blanks inside a quoted span
among them. So `a  " b<tab>' c 'd " e` becomes `a" b<tab>'c'd "e`: the single
quote closes the span that the double quote opened. -/
theorem trim_is_string_aware_filter :
    (∀ input : Str, coml_trim input = spec_trim input) ∧
    coml_trim "a  \x22 b\t\x27 c \x27d \x22 e".toList = "a\x22 b\t\x27c\x27d \x22e".toList := by
  refine ⟨fun input => ?_, by decide⟩
  have h := trim_loop_spec [] input
  simpa [quotes_before, coml_trim, spec_trim] using h

/-! ## Duplicate keys -/

theorem get_value_raw_loop_first {T K : Str} (pre : List Coml_Table) (t : Coml_Table)
    (post : List Coml_Table) (kpre : List Coml_KV) (kv : Coml_KV) (kpost : List Coml_KV)
    (hpre : ∀ t' ∈ pre, t'.name = T → ∀ kv' ∈ t'.items, kv'.key ≠ K) (hn : t.name = T)
    (hitems : t.items = kpre ++ kv :: kpost) (hk : kv.key = K)
    (hkpre : ∀ kv' ∈ kpre, kv'.key ≠ K) :
    coml_get_value_raw_loop T K (pre ++ t :: post) = kv.value := by
  induction pre with
  | nil =>
    have := kv_search_first kpre kv kpost hk hkpre
    simp [coml_get_value_raw_loop, hn, hitems, this]
  | cons a pre ih =>
    have ih := ih (fun t' ht' => hpre t' (List.mem_cons_of_mem _ ht'))
    by_cases ha : a.name = T
    · have : kv_search K a.items = none :=
        kv_search_none.mpr (hpre a (List.mem_cons_self _ _) ha)
      simp [coml_get_value_raw_loop, ha, this, ih]
    · simp [coml_get_value_raw_loop, ha, ih]

theorem get_kv_loop_first {T : Option Str} {K : Str} (pre : List Coml_Table) (t : Coml_Table)
    (post : List Coml_Table) (kpre : List Coml_KV) (kv : Coml_KV) (kpost : List Coml_KV)
    (hpre : ∀ t' ∈ pre, ∀ kv' ∈ t'.items, kv'.key ≠ K)
    (hitems : t.items = kpre ++ kv :: kpost) (hk : kv.key = K)
    (hkpre : ∀ kv' ∈ kpre, kv'.key ≠ K) (j : Nat) :
    coml_get_kv_loop T K (pre ++ t :: post) j = some (.table (j + pre.length) kpre.length, kv) := by
  induction pre generalizing j with
  | nil =>
    have := kv_search_first kpre kv kpost hk hkpre
    simp [coml_get_kv_loop, hitems, this]
  | cons a pre ih =>
    have ha : kv_search K a.items = none :=
      kv_search_none.mpr (hpre a (List.mem_cons_self _ _))
    have := ih (fun t' ht' => hpre t' (List.mem_cons_of_mem _ ht')) (j + 1)
    rw [List.cons_append, coml_get_kv_loop]
    simp only [ha, ite_self]
    rw [this, List.length_cons, Nat.add_assoc, Nat.add_comm 1 pre.length]

theorem entries_last {P : Env} (K : Str) (pre : List Decl) (d : Decl) (post : List Decl)
    (hall : ∀ d' ∈ pre ++ d :: post, decl_ok P d') (hk : d.key = K)
    (hpost : ∀ d' ∈ post, d'.key ≠ K) :
    ((pre ++ d :: post).map (entry_of P)).reverse =
        (post.map (entry_of P)).reverse ++ entry_of P d :: (pre.map (entry_of P)).reverse ∧
      (entry_of P d).key = K ∧
      (∀ kv' ∈ (post.map (entry_of P)).reverse, kv'.key ≠ K) ∧
      ((post.map (entry_of P)).reverse).length = post.length := by
  refine ⟨by simp, ?_, ?_, by simp⟩
  · rw [entry_of_key (hall d (by simp)).2.2, hk]
  · intro kv' hkv'
    simp only [List.mem_reverse, List.mem_map] at hkv'
    obtain ⟨d', hd', rfl⟩ := hkv'
    rw [entry_of_key (hall d' (by simp [hd'])).2.2]
    exact hpost d' hd'

theorem no_key_in_table {P : Env} (K : Str) (t : TableDecl) (ht : table_ok P t)
    (h : ∀ d' ∈ t.entries, d'.key ≠ K) : ∀ kv' ∈ (table_of P t).items, kv'.key ≠ K := by
  intro kv' hkv'
  simp only [table_of, List.mem_reverse, List.mem_map] at hkv'
  obtain ⟨d', hd', rfl⟩ := hkv'
  rw [entry_of_key (ht.2 d' hd').2.2]
  exact h d' hd'

/-- C26, amended. For a text of root lines and table blocks that the parser
can take, every declared line is stored, duplicates included, and within one
store the last declaration of a key is the one found. For the last
declaration `d` of key `K` in a table block `t`: the scoped lookup of
`(t.name, K)` returns the value of `d` when no block declared after `t` has
the name of `t` and declares `K`; the unscoped lookup of `K` returns it when
neither the root section nor a block declared after `t` declares `K`; and
`coml_get_kv`, given the name of `t` (or `NULL`, when the root section does
not declare `K`), locates the entry of `d`, and a setter stores into it if
its tag fits, when no block declared after `t` declares `K`. For the last
declaration `d` of `K` in the root section: the unscoped lookup returns the
value of `d`, `coml_get_kv` with a `NULL` table name locates its entry and a
setter stores into it, and the scoped lookup does not read the root store.
`coml_set` is the body shared by the setters: the store that `coml_set_int`,
`coml_set_string` and `coml_set_bool` make, and `coml_set_float` where its
store has room; the list setters locate the entry with the same
`coml_get_kv`. -/
theorem last_declaration_wins (P : Env) (roots : List Decl) (tables : List TableDecl)
    (hroots : ∀ d ∈ roots, decl_ok P d) (hne : tables ≠ [])
    (htables : ∀ t ∈ tables, table_ok P t ∧ t.entries ≠ [])
    (fuel : Nat) (hf : tables.length ≤ fuel) (K : Str) :
    ∃ doc, coml_parse P fuel (doc_text roots tables) = .ok (some doc) ∧
      doc.items = (roots.map (entry_of P)).reverse ∧
      doc.tables = (tables.map (table_of P)).reverse ∧
      (∀ tpre t tpost pre d post, tables = tpre ++ t :: tpost → t.entries = pre ++ d :: post →
        d.key = K → (∀ d' ∈ post, d'.key ≠ K) →
        ((∀ t' ∈ tpost, t'.name = t.name → ∀ d' ∈ t'.entries, d'.key ≠ K) →
          coml_get_value_raw doc t.name K = (entry_of P d).value) ∧
        ((∀ d' ∈ roots, d'.key ≠ K) → (∀ t' ∈ tpost, ∀ d' ∈ t'.entries, d'.key ≠ K) →
          coml_find_value_raw doc K = (entry_of P d).value) ∧
        (∀ T : Option Str, (T = some t.name ∨ (T = none ∧ ∀ d' ∈ roots, d'.key ≠ K)) →
          (∀ t' ∈ tpost, ∀ d' ∈ t'.entries, d'.key ≠ K) →
          coml_get_kv doc T K = some (.table tpost.length post.length, entry_of P d) ∧
          ∀ X payload len, coml_set doc X payload len T K =
            if (entry_of P d).type ≠ X then (false, doc)
            else (true, doc.kv_store (.table tpost.length post.length)
              { entry_of P d with value := some payload,
                                  list_length := len.getD (entry_of P d).list_length }))) ∧
      (∀ pre d post, roots = pre ++ d :: post → d.key = K → (∀ d' ∈ post, d'.key ≠ K) →
        coml_find_value_raw doc K = (entry_of P d).value ∧
        coml_get_kv doc none K = some (.root post.length, entry_of P d) ∧
        (∀ X payload len, coml_set doc X payload len none K =
          if (entry_of P d).type ≠ X then (false, doc)
          else (true, doc.kv_store (.root post.length)
            { entry_of P d with value := some payload,
                                list_length := len.getD (entry_of P d).list_length })) ∧
        ∀ T items, coml_get_value_raw doc T K = coml_get_value_raw { doc with items := items } T K) := by
  have hok : ∀ t ∈ tables, table_ok P t := fun t ht => (htables t ht).1
  refine ⟨_, parse_shape roots tables _ (split_doc_text roots tables hroots hok) hroots hne hok
      (fun t hl => (htables t (getLast_mem hl)).2) fuel hf, rfl, rfl, ?_, ?_⟩
  · intro tpre t tpost pre d post htabs hents hk hpost
    have ht : table_ok P t := hok t (by simp [htabs])
    obtain ⟨hrev, hkey, hkpre, hlen⟩ := entries_last (P := P) K pre d post
      (by rw [← hents]; exact ht.2) hk hpost
    have hitems : (table_of P t).items =
        (post.map (entry_of P)).reverse ++ entry_of P d :: (pre.map (entry_of P)).reverse := by
      simp only [table_of, hents]; exact hrev
    have htl : (tables.map (table_of P)).reverse =
        (tpost.map (table_of P)).reverse ++ table_of P t :: (tpre.map (table_of P)).reverse := by
      simp [htabs]
    have hnokey : (∀ t' ∈ tpost, ∀ d' ∈ t'.entries, d'.key ≠ K) →
        ∀ t' ∈ (tpost.map (table_of P)).reverse, ∀ kv' ∈ t'.items, kv'.key ≠ K := by
      intro h t' ht'
      simp only [List.mem_reverse, List.mem_map] at ht'
      obtain ⟨t0, ht0, rfl⟩ := ht'
      exact no_key_in_table K t0 (hok t0 (by simp [htabs, ht0])) (h t0 ht0)
    refine ⟨?_, ?_, ?_⟩
    · intro hscoped
      simp only [coml_get_value_raw, htl]
      refine get_value_raw_loop_first _ _ _ _ _ _ ?_ rfl hitems hkey hkpre
      intro t' ht' hn
      simp only [List.mem_reverse, List.mem_map] at ht'
      obtain ⟨t0, ht0, rfl⟩ := ht'
      exact no_key_in_table K t0 (hok t0 (by simp [htabs, ht0])) (hscoped t0 ht0 hn)
    · intro hroot hlater
      have h0 : kv_search K (roots.map (entry_of P)).reverse = none := by
        apply kv_search_none.mpr
        intro kv' hkv'
        simp only [List.mem_reverse, List.mem_map] at hkv'
        obtain ⟨d', hd', rfl⟩ := hkv'
        rw [entry_of_key (hroots d' hd').2.2]
        exact hroot d' hd'
      simp only [coml_find_value_raw, h0, htl]
      exact find_value_raw_loop_first _ _ _ _ _ _ (hnokey hlater) hitems hkey hkpre
    · intro T hT hlater
      have hroot : T = none → ∀ d' ∈ roots, d'.key ≠ K := by
        intro hTn
        rcases hT with hT | hT
        · rw [hT] at hTn; exact Option.noConfusion hTn
        · exact hT.2
      have hget : coml_get_kv
          { raw_content := doc_text roots tables, tables := (tables.map (table_of P)).reverse,
            items := (roots.map (entry_of P)).reverse,
            next_table := (doc_lines roots tables).length } T K =
          some (.table tpost.length post.length, entry_of P d) := by
        have h0 : (if T = none then kv_search K (roots.map (entry_of P)).reverse else none) = none := by
          by_cases hT : T = none
          · rw [if_pos hT]
            apply kv_search_none.mpr
            intro kv' hkv'
            simp only [List.mem_reverse, List.mem_map] at hkv'
            obtain ⟨d', hd', rfl⟩ := hkv'
            rw [entry_of_key (hroots d' hd').2.2]
            exact hroot hT d' hd'
          · rw [if_neg hT]
        simp only [coml_get_kv, h0, htl]
        rw [get_kv_loop_first _ _ _ _ _ _ (hnokey hlater) hitems hkey hkpre 0]
        simp
      refine ⟨hget, ?_⟩
      intro X payload len
      simp only [coml_set, hget]
  · intro pre d post hr hk hpost
    obtain ⟨hrev, hkey, hkpre, hlen⟩ := entries_last (P := P) K pre d post
      (by rw [← hr]; exact hroots) hk hpost
    have hs : kv_search K (roots.map (entry_of P)).reverse = some (post.length, entry_of P d) := by
      rw [hr, hrev, kv_search_first _ _ _ hkey hkpre, hlen]
    have hget : coml_get_kv
        { raw_content := doc_text roots tables, tables := (tables.map (table_of P)).reverse,
          items := (roots.map (entry_of P)).reverse,
          next_table := (doc_lines roots tables).length } none K =
        some (.root post.length, entry_of P d) := by
      simp only [coml_get_kv, if_true, hs]
    refine ⟨?_, hget, ?_, fun _ _ => rfl⟩
    · simp only [coml_find_value_raw, hs]
    · intro X payload len
      simp only [coml_set, hget]

/-- C26, amended, at `k = 0` / `[a]` / `k = 1` / `k = 2` / `[b]` / `j = 3`:
the scoped lookup of `(a, k)` gives the `2` declared last in `a`,
`coml_get_kv` locates that entry, and the unscoped lookup of `k` gives the
`0` of the root section. -/
theorem last_declaration_wins_witness :
    ∃ doc, coml_parse fixEnv 2 "k = 0\n[a]\nk = 1\nk = 2\n[b]\nj = 3\n".toList = .ok (some doc) ∧
      coml_get_value_raw doc "a".toList "k".toList = some (.double 200000) ∧
      coml_get_kv doc (some "a".toList) "k".toList =
        some (.table 1 0, { key := "k".toList, value := some (.double 200000),
                            type := ComlType_Double, list_length := 0 }) ∧
      coml_find_value_raw doc "k".toList = some (.double 0) := by
  obtain ⟨doc, hdoc, -, -, htab, hroot⟩ := last_declaration_wins fixEnv
    [{ key := "k".toList, literal := "0".toList }]
    [{ name := "a".toList, entries := [{ key := "k".toList, literal := "1".toList },
                                       { key := "k".toList, literal := "2".toList }] },
     { name := "b".toList, entries := [{ key := "j".toList, literal := "3".toList }] }]
    (by decide) (by decide) (by decide) 2 (by decide) "k".toList
  have ha := htab []
    { name := "a".toList, entries := [{ key := "k".toList, literal := "1".toList },
                                      { key := "k".toList, literal := "2".toList }] }
    [{ name := "b".toList, entries := [{ key := "j".toList, literal := "3".toList }] }]
    [{ key := "k".toList, literal := "1".toList }] { key := "k".toList, literal := "2".toList } []
    rfl rfl rfl (by simp)
  have hr := hroot [] { key := "k".toList, literal := "0".toList } [] rfl rfl (by simp)
  exact ⟨doc, hdoc, (ha.1 (by decide)).trans (by decide),
    ((ha.2.2 (some "a".toList) (Or.inl rfl) (by decide)).1).trans (by decide),
    hr.1.trans (by decide)⟩

/-- C26 as stated fails. In the text `k = 1` / `k = 2` / `[t]` / `x = 1` the
root section declares `k` twice and both entries are stored, but the scoped
lookup of `k` returns `NULL` whatever table is named: it does not read the
root store. In the text `k = 0` / `[a]` / `k = 1` / `k = 2` the block `a`
declares `k` twice and both entries are stored; the unscoped lookup of `k`
returns the `0` of the root section, not the `2` declared later, and a setter
called with a `NULL` table name stores into the root entry and leaves both
entries of `a` as they were. -/
theorem later_duplicate_is_shadowed :
    (∃ doc, coml_parse fixEnv 1 "k = 1\nk = 2\n[t]\nx = 1\n".toList = .ok (some doc) ∧
      doc.items = [{ key := "k".toList, value := some (.double 200000),
                     type := ComlType_Double, list_length := 0 },
                   { key := "k".toList, value := some (.double 100000),
                     type := ComlType_Double, list_length := 0 }] ∧
      ∀ T, coml_get_value_raw doc T "k".toList = none) ∧
    (∃ doc, coml_parse fixEnv 1 "k = 0\n[a]\nk = 1\nk = 2\n".toList = .ok (some doc) ∧
      doc.tables = [{ name := "a".toList,
                      items := [{ key := "k".toList, value := some (.double 200000),
                                  type := ComlType_Double, list_length := 0 },
                                { key := "k".toList, value := some (.double 100000),
                                  type := ComlType_Double, list_length := 0 }] }] ∧
      coml_find_value_raw doc "k".toList = some (.double 0) ∧
      (coml_set_int fixEnv doc 7 none "k".toList).1 = true ∧
      (coml_set_int fixEnv doc 7 none "k".toList).2.tables = doc.tables) := by
  refine ⟨⟨{ raw_content := "k = 1\nk = 2\n[t]\nx = 1\n".toList,
              tables := [{ name := "t".toList,
                           items := [{ key := "x".toList, value := some (.double 100000),
                                       type := ComlType_Double, list_length := 0 }] }],
              items := [{ key := "k".toList, value := some (.double 200000),
                          type := ComlType_Double, list_length := 0 },
                        { key := "k".toList, value := some (.double 100000),
                          type := ComlType_Double, list_length := 0 }],
              next_table := 4 }, by decide, rfl, fun T => ?_⟩, ⟨_, rfl, ?_, ?_, ?_, ?_⟩⟩
  · apply get_value_raw_loop_none
    intro t ht _ kv hkv
    simp only [List.mem_singleton] at ht
    subst ht
    simp only [List.mem_singleton] at hkv
    subst hkv
    decide
  all_goals decide

end ComlH
